import Mathlib

/-! The PMX decoder of `SOP_PMXFileVerb::cook`.

A shallow embedding of `src/SOP_PMXFile.C`.

* The file contents are a list of bytes; the read pointer `current` is an
  integer offset from the start of that list.  Pointer arithmetic never
  fails, but every access to memory outside the list is a fault (`none`):
  the C++ has undefined behaviour there.
* Multi-byte values are little-endian (the hosts of the plug-in are).
* A `fpreal32` is kept as its 32-bit IEEE-754 pattern.
* The geometry container written by `cook` (`GU_Detail`) is a record of the
  data the calls put into it.
-/

namespace PMX

/-! ## Bytes, integers, floats -/

/-- One byte of the file. -/
abbrev Byte := Fin 256

/-- Little-endian unsigned value of a byte sequence (what `memcpy` into an unsigned
integer of that size yields). -/
def leNat : List Byte → Nat
  | [] => 0
  | b :: bs => b.val + 256 * leNat bs

/-- The value of a 32-bit pattern read as `int32_t` (two's complement). -/
def toInt32 (u : Nat) : Int :=
  if u % 2 ^ 32 < 2 ^ 31 then ((u % 2 ^ 32 : Nat) : Int) else ((u % 2 ^ 32 : Nat) : Int) - 2 ^ 32

/-- Conversion of an `exint` (64-bit) value to `int` (32-bit): the low 32 bits, signed. -/
def narrowToInt (v : Int) : Int := (v + 2 ^ 31) % 2 ^ 32 - 2 ^ 31

/-- Bit pattern of a `fpreal32` (IEEE-754 binary32), a number below `2 ^ 32`. -/
abbrev F32 := Nat

namespace F32

/-- Sign bit. -/
def sign (x : F32) : Bool := x / 2 ^ 31 % 2 = 1

/-- Biased exponent field. -/
def expo (x : F32) : Nat := x / 2 ^ 23 % 256

/-- Fraction field. -/
def frac (x : F32) : Nat := x % 2 ^ 23

/-- Not-a-number patterns. -/
def isNaN (x : F32) : Bool := expo x = 255 ∧ frac x ≠ 0

/-- Infinities. -/
def isInf (x : F32) : Bool := expo x = 255 ∧ frac x = 0

/-- Significand of a finite value: the value is `± mant * 2 ^ (scale - 150)`. -/
def mant (x : F32) : Nat := if expo x = 0 then frac x else 2 ^ 23 + frac x

/-- Exponent of the unit in the last place of a finite value, offset by 150. -/
def scale (x : F32) : Nat := if expo x = 0 then 1 else expo x

/-- Assemble a pattern from sign, exponent field and fraction field. -/
def pack (s : Bool) (e f : Nat) : F32 := (if s then 2 ^ 31 else 0) + e * 2 ^ 23 + f

/-- The literal `0.f`. -/
def zero : F32 := 0x00000000

/-- The literal `1.f`. -/
def one : F32 := 0x3F800000

/-- The literal `2.0f` (also written `2.f`). -/
def two : F32 := 0x40000000

/-- The literal `2.1f`: the binary32 value nearest to 2.1. -/
def twoPointOne : F32 := 0x40066666

/-- IEEE-754 comparison `a == b`: false when either side is a NaN, true for two zeros of
either sign, otherwise equality of the patterns. -/
def eq (a b : F32) : Bool :=
  if isNaN a || isNaN b then false
  else if a % 2 ^ 31 = 0 ∧ b % 2 ^ 31 = 0 then true
  else a = b

/-- Number of binary digits of `n`, found by halving at most `fuel` times. -/
def bitLength : Nat → Nat → Nat
  | 0, _ => 0
  | fuel + 1, n => if n = 0 then 0 else bitLength fuel (n / 2) + 1

/-- Round the positive number `n * 2 ^ (q - 150)` (with `1 ≤ q`) to the nearest binary32,
ties to even, and attach the sign `s`.  The numbers that arise from two binary32
operands have fewer than 512 digits. -/
def round (s : Bool) (n q : Nat) : F32 :=
  let len := bitLength 512 n
  if len ≤ 24 then
    -- exactly representable: normalise as far as the exponent allows
    let k := min (24 - len) (q - 1)
    let m := n * 2 ^ k
    if m < 2 ^ 23 then pack s 0 m
    else if q - k ≥ 255 then pack s 255 0
    else pack s (q - k) (m - 2 ^ 23)
  else
    let sh := len - 24
    let m0 := n / 2 ^ sh
    let r := n % 2 ^ sh
    let half := 2 ^ (sh - 1)
    let m := if r > half ∨ (r = half ∧ m0 % 2 = 1) then m0 + 1 else m0
    let (m, e) := if m = 2 ^ 24 then (2 ^ 23, q + sh + 1) else (m, q + sh)
    if e ≥ 255 then pack s 255 0 else pack s e (m - 2 ^ 23)

/-- IEEE-754 binary32 subtraction `a - b` in the default rounding mode (to nearest, ties
to even).  A NaN operand is returned quieted (the first one if both are); the
difference of two infinities of the same sign is the default NaN of x86-64. -/
def sub (a b : F32) : F32 :=
  if isNaN a then a ||| 0x00400000
  else if isNaN b then b ||| 0x00400000
  else if isInf a then
    if isInf b ∧ sign a = sign b then 0xFFC00000 else a
  else if isInf b then pack (!sign b) 255 0
  else
    let q := min (scale a) (scale b)
    let x : Int := (if sign a then -1 else 1) * (mant a * 2 ^ (scale a - q) : Nat)
    let y : Int := (if sign b then -1 else 1) * (mant b * 2 ^ (scale b - q) : Nat)
    let d := x - y
    if d = 0 then pack (sign a && !sign b) 0 0
    else round (decide (d < 0)) d.natAbs q

/-- The literal `-1.f`. -/
def negOne : F32 := 0xBF800000

/-- Unary minus: the sign bit is flipped. -/
def neg (x : F32) : F32 := if sign x then x - 2 ^ 31 else x + 2 ^ 31

/-- Round the positive number `n * 2 ^ (q - 150)`, for any integer `q`, to the nearest
binary32, ties to even, and attach the sign `s`: `round` where no digit is lost, and
otherwise the digits below the last place of the result (24 significant digits, or
the last place `2 ^ -149` of the subnormal numbers) are rounded off. -/
def roundZ (s : Bool) (n : Nat) (q : Int) : F32 :=
  let len := bitLength 512 n
  let sh : Int := max ((len : Int) - 24) (1 - q)
  if sh ≤ 0 then round s n q.toNat
  else
    let k := sh.toNat
    let m0 := n / 2 ^ k
    let r := n % 2 ^ k
    let half := 2 ^ (k - 1)
    let m := if r > half ∨ (r = half ∧ m0 % 2 = 1) then m0 + 1 else m0
    let e := (q + sh).toNat
    let (m, e) := if m = 2 ^ 24 then (2 ^ 23, e + 1) else (m, e)
    if m < 2 ^ 23 then pack s 0 m
    else if e ≥ 255 then pack s 255 0
    else pack s e (m - 2 ^ 23)

/-- IEEE-754 binary32 multiplication `a * b` in the default rounding mode (to nearest,
ties to even).  A NaN operand is returned quieted (the first one if both are); the
product of an infinity and a zero is the default NaN of x86-64. -/
def mul (a b : F32) : F32 :=
  if isNaN a then a ||| 0x00400000
  else if isNaN b then b ||| 0x00400000
  else if isInf a ∨ isInf b then
    if mant a = 0 ∨ mant b = 0 then 0xFFC00000
    else pack (xor (sign a) (sign b)) 255 0
  else if mant a = 0 ∨ mant b = 0 then pack (xor (sign a) (sign b)) 0 0
  else roundZ (xor (sign a) (sign b)) (mant a * mant b) ((scale a : Int) + scale b - 150)

end F32

/-- Bit pattern of a `double` (IEEE-754 binary64), a number below `2 ^ 64`. -/
abbrev F64 := Nat

/-- Conversion of a `float` to `double`, which the default argument promotion of a
variadic call makes: exact for every number; a NaN keeps its sign and payload and
comes out quiet. -/
def F32.toDouble (x : F32) : F64 :=
  let s := if F32.sign x then 2 ^ 63 else 0
  if F32.expo x = 255 then
    if F32.frac x = 0 then s + 0x7FF * 2 ^ 52
    else s + 0x7FF * 2 ^ 52 + 2 ^ 51 + F32.frac x % 2 ^ 22 * 2 ^ 29
  else if F32.expo x = 0 then
    if F32.frac x = 0 then s
    else
      let k := F32.bitLength 32 (F32.frac x)
      s + (k + 873) * 2 ^ 52 + (F32.frac x - 2 ^ (k - 1)) * 2 ^ (53 - k)
  else s + (F32.expo x + 896) * 2 ^ 52 + F32.frac x * 2 ^ 29

/-- Two-component float vector of the host library (`sizeof` = 8). -/
structure UT_Vector2 where
  x : F32
  y : F32
deriving DecidableEq

/-- Three-component float vector of the host library (`sizeof` = 12). -/
structure UT_Vector3 where
  x : F32
  y : F32
  z : F32
deriving DecidableEq

/-- Four-component float vector of the host library (`sizeof` = 16). -/
structure UT_Vector4 where
  x : F32
  y : F32
  z : F32
  w : F32
deriving DecidableEq

/-- Three `double` values: the value of a `vector3` option. -/
structure UT_Vector3D where
  x : F64
  y : F64
  z : F64
deriving DecidableEq

/-- Four `double` values: the value of a `vector4` option. -/
structure UT_Vector4D where
  x : F64
  y : F64
  z : F64
  w : F64
deriving DecidableEq

/-! ## The read cursor -/

/-- A decoding step: given the file bytes and the position of `current`, either a fault
(`none`: an access outside the buffer) or a value and the new position of `current`. -/
def Decoder (α : Type) : Type := List Byte → Int → Option (α × Int)

instance : Monad Decoder where
  pure a := fun _ cur => some (a, cur)
  bind x f := fun buf cur =>
    match x buf cur with
    | none => none
    | some (a, cur') => f a buf cur'

/-- The current value of the pointer. -/
def Decoder.cursor : Decoder Int := fun _ cur => some (cur, cur)

/-- Assignment to the pointer. -/
def Decoder.setCursor (p : Int) : Decoder Unit := fun _ _ => some ((), p)

/-- The `n` bytes of the buffer starting at offset `p`, when all of them exist. -/
def bytesAt (buf : List Byte) (p : Int) (n : Nat) : Option (List Byte) :=
  if 0 ≤ p ∧ p + n ≤ buf.length then some ((buf.drop p.toNat).take n) else none

/-- Memory access at an address that is not moved: `n` bytes at offset `p`. -/
def Decoder.peek (p : Int) (n : Nat) : Decoder (List Byte) := fun buf cur =>
  match bytesAt buf p n with
  | none => none
  | some bs => some (bs, cur)

/-- The function `memoryOffset`: pointer plus a signed byte offset. -/
def memoryOffset (momory : Int) (offset : Int) : Int := momory + offset

/-- The template `read<T>` for a type of `size` bytes: copy `size` bytes at the pointer
and, if `advance`, move the pointer past them. -/
def read (size : Nat) (advance : Bool) : Decoder (List Byte) := fun buf cur =>
  match bytesAt buf cur size with
  | none => none
  | some bs => some (bs, if advance then cur + size else cur)

/-- Instance `read<uint8_t>`. -/
def read_uint8 : Decoder Nat := do
  let bs ← read 1 true
  return leNat bs

/-- Instance `read<uint16_t>`. -/
def read_uint16 : Decoder Nat := do
  let bs ← read 2 true
  return leNat bs

/-- Instance `read<uint32_t>`. -/
def read_uint32 : Decoder Nat := do
  let bs ← read 4 true
  return leNat bs

/-- Instance `read<int32_t>`. -/
def read_int32 : Decoder Int := do
  let bs ← read 4 true
  return toInt32 (leNat bs)

/-- Instance `read<fpreal32>`. -/
def read_fpreal32 : Decoder F32 := do
  let bs ← read 4 true
  return leNat bs

/-- Instance `read<UT_Vector2>`. -/
def read_UT_Vector2 : Decoder UT_Vector2 := do
  let bs ← read 8 true
  return ⟨leNat (bs.take 4), leNat (bs.drop 4)⟩

/-- Instance `read<UT_Vector3>`. -/
def read_UT_Vector3 : Decoder UT_Vector3 := do
  let bs ← read 12 true
  return ⟨leNat (bs.take 4), leNat ((bs.drop 4).take 4), leNat (bs.drop 8)⟩

/-- Instance `read<UT_Vector4>`. -/
def read_UT_Vector4 : Decoder UT_Vector4 := do
  let bs ← read 16 true
  return ⟨leNat (bs.take 4), leNat ((bs.drop 4).take 4), leNat ((bs.drop 8).take 4),
    leNat (bs.drop 12)⟩

/-- The struct `FileHeader`. -/
structure FileHeader where
  signature : List Byte
  version : F32
deriving DecidableEq

/-- Instance `read<FileHeader>` (`sizeof` = 8). -/
def read_FileHeader : Decoder FileHeader := do
  let bs ← read 8 true
  return ⟨bs.take 4, leNat (bs.drop 4)⟩

/-- A counted loop `for (i = 0; i < n; i++) array.append(step)`. -/
def Decoder.times {α : Type} : Nat → Decoder α → Decoder (List α)
  | 0, _ => pure []
  | n + 1, step => do
    let a ← step
    let rest ← Decoder.times n step
    return a :: rest

/-! ## `readText` and `readIndex` -/

/-- The host library's string `UT_String`, by the way `readText` builds it. -/
inductive UT_String where
  /-- Result of `UT_WorkBuffer::narrow` on these UTF-16 code units (the units before the
  terminating zero unit). -/
  | narrow (units : List Nat)
  /-- The bytes given to the constructor. -/
  | chars (bytes : List Byte)
  /-- What the constructor makes of a reversed range, whose end is `-byte_size` bytes
  before its beginning (`byte_size` is negative); the repository does not determine
  the contents. -/
  | reversed (byte_size : Int)
deriving DecidableEq

/-- Modelled from the spec: the constructor `UT_String(begin, end)` belongs to the host
library, whose sources are not in the repository; the spec says the bytes of the field
are copied verbatim.  The string holds the bytes of `[begin, last)`; a range that
leaves the buffer is a fault.  For a reversed range (`last` before `begin`, which a
negative length field gives) `readText` has no test of the sign and the spec has no
words: the constructor is taken to return, with a string that the model leaves
undetermined, and the decode goes on from `last`. -/
def UT_String.ofRange (begin last : Int) : Decoder UT_String := fun buf cur =>
  if begin ≤ last then
    match bytesAt buf begin (last - begin).toNat with
    | none => none
    | some bs => some (UT_String.chars bs, cur)
  else some (UT_String.reversed (last - begin), cur)

/-- The C string `c_str()` of a string: of the bytes given to the constructor, those
before the first zero byte. -/
def UT_String.c_str : UT_String → UT_String
  | UT_String.chars bytes => UT_String.chars (bytes.takeWhile (fun b => b ≠ 0))
  | s => s

/-- The 16-bit units of a byte sequence, low byte first. -/
def utf16Units : List Byte → List Nat
  | lo :: hi :: rest => (lo.val + 256 * hi.val) :: utf16Units rest
  | _ => []

/-- The UTF-16 branch of `readText`: a scratch array of `(byte_size - 1) / 2 + 2` units is
zero-filled, `byte_size` bytes are copied into it from `begin`, and the array is given
to `UT_WorkBuffer::narrow`, which reads it up to the first zero unit.  A negative
`byte_size` (an enormous `size_t` for `memcpy`), a source outside the file and a copy
larger than the array are faults. -/
def readTextUTF16 (begin byte_size : Int) : Decoder UT_String := fun buf cur =>
  if byte_size < 0 then none
  else
    let capacity := (Int.tdiv (byte_size - 1) 2 + 2).toNat
    match bytesAt buf begin byte_size.toNat with
    | none => none
    | some src =>
      if src.length ≤ 2 * capacity then
        let utf16_buffer := src ++ List.replicate (2 * capacity - src.length) (0 : Byte)
        some (UT_String.narrow ((utf16Units utf16_buffer).takeWhile (fun u => u ≠ 0)), cur)
      else none

/-- The first four lines of `readText`: read the length field and move the pointer by
it.  The result is `(byte_size, begin, end)`; the pointer is left at `end`. -/
def readTextRange : Decoder (Int × Int × Int) := do
  let byte_size ← read_int32
  let begin ← Decoder.cursor
  Decoder.setCursor (memoryOffset begin byte_size)
  let last ← Decoder.cursor
  return (byte_size, begin, last)

/-- The function `readText`. -/
def readText (encode : Nat) : Decoder UT_String := do
  let (byte_size, begin, last) ← readTextRange
  if encode = 0 then -- UTF16
    readTextUTF16 begin byte_size
  else -- UTF8
    UT_String.ofRange begin last

/-- The function `readIndex`. -/
def readIndex (stride : Nat) : Decoder Int :=
  match stride with
  | 1 => do let v ← read_uint8; return (v : Int)
  | 2 => do let v ← read_uint16; return (v : Int)
  | 4 => do let v ← read_uint32; return (v : Int)
  | _ => return -1

/-! ## Records -/

/-- The eight configuration bytes read by `cook`. -/
structure Config where
  text_encode : Nat
  additional_uv_count : Nat
  vertex_index_stride : Nat
  texture_index_stride : Nat
  material_index_stride : Nat
  bone_index_stride : Nat
  morph_index_stride : Nat
  rigid_index_stride : Nat
deriving DecidableEq

/-- The struct `BoneWeightInfo`.  A field the code leaves unassigned is `none`. -/
structure BoneWeightInfo where
  deform_type : Nat
  bone_indices : Option (Int × Int × Int × Int)
  weights : Option (F32 × F32 × F32 × F32)
  /-- The fields `c`, `r0`, `r1`. -/
  sdef : Option (UT_Vector3 × UT_Vector3 × UT_Vector3)
deriving DecidableEq

/-- The struct `Material`. -/
structure Material where
  name : UT_String
  name_en : UT_String
  diffuse : UT_Vector4
  specular : UT_Vector4
  ambient : UT_Vector3
  flag : Nat
  edge_color : UT_Vector4
  edge_size : F32
  texture_index : Int
  sphere_texture_index : Int
  sphere_mode : Nat
  shared_toon_flag : Nat
  toon_texture_index : Int
  memo : UT_String
deriving DecidableEq

/-- What one pass of the vertex loop appends to the four vertex arrays. -/
structure VertexRecord where
  position : UT_Vector3
  normal : UT_Vector3
  uv : UT_Vector2
  bone_weight_info : BoneWeightInfo
deriving DecidableEq

/-- The local arrays and counts of `cook` once the file has been read. -/
structure Model where
  model_name : UT_String
  model_name_en : UT_String
  comment : UT_String
  comment_en : UT_String
  num_vertices : Int
  position_array : List UT_Vector3
  normal_array : List UT_Vector3
  uv_array : List UT_Vector2
  bone_weight_array : List BoneWeightInfo
  face_index_count : Int
  indices : List Int
  texture_array : List UT_String
  mat_array : List Material
  mat_index_count_array : List Int
deriving DecidableEq

/-! ## The vertex loop -/

/-- The deform-type byte and the `switch` on it (vertex loop of `cook`). -/
def readBoneWeightInfo (bone_index_stride : Nat) : Decoder BoneWeightInfo := do
  let deform_type ← read_uint8
  match deform_type with
  | 0 => do -- BDEF1
    let b0 ← readIndex bone_index_stride
    return ⟨deform_type, some (b0, -1, -1, -1),
      some (F32.one, F32.zero, F32.zero, F32.zero), none⟩
  | 1 => do -- BDEF2
    let b0 ← readIndex bone_index_stride
    let b1 ← readIndex bone_index_stride
    let w0 ← read_fpreal32
    return ⟨deform_type, some (b0, b1, -1, -1),
      some (w0, F32.sub F32.one w0, F32.zero, F32.zero), none⟩
  | 2 => do -- BDEF4
    let b0 ← readIndex bone_index_stride
    let b1 ← readIndex bone_index_stride
    let b2 ← readIndex bone_index_stride
    let b3 ← readIndex bone_index_stride
    let w0 ← read_fpreal32
    let w1 ← read_fpreal32
    let w2 ← read_fpreal32
    let w3 ← read_fpreal32
    return ⟨deform_type, some (b0, b1, b2, b3), some (w0, w1, w2, w3), none⟩
  | 3 => do -- SDEF
    let b0 ← readIndex bone_index_stride
    let b1 ← readIndex bone_index_stride
    let w0 ← read_fpreal32
    let c ← read_UT_Vector3
    let r0 ← read_UT_Vector3
    let r1 ← read_UT_Vector3
    return ⟨deform_type, some (b0, b1, -1, -1),
      some (w0, F32.sub F32.one w0, F32.zero, F32.zero), some (c, r0, r1)⟩
  | 4 => do -- QDEF
    let b0 ← readIndex bone_index_stride
    let b1 ← readIndex bone_index_stride
    let b2 ← readIndex bone_index_stride
    let b3 ← readIndex bone_index_stride
    let w0 ← read_fpreal32
    let w1 ← read_fpreal32
    let w2 ← read_fpreal32
    let w3 ← read_fpreal32
    return ⟨deform_type, some (b0, b1, b2, b3), some (w0, w1, w2, w3), none⟩
  | _ => return ⟨deform_type, none, none, none⟩

/-- The body of the vertex loop of `cook`. -/
def readVertex (cfg : Config) : Decoder VertexRecord := do
  let position ← read_UT_Vector3
  let normal ← read_UT_Vector3
  let uv ← read_UT_Vector2
  let _additional_uv ← Decoder.times cfg.additional_uv_count read_UT_Vector4
  let bone_weight_info ← readBoneWeightInfo cfg.bone_index_stride
  let _edge_rate ← read_fpreal32
  return ⟨position, normal, uv, bone_weight_info⟩

/-! ## The material table -/

/-- The toon texture reference of a material: `readIndex` with the texture stride when
`shared_toon_flag == 0`, one unsigned byte otherwise. -/
def readToonTextureIndex (shared_toon_flag texture_index_stride : Nat) : Decoder Int :=
  if shared_toon_flag = 0 then
    readIndex texture_index_stride
  else do -- if (shared_toon_flag == 1)
    let v ← read_uint8
    return (v : Int)

/-- The body of the material loop of `cook`: the material and its `material_index_count`. -/
def readMaterial (cfg : Config) : Decoder (Material × Int) := do
  let name ← readText cfg.text_encode
  let name_en ← readText cfg.text_encode
  let diffuse ← read_UT_Vector4
  let specular ← read_UT_Vector4
  let ambient ← read_UT_Vector3
  let flag ← read_uint8
  let edge_color ← read_UT_Vector4
  let edge_size ← read_fpreal32
  let texture_index ← readIndex cfg.texture_index_stride
  let sphere_texture_index ← readIndex cfg.texture_index_stride
  let sphere_mode ← read_uint8
  let shared_toon_flag ← read_uint8
  let toon_texture_index ← readToonTextureIndex shared_toon_flag cfg.texture_index_stride
  let memo ← readText cfg.text_encode
  let material_index_count ← read_int32
  return (⟨name, name_en, diffuse, specular, ambient, flag, edge_color, edge_size,
    texture_index, sphere_texture_index, sphere_mode, shared_toon_flag,
    toon_texture_index, memo⟩, material_index_count)

/-! ## Reading the model -/

/-- One pass of the index loop: `indices.append(readIndex(...))`, the `exint` narrowed to
the `int` element type of the array. -/
def readFaceIndex (vertex_index_stride : Nat) : Decoder Int := do
  let v ← readIndex vertex_index_stride
  return narrowToInt v

/-- The part of `cook` from the model texts to the end of the material table.  The result
is `none` when `cook` returns because `face_index_count % 3 != 0`. -/
def readModel (cfg : Config) : Decoder (Option Model) := do
  let model_name ← readText cfg.text_encode
  let model_name_en ← readText cfg.text_encode
  let comment ← readText cfg.text_encode
  let comment_en ← readText cfg.text_encode
  let num_vertices ← read_int32
  let vertices ← Decoder.times num_vertices.toNat (readVertex cfg)
  let face_index_count ← read_int32
  if Int.tmod face_index_count 3 ≠ 0 then
    return none
  else do
    let indices ← Decoder.times face_index_count.toNat (readFaceIndex cfg.vertex_index_stride)
    let texture_count ← read_int32
    let texture_array ← Decoder.times texture_count.toNat (readText cfg.text_encode)
    let material_count ← read_int32
    let materials ← Decoder.times material_count.toNat (readMaterial cfg)
    return some {
      model_name := model_name, model_name_en := model_name_en
      comment := comment, comment_en := comment_en
      num_vertices := num_vertices
      position_array := vertices.map VertexRecord.position
      normal_array := vertices.map VertexRecord.normal
      uv_array := vertices.map VertexRecord.uv
      bone_weight_array := vertices.map VertexRecord.bone_weight_info
      face_index_count := face_index_count
      indices := indices
      texture_array := texture_array
      mat_array := materials.map Prod.fst
      mat_index_count_array := materials.map Prod.snd }

/-! ## The output geometry -/

/-- One entry of the detail attribute `mat_parms` (the `UT_Options` built per material). -/
structure MatParms where
  name : UT_String
  name_en : UT_String
  diffuse : UT_Vector4D
  specular : UT_Vector3D
  ambient : UT_Vector3D
  flag : Int
  edge_color : UT_Vector4D
  edge_size : F64
  tex_index : Int
  sphere_tex_index : Int
  sphere_mode : Int
  toon_flag : Bool
  toon_tex_index : Int
deriving DecidableEq

/-- The contents of the `GU_Detail` written by `cook`.  An attribute that has not been
added is `none`. -/
structure Detail where
  /-- Positions of the points. -/
  points : List UT_Vector3
  /-- Point attribute `N`. -/
  N : Option (List UT_Vector3)
  /-- Point attribute `uv`. -/
  uv : Option (List UT_Vector3)
  /-- Polygons, each the list of its point numbers. -/
  prims : List (List Int)
  /-- Primitive attribute `mat_index`: the values set at slots 0, 1, 2, ... -/
  mat_index : Option (List Int)
  /-- Detail attribute `filepath`. -/
  filepath : Option String
  /-- Detail attribute `tex_names`. -/
  tex_names : Option (List UT_String)
  /-- Detail attribute `mat_parms`. -/
  mat_parms : Option (List MatParms)
deriving DecidableEq

/-- The detail after `clearAndDestroy()`. -/
def Detail.empty : Detail := ⟨[], none, none, [], none, none, none, none⟩

/-- The two products with a `UT_Matrix4` of the host library that `cook` applies:
`v * pos_conv_mat` to positions and `v * axis_mat` to normals, where `axis_mat` is the
identity scaled by (1, 1, -1) and `pos_conv_mat` is `axis_mat` scaled by the node
parameter `scale`.  The matrix class is not part of the repository: `cook` is
embedded for any two products, and `Conv.ofScale` gives the two that the spec
describes. -/
structure Conv where
  pos_conv : UT_Vector3 → UT_Vector3
  axis : UT_Vector3 → UT_Vector3

/-- Modelled from the spec: a matrix `UT_Matrix4` of the host library, whose sources are
not in the repository.  The spec describes the transform of `cook` as a scale factor
applied to the components, with a flip on one axis; a matrix is kept as its three
scale factors, one for each axis. -/
structure UT_Matrix4 where
  sx : F32
  sy : F32
  sz : F32
deriving DecidableEq

/-- Modelled from the spec: the constructor `UT_Matrix4(v)`, the factor `v` on every
axis. -/
def UT_Matrix4.ofDiagonal (v : F32) : UT_Matrix4 := ⟨v, v, v⟩

/-- Modelled from the spec: `UT_Matrix4::scale`, which multiplies the factor of each axis
by the factor given for it. -/
def UT_Matrix4.scale (m : UT_Matrix4) (sx sy sz : F32) : UT_Matrix4 :=
  ⟨F32.mul m.sx sx, F32.mul m.sy sy, F32.mul m.sz sz⟩

/-- Modelled from the spec: the product `v * m` of a vector and a matrix, each component
times the factor of its axis, one binary32 product; the entries of the matrix outside
its diagonal, which are zero, have no part in the model. -/
def UT_Vector3.mulMatrix (v : UT_Vector3) (m : UT_Matrix4) : UT_Vector3 :=
  ⟨F32.mul v.x m.sx, F32.mul v.y m.sy, F32.mul v.z m.sz⟩

/-- The matrix `axis_mat` of `cook`: `UT_Matrix4 axis_mat(1.f)` and then
`axis_mat.scale(UT_Vector3(1.f, 1.f, -1.f))`. -/
def axis_mat : UT_Matrix4 :=
  (UT_Matrix4.ofDiagonal F32.one).scale F32.one F32.one F32.negOne

/-- The matrix `pos_conv_mat` of `cook`: a copy of `axis_mat` and then
`pos_conv_mat.scale(scale)`, for the node parameter `scale` as a `float`. -/
def pos_conv_mat (scale : F32) : UT_Matrix4 := axis_mat.scale scale scale scale

/-- The two products of `cook` for the node parameter `scale`. -/
def Conv.ofScale (scale : F32) : Conv :=
  { pos_conv := fun v => v.mulMatrix (pos_conv_mat scale)
    axis := fun v => v.mulMatrix axis_mat }

/-- The triangles `GEO_PrimPoly::buildBlock` makes of an index array. -/
def triangles : List Int → List (List Int)
  | a :: b :: c :: rest => [a, b, c] :: triangles rest
  | _ => []

/-- The inner loop of `set mat_index`: `for (i = 0; i < mat_index_count; i += 3)` sets the
next slot to `mat_index`.  The fuel bounds the number of passes. -/
def matIndexLoop (mat_index mat_index_count : Int) : Nat → Int → List Int
  | 0, _ => []
  | fuel + 1, i =>
    if i < mat_index_count then
      mat_index :: matIndexLoop mat_index mat_index_count fuel (i + 3)
    else []

/-- The outer loop of `set mat_index` from material number `mat_index` on: the values
set at consecutive primitive slots. -/
def setMatIndex : Int → List Int → List Int
  | _, [] => []
  | mat_index, mat_index_count :: rest =>
    matIndexLoop mat_index mat_index_count mat_index_count.toNat 0
      ++ setMatIndex (mat_index + 1) rest

/-- The `UT_Options` that `cook` builds of a material.  The arguments go through the
variable argument list of the constructor: a name as its C string, a `float` promoted
to `double`. -/
def matParms (mat : Material) : MatParms :=
  { name := mat.name.c_str, name_en := mat.name_en.c_str
    diffuse := ⟨F32.toDouble mat.diffuse.x, F32.toDouble mat.diffuse.y,
      F32.toDouble mat.diffuse.z, F32.toDouble mat.diffuse.w⟩
    specular := ⟨F32.toDouble mat.specular.x, F32.toDouble mat.specular.y,
      F32.toDouble mat.specular.z⟩
    ambient := ⟨F32.toDouble mat.ambient.x, F32.toDouble mat.ambient.y,
      F32.toDouble mat.ambient.z⟩
    flag := narrowToInt mat.flag
    edge_color := ⟨F32.toDouble mat.edge_color.x, F32.toDouble mat.edge_color.y,
      F32.toDouble mat.edge_color.z, F32.toDouble mat.edge_color.w⟩
    edge_size := F32.toDouble mat.edge_size
    tex_index := narrowToInt mat.texture_index
    sphere_tex_index := narrowToInt mat.sphere_texture_index
    sphere_mode := narrowToInt mat.sphere_mode
    toon_flag := decide (mat.shared_toon_flag ≠ 0)
    toon_tex_index := narrowToInt mat.toon_texture_index }

/-- The return statements of `cook`, in source order. -/
inductive Exit where
  /-- Return of `if (boss.wasInterrupted())`. -/
  | interrupted
  /-- Return of `if (!reader.isGood())`. -/
  | readerNotGood
  /-- Return of `if (!check_signature)`. -/
  | signature
  /-- Return of `if (header.version != 2.0f && header.version != 2.1f)`. -/
  | version
  /-- Return of `if (info_count < 8)`. -/
  | infoCountBelow8
  /-- Return of `if ((header.version == 2.f) && (info_count != 8))`. -/
  | infoCountNot8
  /-- Return of `if (face_index_count % 3 != 0)`. -/
  | faceIndexCount
  /-- Return inside the loop `check index range`. -/
  | indexRange
  /-- End of the function body. -/
  | done
deriving DecidableEq

/-- The way `cook` returned and the detail it left. -/
structure CookResult where
  exit : Exit
  detail : Detail
deriving DecidableEq

/-- The part of `cook` after `reader.close()`: points, normals, uv, the index range
check, the polygons and the attributes. -/
def assemble (conv : Conv) (filepath : String) (m : Model) : CookResult :=
  let num_points := m.num_vertices
  -- set points, set normal, set uv
  let detail : Detail :=
    { Detail.empty with
      points := m.position_array.map conv.pos_conv
      N := some (m.normal_array.map conv.axis)
      uv := some (m.uv_array.map (fun uv => ⟨uv.x, uv.y, F32.one⟩)) }
  -- check index range
  if m.indices.any (fun index => decide (index < 0) || decide (index ≥ num_points)) then
    ⟨Exit.indexRange, detail⟩
  else
    ⟨Exit.done,
      { detail with
        prims := triangles m.indices
        mat_index := some (setMatIndex 0 m.mat_index_count_array)
        filepath := some filepath
        tex_names := some m.texture_array
        mat_parms := some (m.mat_array.map matParms) }⟩

/-- The check `check_signature` of `cook`. -/
def check_signature (header : FileHeader) : Bool :=
  header.signature.get? 0 = some 0x50 &&
  header.signature.get? 1 = some 0x4D &&
  header.signature.get? 2 = some 0x58 &&
  header.signature.get? 3 = some 0x20

/-- The configuration byte `*(static_cast<const uint8_t*>(current) + k)`. -/
def infoByte (current : Int) (k : Nat) : Decoder Nat := do
  let bs ← Decoder.peek (current + k) 1
  return leNat bs

/-- The eight configuration values of `cook`, each taken from the byte at its fixed
offset from `current`; the pointer is not moved. -/
def readConfig (current : Int) : Decoder Config := do
  let text_encode ← infoByte current 0
  let additional_uv_count ← infoByte current 1
  let vertex_index_stride ← infoByte current 2
  let texture_index_stride ← infoByte current 3
  let material_index_stride ← infoByte current 4
  let bone_index_stride ← infoByte current 5
  let morph_index_stride ← infoByte current 6
  let rigid_index_stride ← infoByte current 7
  return { text_encode := text_encode
           additional_uv_count := additional_uv_count
           vertex_index_stride := vertex_index_stride
           texture_index_stride := texture_index_stride
           material_index_stride := material_index_stride
           bone_index_stride := bone_index_stride
           morph_index_stride := morph_index_stride
           rigid_index_stride := rigid_index_stride }

/-- The part of `cook` after the checks of the header: the eight configuration bytes,
the skip of the configuration block, the model, the geometry. -/
def cookConfigured (conv : Conv) (filepath : String) (info_count : Nat) :
    Decoder CookResult := do
  let current ← Decoder.cursor
  let cfg ← readConfig current
  Decoder.setCursor (memoryOffset current info_count)
  let model ← readModel cfg
  match model with
  | none => return ⟨Exit.faceIndexCount, Detail.empty⟩
  | some m => return assemble conv filepath m

/-- The body of `cook` from `const void* current = work_buffer.begin()` on. -/
def cookBuffer (conv : Conv) (filepath : String) : Decoder CookResult := do
  -- PMX header
  let header ← read_FileHeader
  if !check_signature header then
    return ⟨Exit.signature, Detail.empty⟩
  else if !F32.eq header.version F32.two && !F32.eq header.version F32.twoPointOne then
    return ⟨Exit.version, Detail.empty⟩
  else do
    let info_count ← read_uint8
    if info_count < 8 then
      return ⟨Exit.infoCountBelow8, Detail.empty⟩
    else if F32.eq header.version F32.two && info_count ≠ 8 then
      return ⟨Exit.infoCountNot8, Detail.empty⟩
    else
      cookConfigured conv filepath info_count

/-- The function `SOP_PMXFileVerb::cook`.  `wasInterrupted` is the answer of the interrupt
scope, `file` the contents of the file when the reader is good.  The result is `none`
when the run reads outside the buffer. -/
def cook (conv : Conv) (filepath : String) (wasInterrupted : Bool)
    (file : Option (List Byte)) : Option CookResult :=
  -- detail->clearAndDestroy()
  if wasInterrupted then some ⟨Exit.interrupted, Detail.empty⟩
  else
    match file with
    | none => some ⟨Exit.readerNotGood, Detail.empty⟩
    | some work_buffer => (cookBuffer conv filepath work_buffer 0).map Prod.fst

/-! ## Notions used in the statements -/

/-- The four signature bytes `'P'`, `'M'`, `'X'`, `' '`. -/
def pmxSignature : List Byte := [0x50, 0x4D, 0x58, 0x20]

/-- The unsigned byte at file offset `i` (0 past the end of the file). -/
def byteAt (buf : List Byte) (i : Nat) : Nat := leNat ((buf.drop i).take 1)

/-- The 32-bit pattern at file offset 4: the version field of the header. -/
def versionAt (buf : List Byte) : F32 := leNat ((buf.drop 4).take 4)

/-- The configuration values as the bytes at file offsets 9 to 16, in file order. -/
def configAt (buf : List Byte) : Config :=
  ⟨byteAt buf 9, byteAt buf 10, byteAt buf 11, byteAt buf 12, byteAt buf 13,
    byteAt buf 14, byteAt buf 15, byteAt buf 16⟩

/-- The two ways `cook` ends once the model has been read: the return for an index count
that is not a multiple of 3, or the assembly of the geometry. -/
def finish (conv : Conv) (filepath : String) : Option Model → CookResult
  | none => ⟨Exit.faceIndexCount, Detail.empty⟩
  | some m => assemble conv filepath m

/-- The little-endian unsigned number made of the `n` bytes at offset `p`. -/
def unsignedAt (buf : List Byte) (p : Int) (n : Nat) : Nat :=
  leNat ((buf.drop p.toNat).take n)

/-- The signed 32-bit little-endian number stored at offset `cur`. -/
def int32At (buf : List Byte) (cur : Int) : Int :=
  toInt32 (leNat ((buf.drop cur.toNat).take 4))

/-- Offset of the toon texture reference of the material record that starts at `cur`:
after the two names (length field and bytes each), diffuse (16), specular (16),
ambient (12), flag (1), edge colour (16), edge size (4), the two texture indices
(`stride` each), the sphere mode (1) and the shared-toon flag (1). -/
def toonOffset (buf : List Byte) (cur : Int) (stride : Nat) : Int :=
  cur + 4 + int32At buf cur + 4 + int32At buf (cur + 4 + int32At buf cur)
    + 16 + 16 + 12 + 1 + 16 + 4 + stride + stride + 1 + 1

/-- Two buffers of the same length that hold the same bytes from offset `m` on. -/
def AgreeFrom (m : Nat) (buf buf' : List Byte) : Prop :=
  buf.length = buf'.length ∧ ∀ i, m ≤ i → buf.get? i = buf'.get? i

/-- A decoding step that never moves the cursor backward and (started at or after
offset `m`) never looks at a byte before `m`. -/
structure Forward {α : Type} (d : Decoder α) : Prop where
  mono : ∀ buf cur a c, d buf cur = some (a, c) → cur ≤ c
  frame : ∀ m buf buf', AgreeFrom m buf buf' → ∀ cur : Int, (m : Int) ≤ cur →
    d buf cur = d buf' cur

/-! ## Sample files -/

/-- A version 2.0 file with one vertex (position (1, 2, 3), normal (0, 1, 0), uv
(0.5, 0.5), BDEF1 on bone 0), the three polygon indices 0, 0, 1, no texture and no
material.  All strides are 1 and the text encoding is 1; the four model texts are
empty.  The third index equals the vertex count. -/
def fileIndexPastEnd : List Byte :=
  [0x50, 0x4D, 0x58, 0x20, 0x00, 0x00, 0x00, 0x40,   -- signature, 2.0f
   8, 1, 0, 1, 1, 1, 1, 1, 1,                        -- configuration block
   0, 0, 0, 0, 0, 0, 0, 0, 0, 0, 0, 0, 0, 0, 0, 0,   -- four empty texts
   1, 0, 0, 0,                                       -- num_vertices
   0x00, 0x00, 0x80, 0x3F, 0x00, 0x00, 0x00, 0x40, 0x00, 0x00, 0x40, 0x40, -- position
   0x00, 0x00, 0x00, 0x00, 0x00, 0x00, 0x80, 0x3F, 0x00, 0x00, 0x00, 0x00, -- normal
   0x00, 0x00, 0x00, 0x3F, 0x00, 0x00, 0x00, 0x3F,   -- uv
   0, 0,                                             -- deform type 0, bone 0
   0x00, 0x00, 0x80, 0x3F,                           -- edge scale
   3, 0, 0, 0,                                       -- face_index_count
   0, 0, 1,                                          -- indices
   0, 0, 0, 0,                                       -- texture count
   0, 0, 0, 0]                                       -- material count

/-- The arrays `cook` has read from `fileIndexPastEnd` when it reaches `reader.close()`. -/
def modelIndexPastEnd : Model :=
  { model_name := UT_String.chars [], model_name_en := UT_String.chars []
    comment := UT_String.chars [], comment_en := UT_String.chars []
    num_vertices := 1
    position_array := [⟨0x3F800000, 0x40000000, 0x40400000⟩]
    normal_array := [⟨0, 0x3F800000, 0⟩]
    uv_array := [⟨0x3F000000, 0x3F000000⟩]
    bone_weight_array := [⟨0, some (0, -1, -1, -1),
      some (0x3F800000, 0, 0, 0), none⟩]
    face_index_count := 3
    indices := [0, 0, 1]
    texture_array := []
    mat_array := []
    mat_index_count_array := [] }

/-- A version 2.1 file that declares nine configuration bytes (the ninth is 0xAB) and
holds an empty model: four empty texts, no vertex, no index, no texture and no
material. -/
def fileNineConfigBytes : List Byte :=
  [0x50, 0x4D, 0x58, 0x20, 0x66, 0x66, 0x06, 0x40,   -- signature, 2.1f
   9, 1, 0, 1, 1, 1, 1, 1, 1, 0xAB,                  -- configuration block
   0, 0, 0, 0, 0, 0, 0, 0, 0, 0, 0, 0, 0, 0, 0, 0,   -- four empty texts
   0, 0, 0, 0,                                       -- num_vertices
   0, 0, 0, 0,                                       -- face_index_count
   0, 0, 0, 0,                                       -- texture count
   0, 0, 0, 0]                                       -- material count

/-- A version 2.1 file with 12 configuration bytes (UTF-8 text, all strides 1): the
block bytes 8 to 11, at file offsets 17 to 20, hold 4, 0, 0, 0.  The model name at
offset 21 has the length field -8, then come sixteen zero bytes, the bytes 1, 0, 0, 0
at offsets 41 to 44 and eight zero bytes. -/
def fileBackwardText : List Byte :=
  [0x50, 0x4D, 0x58, 0x20, 0x66, 0x66, 0x06, 0x40, 12,
   1, 0, 1, 1, 1, 1, 1, 1,
   4, 0, 0, 0,
   0xF8, 0xFF, 0xFF, 0xFF,
   0, 0, 0, 0, 0, 0, 0, 0, 0, 0, 0, 0, 0, 0, 0, 0,
   1, 0, 0, 0,
   0, 0, 0, 0, 0, 0, 0, 0]

/-- A material record for text encoding 1 and texture stride 4: name "m", empty English
name, zero colours, texture index 0, sphere texture index 0xFFFFFFFF, sphere mode 0,
`shared_toon_flag` 1, shared toon index 3 (one byte), empty memo, index count 3. -/
def materialSharedToon : List Byte :=
  [1, 0, 0, 0, 0x6D,                                 -- name
   0, 0, 0, 0,                                       -- name_en
   0, 0, 0, 0, 0, 0, 0, 0, 0, 0, 0, 0, 0, 0, 0, 0,   -- diffuse
   0, 0, 0, 0, 0, 0, 0, 0, 0, 0, 0, 0, 0, 0, 0, 0,   -- specular
   0, 0, 0, 0, 0, 0, 0, 0, 0, 0, 0, 0,               -- ambient
   0,                                                -- flag
   0, 0, 0, 0, 0, 0, 0, 0, 0, 0, 0, 0, 0, 0, 0, 0,   -- edge_color
   0, 0, 0x80, 0x3F,                                 -- edge_size
   0, 0, 0, 0,                                       -- texture_index
   0xFF, 0xFF, 0xFF, 0xFF,                           -- sphere_texture_index
   0,                                                -- sphere_mode
   1,                                                -- shared_toon_flag
   3,                                                -- toon_texture_index
   0, 0, 0, 0,                                       -- memo
   3, 0, 0, 0]                                       -- material_index_count

/-- A material record for text encoding 1 and texture stride 3, for which `readIndex`
reads nothing: name "m", empty English name, zero colours, no byte for either texture
index, sphere mode 0, `shared_toon_flag` 0, no byte for the toon index, empty memo,
index count 3. -/
def materialStride3 : List Byte :=
  [1, 0, 0, 0, 0x6D,                                 -- name
   0, 0, 0, 0,                                       -- name_en
   0, 0, 0, 0, 0, 0, 0, 0, 0, 0, 0, 0, 0, 0, 0, 0,   -- diffuse
   0, 0, 0, 0, 0, 0, 0, 0, 0, 0, 0, 0, 0, 0, 0, 0,   -- specular
   0, 0, 0, 0, 0, 0, 0, 0, 0, 0, 0, 0,               -- ambient
   0,                                                -- flag
   0, 0, 0, 0, 0, 0, 0, 0, 0, 0, 0, 0, 0, 0, 0, 0,   -- edge_color
   0, 0, 0x80, 0x3F,                                 -- edge_size
   0,                                                -- sphere_mode
   0,                                                -- shared_toon_flag
   0, 0, 0, 0,                                       -- memo
   3, 0, 0, 0]                                       -- material_index_count

/-- A version 2.0 file (UTF-8 text, all strides 1) with no vertex, no face, no texture
and one material, whose memo has the length field -128: the cursor is taken from
offset 131 back to offset 3, and the index count of the material is read there, from
the last byte of the signature and the first three bytes of the version. -/
def fileEndsInHeader : List Byte :=
  [0x50, 0x4D, 0x58, 0x20, 0x00, 0x00, 0x00, 0x40,   -- signature, 2.0f
   8, 1, 0, 1, 1, 1, 1, 1, 1,                        -- configuration block
   0, 0, 0, 0, 0, 0, 0, 0, 0, 0, 0, 0, 0, 0, 0, 0,   -- four empty texts
   0, 0, 0, 0,                                       -- num_vertices
   0, 0, 0, 0,                                       -- face_index_count
   0, 0, 0, 0,                                       -- texture count
   1, 0, 0, 0,                                       -- material count
   0, 0, 0, 0,                                       -- name
   0, 0, 0, 0,                                       -- name_en
   0, 0, 0, 0, 0, 0, 0, 0, 0, 0, 0, 0, 0, 0, 0, 0,   -- diffuse
   0, 0, 0, 0, 0, 0, 0, 0, 0, 0, 0, 0, 0, 0, 0, 0,   -- specular
   0, 0, 0, 0, 0, 0, 0, 0, 0, 0, 0, 0,               -- ambient
   0,                                                -- flag
   0, 0, 0, 0, 0, 0, 0, 0, 0, 0, 0, 0, 0, 0, 0, 0,   -- edge_color
   0, 0, 0x80, 0x3F,                                 -- edge_size
   0,                                                -- texture_index
   0,                                                -- sphere_texture_index
   0,                                                -- sphere_mode
   1,                                                -- shared_toon_flag
   0,                                                -- toon_texture_index
   0x80, 0xFF, 0xFF, 0xFF]                           -- memo, length -128

/-! ## Notions used in the statements on vertex records -/

/-- Number of bytes the `switch` on the deform type reads after the tag byte, for bone
stride `s`: BDEF1 one index, BDEF2 two indices and a weight, BDEF4 and QDEF four
indices and four weights, SDEF two indices, a weight and three vectors; nothing for
any other tag (the `default` branch). -/
def skinLength (s : Nat) (t : Nat) : Nat :=
  match t with
  | 0 => s
  | 1 => 2 * s + 4
  | 2 => 4 * s + 16
  | 3 => 2 * s + 40
  | 4 => 4 * s + 16
  | _ => 0

/-- Number of bytes of a vertex record with deform type `t`: position, normal and uv
(32), the additional uv blocks (16 each), the tag byte, the skin data and the edge
scale (4). -/
def vertexLength (cfg : Config) (t : Nat) : Nat :=
  32 + 16 * cfg.additional_uv_count + 1 + skinLength cfg.bone_index_stride t + 4

/-- Position of the cursor after `k` vertex records read from `cur`, found from the tag
bytes stored in the buffer. -/
def vertexEnd (cfg : Config) (buf : List Byte) : Nat → Int → Int
  | 0, cur => cur
  | k + 1, cur =>
    vertexEnd cfg buf k
      (cur + vertexLength cfg (unsignedAt buf (cur + 32 + 16 * cfg.additional_uv_count) 1))

/-- A version 2.0 file with one vertex whose deform-type byte is 5, followed by the edge
scale; no index, no texture, no material.  All strides are 1, the text encoding is 1
and the four model texts are empty. -/
def fileDeformType5 : List Byte :=
  [0x50, 0x4D, 0x58, 0x20, 0x00, 0x00, 0x00, 0x40,   -- signature, 2.0f
   8, 1, 0, 1, 1, 1, 1, 1, 1,                        -- configuration block
   0, 0, 0, 0, 0, 0, 0, 0, 0, 0, 0, 0, 0, 0, 0, 0,   -- four empty texts
   1, 0, 0, 0,                                       -- num_vertices
   0x00, 0x00, 0x80, 0x3F, 0x00, 0x00, 0x00, 0x40, 0x00, 0x00, 0x40, 0x40, -- position
   0x00, 0x00, 0x00, 0x00, 0x00, 0x00, 0x80, 0x3F, 0x00, 0x00, 0x00, 0x00, -- normal
   0x00, 0x00, 0x00, 0x3F, 0x00, 0x00, 0x00, 0x3F,   -- uv
   5,                                                -- deform type 5
   0x00, 0x00, 0x80, 0x3F,                           -- edge scale
   0, 0, 0, 0,                                       -- face_index_count
   0, 0, 0, 0,                                       -- texture count
   0, 0, 0, 0]                                       -- material count

/-- A version 2.0 file whose configuration block holds the text encoding 2 and the bone
index stride 3: four empty model texts, one BDEF1 vertex (no byte between the tag and
the edge scale), no index, the one texture name "a", no material. -/
def fileInvalidConfig : List Byte :=
  [0x50, 0x4D, 0x58, 0x20, 0x00, 0x00, 0x00, 0x40,   -- signature, 2.0f
   8, 2, 0, 1, 1, 1, 3, 1, 1,                        -- configuration block
   0, 0, 0, 0, 0, 0, 0, 0, 0, 0, 0, 0, 0, 0, 0, 0,   -- four empty texts
   1, 0, 0, 0,                                       -- num_vertices
   0x00, 0x00, 0x80, 0x3F, 0x00, 0x00, 0x00, 0x40, 0x00, 0x00, 0x40, 0x40, -- position
   0x00, 0x00, 0x00, 0x00, 0x00, 0x00, 0x80, 0x3F, 0x00, 0x00, 0x00, 0x00, -- normal
   0x00, 0x00, 0x00, 0x3F, 0x00, 0x00, 0x00, 0x3F,   -- uv
   0,                                                -- deform type 0
   0x00, 0x00, 0x80, 0x3F,                           -- edge scale
   0, 0, 0, 0,                                       -- face_index_count
   1, 0, 0, 0,                                       -- texture count
   1, 0, 0, 0, 0x61,                                 -- texture name
   0, 0, 0, 0]                                       -- material count

/-- A decoding step whose run depends only on the bytes it reads, wherever they lie in
the buffer: a returning run stays the same when bytes are appended to the buffer
(`grow`) and, moved along with the cursor, when bytes are put in front of the buffer
(`shift`); and a run that starts inside the buffer ends inside it (`inside`). -/
structure Local {α : Type} (d : Decoder α) : Prop where
  grow : ∀ buf ext cur a c, d buf cur = some (a, c) → d (buf ++ ext) cur = some (a, c)
  shift : ∀ pre buf cur a c, d buf cur = some (a, c) →
    d (pre ++ buf) (cur + pre.length) = some (a, c + pre.length)
  inside : ∀ buf cur a c, d buf cur = some (a, c) → cur ≤ buf.length → c ≤ buf.length

/-- The quotient `c / 3` rounded up for a positive `c`, and 0 for any other `c`: the
number of repetitions the spec gives for a material with index count `c`. -/
def ceilThird (c : Int) : Nat :=
  if 0 < c then ((c + 2) / 3).toNat else 0

/-- A buffer whose bytes 8..11 hold the length field -8. -/
def fileNegativeLength : List Byte :=
  [0, 0, 0, 0, 0, 0, 0, 0, 0xF8, 0xFF, 0xFF, 0xFF]

theorem Decoder.bind_apply {α β : Type} (x : Decoder α) (f : α → Decoder β)
    (buf : List Byte) (cur : Int) :
    (x >>= f) buf cur = (x buf cur).bind (fun p => f p.1 buf p.2) := by
  show (match x buf cur with
    | none => none
    | some (a, c) => f a buf c) = _
  cases x buf cur <;> rfl

theorem Decoder.pure_apply {α : Type} (a : α) (buf : List Byte) (cur : Int) :
    (pure a : Decoder α) buf cur = some (a, cur) := rfl

theorem bytesAt_eq_some {buf : List Byte} {p : Int} {n : Nat}
    (h0 : 0 ≤ p) (h1 : p + n ≤ buf.length) :
    bytesAt buf p n = some ((buf.drop p.toNat).take n) := by
  simp [bytesAt, h0, h1]

theorem bytesAt_some_iff {buf : List Byte} {p : Int} {n : Nat} {bs : List Byte} :
    bytesAt buf p n = some bs ↔
      (0 ≤ p ∧ p + n ≤ buf.length) ∧ bs = (buf.drop p.toNat).take n := by
  unfold bytesAt
  split
  · rename_i h
    simp [h, eq_comm]
  · rename_i h
    simp [h]

theorem bytesAt_length {buf : List Byte} {p : Int} {n : Nat} {bs : List Byte}
    (h : bytesAt buf p n = some bs) : bs.length = n := by
  obtain ⟨⟨h0, h1⟩, rfl⟩ := bytesAt_some_iff.1 h
  simp only [List.length_take, List.length_drop]
  omega

theorem read_apply (size : Nat) (buf : List Byte) (cur : Int) :
    read size true buf cur = (bytesAt buf cur size).map (fun bs => (bs, cur + size)) := by
  unfold read
  cases bytesAt buf cur size <;> rfl

theorem leNat_lt (bs : List Byte) : leNat bs < 256 ^ bs.length := by
  induction bs with
  | nil => simp [leNat]
  | cons b bs ih =>
    have hb := b.isLt
    simp only [leNat, List.length_cons, pow_succ]
    omega

theorem read_uint8_apply (buf : List Byte) (cur : Int) :
    read_uint8 buf cur = (bytesAt buf cur 1).map (fun bs => (leNat bs, cur + 1)) := by
  simp only [read_uint8, Decoder.bind_apply, read_apply]
  cases bytesAt buf cur 1 <;> rfl

theorem read_uint16_apply (buf : List Byte) (cur : Int) :
    read_uint16 buf cur = (bytesAt buf cur 2).map (fun bs => (leNat bs, cur + 2)) := by
  simp only [read_uint16, Decoder.bind_apply, read_apply]
  cases bytesAt buf cur 2 <;> rfl

theorem read_uint32_apply (buf : List Byte) (cur : Int) :
    read_uint32 buf cur = (bytesAt buf cur 4).map (fun bs => (leNat bs, cur + 4)) := by
  simp only [read_uint32, Decoder.bind_apply, read_apply]
  cases bytesAt buf cur 4 <;> rfl

theorem read_int32_apply (buf : List Byte) (cur : Int) :
    read_int32 buf cur = (bytesAt buf cur 4).map (fun bs => (toInt32 (leNat bs), cur + 4)) := by
  simp only [read_int32, Decoder.bind_apply, read_apply]
  cases bytesAt buf cur 4 <;> rfl

theorem read_fpreal32_apply (buf : List Byte) (cur : Int) :
    read_fpreal32 buf cur = (bytesAt buf cur 4).map (fun bs => (leNat bs, cur + 4)) := by
  simp only [read_fpreal32, Decoder.bind_apply, read_apply]
  cases bytesAt buf cur 4 <;> rfl

theorem readIndex_apply (stride : Nat) (hs : stride = 1 ∨ stride = 2 ∨ stride = 4)
    (buf : List Byte) (cur : Int) :
    readIndex stride buf cur
      = (bytesAt buf cur stride).map (fun bs => ((leNat bs : Int), cur + stride)) := by
  rcases hs with rfl | rfl | rfl
  · simp only [readIndex, Decoder.bind_apply, read_uint8_apply]
    cases bytesAt buf cur 1 <;> rfl
  · simp only [readIndex, Decoder.bind_apply, read_uint16_apply]
    cases bytesAt buf cur 2 <;> rfl
  · simp only [readIndex, Decoder.bind_apply, read_uint32_apply]
    cases bytesAt buf cur 4 <;> rfl

theorem leNat_replicate_255 (n : Nat) :
    leNat (List.replicate n (255 : Byte)) = 256 ^ n - 1 := by
  induction n with
  | zero => rfl
  | succ k ih =>
    have hpos : 0 < 256 ^ k := by positivity
    simp only [List.replicate_succ, leNat, ih, pow_succ]
    show 255 + 256 * (256 ^ k - 1) = 256 ^ k * 256 - 1
    omega

/-- C9: for a stride of 1, 2 or 4 and a buffer holding that many bytes at the cursor,
`readIndex` returns the little-endian unsigned value of those bytes, a number in
`[0, 2 ^ (8 * stride))`, and moves the cursor by exactly `stride`; a run of `0xFF`
bytes decodes to `2 ^ (8 * stride) - 1`, not to -1. -/
theorem readIndex_unsigned (stride : Nat) (hs : stride = 1 ∨ stride = 2 ∨ stride = 4)
    (buf : List Byte) (cur : Int) (h0 : 0 ≤ cur) (h1 : cur + stride ≤ buf.length) :
    readIndex stride buf cur
        = some ((leNat ((buf.drop cur.toNat).take stride) : Int), cur + stride)
      ∧ (0 : Int) ≤ leNat ((buf.drop cur.toNat).take stride)
      ∧ (leNat ((buf.drop cur.toNat).take stride) : Int) < 2 ^ (8 * stride)
      ∧ ((buf.drop cur.toNat).take stride = List.replicate stride 255 →
          readIndex stride buf cur = some (2 ^ (8 * stride) - 1, cur + stride)) := by
  have hread : readIndex stride buf cur
      = some ((leNat ((buf.drop cur.toNat).take stride) : Int), cur + stride) := by
    rw [readIndex_apply stride hs, bytesAt_eq_some h0 h1]
    rfl
  have hlen : ((buf.drop cur.toNat).take stride).length = stride := by
    simp only [List.length_take, List.length_drop]
    omega
  have hlt := leNat_lt ((buf.drop cur.toNat).take stride)
  rw [hlen] at hlt
  have hpow : (256 : Nat) ^ stride = 2 ^ (8 * stride) := by
    rw [pow_mul]; norm_num
  refine ⟨hread, Int.natCast_nonneg _, ?_, ?_⟩
  · rw [hpow] at hlt
    exact_mod_cast hlt
  · intro hff
    rw [hread, hff, leNat_replicate_255, hpow]
    have hpos : 0 < 2 ^ (8 * stride) := by positivity
    congr 2
    rw [Nat.cast_sub hpos]
    push_cast
    ring

theorem readIndex_unsigned_witness :
    readIndex 2 [7, 0xFF, 0xFF, 9] 1 = some (65535, 3) :=
  (readIndex_unsigned 2 (by decide) [7, 0xFF, 0xFF, 9] 1 (by decide) (by decide)).2.2.2
    (by decide)

theorem readTextRange_apply (buf : List Byte) (cur : Int) :
    readTextRange buf cur = (bytesAt buf cur 4).map (fun bs =>
      ((toInt32 (leNat bs), cur + 4, cur + 4 + toInt32 (leNat bs)),
        cur + 4 + toInt32 (leNat bs))) := by
  simp only [readTextRange, Decoder.bind_apply, read_int32_apply]
  cases bytesAt buf cur 4 <;> rfl

theorem readText_apply (encode : Nat) (buf : List Byte) (cur : Int) :
    readText encode buf cur = (bytesAt buf cur 4).bind (fun bs =>
      if encode = 0 then
        readTextUTF16 (cur + 4) (toInt32 (leNat bs)) buf (cur + 4 + toInt32 (leNat bs))
      else
        UT_String.ofRange (cur + 4) (cur + 4 + toInt32 (leNat bs)) buf
          (cur + 4 + toInt32 (leNat bs))) := by
  simp only [readText, Decoder.bind_apply, readTextRange_apply]
  cases bytesAt buf cur 4 with
  | none => rfl
  | some bs =>
    simp only [Option.map_some', Option.some_bind]
    split <;> rfl

theorem readTextUTF16_cursor {begin byte_size : Int} {buf : List Byte} {cur c : Int}
    {s : UT_String} (h : readTextUTF16 begin byte_size buf cur = some (s, c)) : c = cur := by
  unfold readTextUTF16 at h
  split at h
  · exact absurd h (by simp)
  · split at h
    · exact absurd h (by simp)
    · dsimp only at h
      split at h
      · simp only [Option.some.injEq, Prod.mk.injEq] at h
        exact h.2.symm
      · exact absurd h (by simp)

theorem ofRange_cursor {begin last : Int} {buf : List Byte} {cur c : Int}
    {s : UT_String} (h : UT_String.ofRange begin last buf cur = some (s, c)) : c = cur := by
  unfold UT_String.ofRange at h
  split at h
  · split at h
    · exact absurd h (by simp)
    · simp only [Option.some.injEq, Prod.mk.injEq] at h
      exact h.2.symm
  · simp only [Option.some.injEq, Prod.mk.injEq] at h
    exact h.2.symm

theorem tdiv_capacity (n : Int) (hn : 0 ≤ n) :
    n ≤ 2 * ((Int.tdiv (n - 1) 2 + 2).toNat : Int) - 2 := by
  rcases lt_or_ge (n - 1) 0 with h | h
  · have h0 : n = 0 := by omega
    subst h0
    decide
  · rw [Int.tdiv_eq_ediv h (by norm_num)]
    omega

theorem readTextUTF16_defined {begin byte_size : Int} {buf : List Byte} (cur : Int)
    (h0 : 0 ≤ begin) (hn : 0 ≤ byte_size) (h1 : begin + byte_size ≤ buf.length) :
    ∃ s, readTextUTF16 begin byte_size buf cur = some (s, cur) := by
  have hb : bytesAt buf begin byte_size.toNat
      = some ((buf.drop begin.toNat).take byte_size.toNat) :=
    bytesAt_eq_some h0 (by rw [Int.toNat_of_nonneg hn]; exact h1)
  have hlen := bytesAt_length hb
  have hcap := tdiv_capacity byte_size hn
  unfold readTextUTF16
  rw [if_neg (by omega)]
  simp only [hb]
  rw [if_pos (by rw [hlen]; omega)]
  exact ⟨_, rfl⟩

theorem ofRange_eq {begin last : Int} {buf : List Byte} (cur : Int)
    (h0 : 0 ≤ begin) (hn : begin ≤ last) (h1 : last ≤ buf.length) :
    UT_String.ofRange begin last buf cur
      = some (UT_String.chars ((buf.drop begin.toNat).take (last - begin).toNat), cur) := by
  unfold UT_String.ofRange
  rw [if_pos hn, bytesAt_eq_some h0 (by rw [Int.toNat_of_nonneg (by omega)]; omega)]

/-- C10: `readText` reads a little-endian signed 32-bit length `n` at the cursor and
leaves the cursor at `start + 4 + n`: the pointer step (length field and
`memoryOffset`) does so for every `n` whenever the four length bytes are in the buffer,
every returning call of `readText` ends there for every encoding value, the call
returns whenever `0 ≤ n` and the `n` bytes are in the buffer, and with encoding 1 the
string is those `n` bytes. -/
theorem readText_consumes (encode : Nat) (buf : List Byte) (cur : Int) :
    (0 ≤ cur → cur + 4 ≤ buf.length →
      readTextRange buf cur
        = some ((int32At buf cur, cur + 4, cur + 4 + int32At buf cur),
            cur + 4 + int32At buf cur))
    ∧ (∀ s c, readText encode buf cur = some (s, c) → c = cur + 4 + int32At buf cur)
    ∧ (0 ≤ cur → 0 ≤ int32At buf cur → cur + 4 + int32At buf cur ≤ buf.length →
        ∃ s, readText encode buf cur = some (s, cur + 4 + int32At buf cur))
    ∧ (encode = 1 → 0 ≤ cur → 0 ≤ int32At buf cur →
        cur + 4 + int32At buf cur ≤ buf.length →
        readText encode buf cur
          = some (UT_String.chars ((buf.drop (cur.toNat + 4)).take (int32At buf cur).toNat),
              cur + 4 + int32At buf cur)) := by
  refine ⟨?_, ?_, ?_, ?_⟩
  · intro h0 h1
    rw [readTextRange_apply, bytesAt_eq_some h0 (by exact_mod_cast h1)]
    rfl
  · intro s c h
    rw [readText_apply] at h
    cases hb : bytesAt buf cur 4 with
    | none => rw [hb] at h; exact absurd h (by simp)
    | some bs =>
      obtain ⟨_, rfl⟩ := bytesAt_some_iff.1 hb
      rw [hb] at h
      simp only [Option.some_bind] at h
      split at h
      · exact readTextUTF16_cursor h
      · exact ofRange_cursor h
  · intro h0 hn h1
    have hb : bytesAt buf cur 4 = some ((buf.drop cur.toNat).take 4) :=
      bytesAt_eq_some h0 (by push_cast; omega)
    rw [readText_apply, hb]
    simp only [Option.some_bind]
    split
    · exact readTextUTF16_defined _ (by omega) hn (by unfold int32At at h1; omega)
    · exact ⟨_, ofRange_eq _ (by omega) (by unfold int32At at hn; omega)
        (by unfold int32At at h1; omega)⟩
  · intro he h0 hn h1
    have hb : bytesAt buf cur 4 = some ((buf.drop cur.toNat).take 4) :=
      bytesAt_eq_some h0 (by push_cast; omega)
    subst he
    rw [readText_apply, hb]
    simp only [Option.some_bind, one_ne_zero, if_false]
    rw [ofRange_eq _ (by omega) (by unfold int32At at hn; omega)
        (by unfold int32At at h1; omega)]
    have e1 : (cur + 4).toNat = cur.toNat + 4 := by omega
    have e2 : cur + 4 + toInt32 (leNat ((buf.drop cur.toNat).take 4)) - (cur + 4)
        = int32At buf cur := by unfold int32At; omega
    rw [e1, e2]
    rfl

theorem readText_consumes_witness :
    readText 1 [9, 3, 0, 0, 0, 0x61, 0x62, 0x63, 7] 1
      = some (UT_String.chars [0x61, 0x62, 0x63], 8) :=
  (readText_consumes 1 [9, 3, 0, 0, 0, 0x61, 0x62, 0x63, 7] 1).2.2.2 rfl (by decide)
    (by decide) (by decide)

/-! ## The header -/

theorem read_FileHeader_apply (buf : List Byte) (cur : Int) :
    read_FileHeader buf cur
      = (bytesAt buf cur 8).map (fun bs => (⟨bs.take 4, leNat (bs.drop 4)⟩, cur + 8)) := by
  simp only [read_FileHeader, Decoder.bind_apply, read_apply]
  cases bytesAt buf cur 8 <;> rfl

theorem check_signature_iff (sig : List Byte) (v : F32) (h : sig.length = 4) :
    check_signature ⟨sig, v⟩ = true ↔ sig = pmxSignature := by
  match sig, h with
  | [a, b, c, d], _ =>
    simp [check_signature, pmxSignature, and_assoc]

theorem F32.eq_two_iff (v : F32) : F32.eq v F32.two = true ↔ v = F32.two := by
  unfold F32.eq
  have h2 : F32.isNaN F32.two = false := by decide
  rw [h2, Bool.or_false]
  cases hv : F32.isNaN v with
  | true =>
    simp only [if_true]
    constructor
    · intro h; exact absurd h (by simp)
    · intro h; rw [h, h2] at hv; exact absurd hv (by simp)
  | false =>
    have h3 : ¬ (F32.two % 2 ^ 31 = 0) := by decide
    simp only [Bool.false_eq_true, if_false, h3, and_false, decide_eq_true_eq]

theorem F32.eq_twoPointOne_iff (v : F32) :
    F32.eq v F32.twoPointOne = true ↔ v = F32.twoPointOne := by
  unfold F32.eq
  have h2 : F32.isNaN F32.twoPointOne = false := by decide
  rw [h2, Bool.or_false]
  cases hv : F32.isNaN v with
  | true =>
    simp only [if_true]
    constructor
    · intro h; exact absurd h (by simp)
    · intro h; rw [h, h2] at hv; exact absurd hv (by simp)
  | false =>
    have h3 : ¬ (F32.twoPointOne % 2 ^ 31 = 0) := by decide
    simp only [Bool.false_eq_true, if_false, h3, and_false, decide_eq_true_eq]

theorem cookBuffer_apply (conv : Conv) (filepath : String) (buf : List Byte)
    (hlen : 8 ≤ buf.length) :
    cookBuffer conv filepath buf 0 =
      if buf.take 4 ≠ pmxSignature then some (⟨Exit.signature, Detail.empty⟩, 8)
      else if versionAt buf ≠ F32.two ∧ versionAt buf ≠ F32.twoPointOne then
        some (⟨Exit.version, Detail.empty⟩, 8)
      else (read_uint8 buf 8).bind (fun p =>
        if p.1 < 8 then some (⟨Exit.infoCountBelow8, Detail.empty⟩, p.2)
        else if versionAt buf = F32.two ∧ p.1 ≠ 8 then
          some (⟨Exit.infoCountNot8, Detail.empty⟩, p.2)
        else cookConfigured conv filepath p.1 buf p.2) := by
  have hb : bytesAt buf 0 8 = some (buf.take 8) := by
    rw [bytesAt_eq_some (le_refl _) (by push_cast; omega)]
    rfl
  have hsig : (buf.take 8).take 4 = buf.take 4 := by
    rw [List.take_take]; rfl
  have hver : leNat ((buf.take 8).drop 4) = versionAt buf := by
    unfold versionAt
    rw [List.drop_take]
  have hcs : check_signature ⟨buf.take 4, versionAt buf⟩ = true ↔ buf.take 4 = pmxSignature :=
    check_signature_iff _ _ (by simp only [List.length_take]; omega)
  unfold cookBuffer
  rw [Decoder.bind_apply, read_FileHeader_apply, hb]
  simp only [Option.map_some', Option.some_bind, hsig, hver, zero_add]
  by_cases h1 : buf.take 4 = pmxSignature
  · have r1 : ¬ (buf.take 4 ≠ pmxSignature) := not_not.2 h1
    rw [if_neg r1, hcs.2 h1]
    simp only [Bool.not_true, Bool.false_eq_true, if_false]
    by_cases h2 : versionAt buf = F32.two
    · have r2 : ¬ (versionAt buf ≠ F32.two ∧ versionAt buf ≠ F32.twoPointOne) :=
        fun h => h.1 h2
      rw [if_neg r2, (F32.eq_two_iff _).2 h2]
      simp only [Bool.not_true, Bool.false_and, Bool.false_eq_true, if_false,
        Decoder.bind_apply, Bool.true_and, decide_eq_true_eq]
      congr 1
      funext p
      by_cases h4 : p.1 < 8
      · rw [if_pos h4, if_pos h4]; rfl
      · rw [if_neg h4, if_neg h4]
        by_cases h5 : p.1 = 8
        · have r5 : ¬ (p.1 ≠ 8) := not_not.2 h5
          have r6 : ¬ (versionAt buf = F32.two ∧ p.1 ≠ 8) := fun h => h.2 h5
          rw [if_neg r5, if_neg r6]
        · have r5 : p.1 ≠ 8 := h5
          have r6 : versionAt buf = F32.two ∧ p.1 ≠ 8 := ⟨h2, h5⟩
          rw [if_pos r5, if_pos r6]; rfl
    · have e2 : F32.eq (versionAt buf) F32.two = false := by
        rw [← Bool.not_eq_true, F32.eq_two_iff]; exact h2
      by_cases h3 : versionAt buf = F32.twoPointOne
      · have r2 : ¬ (versionAt buf ≠ F32.two ∧ versionAt buf ≠ F32.twoPointOne) :=
          fun h => h.2 h3
        rw [if_neg r2, e2, (F32.eq_twoPointOne_iff _).2 h3]
        simp only [Bool.not_true, Bool.and_false, Bool.false_eq_true, if_false,
          Decoder.bind_apply, Bool.false_and]
        congr 1
        funext p
        by_cases h4 : p.1 < 8
        · rw [if_pos h4, if_pos h4]; rfl
        · have r6 : ¬ (versionAt buf = F32.two ∧ p.1 ≠ 8) := fun h => h2 h.1
          rw [if_neg h4, if_neg h4, if_neg r6]
      · have e3 : F32.eq (versionAt buf) F32.twoPointOne = false := by
          rw [← Bool.not_eq_true, F32.eq_twoPointOne_iff]; exact h3
        have r2 : versionAt buf ≠ F32.two ∧ versionAt buf ≠ F32.twoPointOne := ⟨h2, h3⟩
        rw [if_pos r2, e2, e3]
        rfl
  · have hc : check_signature ⟨buf.take 4, versionAt buf⟩ = false := by
      rw [← Bool.not_eq_true, hcs]; exact h1
    have r1 : buf.take 4 ≠ pmxSignature := h1
    rw [if_pos r1, hc]
    rfl

theorem infoByte_apply (current : Int) (k : Nat) (buf : List Byte) (cur : Int) :
    infoByte current k buf cur
      = (bytesAt buf (current + k) 1).map (fun bs => (leNat bs, cur)) := by
  simp only [infoByte, Decoder.bind_apply, Decoder.peek]
  cases bytesAt buf (current + k) 1 <;> rfl

theorem infoByte_eq (k : Nat) (buf : List Byte) (cur : Int) (h : 10 + k ≤ buf.length) :
    infoByte 9 k buf cur = some (byteAt buf (9 + k), cur) := by
  rw [infoByte_apply, bytesAt_eq_some (by omega) (by push_cast; omega)]
  have e : ((9 : Int) + k).toNat = 9 + k := by omega
  rw [e]
  rfl

theorem finish_exit (conv : Conv) (filepath : String) (m : Option Model) :
    (finish conv filepath m).exit = Exit.faceIndexCount
      ∨ (finish conv filepath m).exit = Exit.indexRange
      ∨ (finish conv filepath m).exit = Exit.done := by
  cases m with
  | none => exact Or.inl rfl
  | some m =>
    simp only [finish, assemble]
    split
    · exact Or.inr (Or.inl rfl)
    · exact Or.inr (Or.inr rfl)

theorem Decoder.bind_eq_some {α β : Type} {x : Decoder α} {f : α → Decoder β}
    {buf : List Byte} {cur c : Int} {b : β} :
    (x >>= f) buf cur = some (b, c)
      ↔ ∃ a c1, x buf cur = some (a, c1) ∧ f a buf c1 = some (b, c) := by
  rw [Decoder.bind_apply]
  cases x buf cur with
  | none => simp
  | some p =>
    obtain ⟨a, c1⟩ := p
    simp only [Option.some_bind, Option.some.injEq, Prod.mk.injEq]
    constructor
    · intro h; exact ⟨a, c1, ⟨rfl, rfl⟩, h⟩
    · rintro ⟨a', c1', ⟨rfl, rfl⟩, h⟩; exact h

theorem infoByte_cursor {current : Int} {k : Nat} {buf : List Byte} {cur c : Int} {v : Nat}
    (h : infoByte current k buf cur = some (v, c)) : c = cur := by
  rw [infoByte_apply] at h
  cases hb : bytesAt buf (current + k) 1 with
  | none => rw [hb] at h; exact absurd h (by simp)
  | some bs =>
    rw [hb] at h
    simp only [Option.map_some', Option.some.injEq, Prod.mk.injEq] at h
    exact h.2.symm

theorem infoByte_bound {current : Int} {k : Nat} {buf : List Byte} {cur c : Int} {v : Nat}
    (h : infoByte current k buf cur = some (v, c)) : current + k + 1 ≤ buf.length := by
  rw [infoByte_apply] at h
  cases hb : bytesAt buf (current + k) 1 with
  | none => rw [hb] at h; exact absurd h (by simp)
  | some bs =>
    obtain ⟨⟨_, h1⟩, _⟩ := bytesAt_some_iff.1 hb
    exact_mod_cast h1

theorem readConfig_some {current : Int} {buf : List Byte} {cur c : Int} {cfg : Config}
    (h : readConfig current buf cur = some (cfg, c)) :
    c = cur ∧ current + 8 ≤ buf.length := by
  unfold readConfig at h
  obtain ⟨t0, c0, h0, g0⟩ := Decoder.bind_eq_some.1 h
  obtain ⟨t1, c1, h1, g1⟩ := Decoder.bind_eq_some.1 g0
  obtain ⟨t2, c2, h2, g2⟩ := Decoder.bind_eq_some.1 g1
  obtain ⟨t3, c3, h3, g3⟩ := Decoder.bind_eq_some.1 g2
  obtain ⟨t4, c4, h4, g4⟩ := Decoder.bind_eq_some.1 g3
  obtain ⟨t5, c5, h5, g5⟩ := Decoder.bind_eq_some.1 g4
  obtain ⟨t6, c6, h6, g6⟩ := Decoder.bind_eq_some.1 g5
  obtain ⟨t7, c7, h7, g7⟩ := Decoder.bind_eq_some.1 g6
  have e0 := infoByte_cursor h0
  have e1 := infoByte_cursor h1
  have e2 := infoByte_cursor h2
  have e3 := infoByte_cursor h3
  have e4 := infoByte_cursor h4
  have e5 := infoByte_cursor h5
  have e6 := infoByte_cursor h6
  have e7 := infoByte_cursor h7
  have hbound := infoByte_bound h7
  simp only [Decoder.pure_apply, Option.some.injEq, Prod.mk.injEq] at g7
  exact ⟨by omega, by push_cast at hbound; omega⟩

theorem readConfig_eq (buf : List Byte) (cur : Int) (hlen : 17 ≤ buf.length) :
    readConfig 9 buf cur = some (configAt buf, cur) := by
  unfold readConfig
  simp only [Decoder.bind_apply, Option.some_bind,
    infoByte_eq 0 buf _ (by omega), infoByte_eq 1 buf _ (by omega),
    infoByte_eq 2 buf _ (by omega), infoByte_eq 3 buf _ (by omega),
    infoByte_eq 4 buf _ (by omega), infoByte_eq 5 buf _ (by omega),
    infoByte_eq 6 buf _ (by omega), infoByte_eq 7 buf _ (by omega)]
  rfl

theorem cookConfigured_some {conv : Conv} {filepath : String} {info_count : Nat}
    {buf : List Byte} {cur c : Int} {r : CookResult}
    (h : cookConfigured conv filepath info_count buf cur = some (r, c)) :
    cur + 8 ≤ buf.length
      ∧ ∃ cfg m, readModel cfg buf (cur + info_count) = some (m, c)
        ∧ r = finish conv filepath m := by
  unfold cookConfigured at h
  obtain ⟨current, c0, h0, h⟩ := Decoder.bind_eq_some.1 h
  simp only [Decoder.cursor, Option.some.injEq, Prod.mk.injEq] at h0
  obtain ⟨rfl, rfl⟩ := h0
  obtain ⟨cfg, c1, h1, h⟩ := Decoder.bind_eq_some.1 h
  obtain ⟨rfl, hbound⟩ := readConfig_some h1
  obtain ⟨u, c1, h1, h⟩ := Decoder.bind_eq_some.1 h
  simp only [Decoder.setCursor, memoryOffset, Option.some.injEq, Prod.mk.injEq] at h1
  obtain ⟨_, rfl⟩ := h1
  obtain ⟨m, c1, h1, h⟩ := Decoder.bind_eq_some.1 h
  refine ⟨hbound, cfg, m, ?_, ?_⟩
  · cases m with
    | none =>
      simp only [Decoder.pure_apply, Option.some.injEq, Prod.mk.injEq] at h
      rw [h1, h.2]
    | some m =>
      simp only [Decoder.pure_apply, Option.some.injEq, Prod.mk.injEq] at h
      rw [h1, h.2]
  · cases m with
    | none =>
      simp only [Decoder.pure_apply, Option.some.injEq, Prod.mk.injEq] at h
      exact h.1.symm
    | some m =>
      simp only [Decoder.pure_apply, Option.some.injEq, Prod.mk.injEq] at h
      exact h.1.symm

theorem cookConfigured_apply (conv : Conv) (filepath : String) (info_count : Nat)
    (buf : List Byte) (hlen : 17 ≤ buf.length) :
    cookConfigured conv filepath info_count buf 9
      = (readModel (configAt buf) buf (9 + info_count)).map
          (fun p => (finish conv filepath p.1, p.2)) := by
  unfold cookConfigured
  simp only [Decoder.bind_apply, Decoder.cursor, Option.some_bind,
    readConfig_eq buf _ hlen, Decoder.setCursor, memoryOffset]
  show (readModel (configAt buf) buf (9 + info_count)).bind _ = _
  cases readModel (configAt buf) buf (9 + ↑info_count) with
  | none => rfl
  | some p =>
    obtain ⟨m, c⟩ := p
    cases m <;> rfl

/-! ## Steps that only move forward -/

theorem bytesAt_agree {m : Nat} {buf buf' : List Byte} (h : AgreeFrom m buf buf')
    {p : Int} (hp : (m : Int) ≤ p) (n : Nat) : bytesAt buf p n = bytesAt buf' p n := by
  have hd : buf.drop p.toNat = buf'.drop p.toNat := by
    apply List.ext_get?
    intro j
    simp only [List.get?_eq_getElem?, List.getElem?_drop]
    have := h.2 (p.toNat + j) (by omega)
    simpa only [List.get?_eq_getElem?] using this
  unfold bytesAt
  rw [h.1, hd]

theorem Forward.pure {α : Type} (a : α) : Forward (Pure.pure a : Decoder α) where
  mono := by
    intro buf cur a' c h
    simp only [Decoder.pure_apply, Option.some.injEq, Prod.mk.injEq] at h
    omega
  frame := by
    intro m buf buf' _ cur _
    rfl

theorem Forward.bind {α β : Type} {x : Decoder α} {f : α → Decoder β}
    (hx : Forward x) (hf : ∀ a, Forward (f a)) : Forward (x >>= f) where
  mono := by
    intro buf cur b c h
    obtain ⟨a, c1, h1, h2⟩ := Decoder.bind_eq_some.1 h
    have := hx.mono _ _ _ _ h1
    have := (hf a).mono _ _ _ _ h2
    omega
  frame := by
    intro m buf buf' hag cur hcur
    rw [Decoder.bind_apply, Decoder.bind_apply, ← hx.frame m buf buf' hag cur hcur]
    cases h1 : x buf cur with
    | none => rfl
    | some p =>
      obtain ⟨a, c1⟩ := p
      have := hx.mono _ _ _ _ h1
      simp only [Option.some_bind]
      exact (hf a).frame m buf buf' hag c1 (by omega)

theorem Forward.ite {α : Type} (c : Prop) [Decidable c] {x y : Decoder α}
    (hx : Forward x) (hy : Forward y) : Forward (if c then x else y) := by
  split
  · exact hx
  · exact hy

theorem Forward.read (size : Nat) : Forward (read size true) where
  mono := by
    intro buf cur a c h
    rw [read_apply] at h
    cases hb : bytesAt buf cur size with
    | none => rw [hb] at h; exact absurd h (by simp)
    | some bs =>
      rw [hb] at h
      simp only [Option.map_some', Option.some.injEq, Prod.mk.injEq] at h
      omega
  frame := by
    intro m buf buf' hag cur hcur
    rw [read_apply, read_apply, bytesAt_agree hag hcur]

theorem Forward.times {α : Type} {step : Decoder α} (hs : Forward step) (n : Nat) :
    Forward (Decoder.times n step) := by
  induction n with
  | zero => exact Forward.pure _
  | succ k ih =>
    unfold Decoder.times
    exact Forward.bind hs (fun _ => Forward.bind ih (fun _ => Forward.pure _))

theorem Forward.read_uint8 : Forward read_uint8 :=
  Forward.bind (Forward.read 1) (fun _ => Forward.pure _)

theorem Forward.read_uint16 : Forward read_uint16 :=
  Forward.bind (Forward.read 2) (fun _ => Forward.pure _)

theorem Forward.read_uint32 : Forward read_uint32 :=
  Forward.bind (Forward.read 4) (fun _ => Forward.pure _)

theorem Forward.read_int32 : Forward read_int32 :=
  Forward.bind (Forward.read 4) (fun _ => Forward.pure _)

theorem Forward.read_fpreal32 : Forward read_fpreal32 :=
  Forward.bind (Forward.read 4) (fun _ => Forward.pure _)

theorem Forward.read_UT_Vector2 : Forward read_UT_Vector2 :=
  Forward.bind (Forward.read 8) (fun _ => Forward.pure _)

theorem Forward.read_UT_Vector3 : Forward read_UT_Vector3 :=
  Forward.bind (Forward.read 12) (fun _ => Forward.pure _)

theorem Forward.read_UT_Vector4 : Forward read_UT_Vector4 :=
  Forward.bind (Forward.read 16) (fun _ => Forward.pure _)

theorem Forward.readIndex (stride : Nat) : Forward (readIndex stride) := by
  unfold PMX.readIndex
  split
  · exact Forward.bind Forward.read_uint8 (fun _ => Forward.pure _)
  · exact Forward.bind Forward.read_uint16 (fun _ => Forward.pure _)
  · exact Forward.bind Forward.read_uint32 (fun _ => Forward.pure _)
  · exact Forward.pure _

theorem readTextUTF16_agree {m : Nat} {buf buf' : List Byte} (h : AgreeFrom m buf buf')
    {begin : Int} (hb : (m : Int) ≤ begin) (byte_size cur : Int) :
    readTextUTF16 begin byte_size buf cur = readTextUTF16 begin byte_size buf' cur := by
  unfold readTextUTF16
  rw [bytesAt_agree h hb]

theorem ofRange_agree {m : Nat} {buf buf' : List Byte} (h : AgreeFrom m buf buf')
    {begin : Int} (hb : (m : Int) ≤ begin) (last cur : Int) :
    UT_String.ofRange begin last buf cur = UT_String.ofRange begin last buf' cur := by
  unfold UT_String.ofRange
  rw [bytesAt_agree h hb]

theorem readTextUTF16_nonneg {begin byte_size : Int} {buf : List Byte} {cur c : Int}
    {s : UT_String} (h : readTextUTF16 begin byte_size buf cur = some (s, c)) :
    0 ≤ byte_size := by
  unfold readTextUTF16 at h
  split at h
  · exact absurd h (by simp)
  · omega

theorem Forward.readBoneWeightInfo (bone_index_stride : Nat) :
    Forward (readBoneWeightInfo bone_index_stride) := by
  unfold PMX.readBoneWeightInfo
  refine Forward.bind Forward.read_uint8 (fun deform_type => ?_)
  split <;>
    repeat' first
      | exact Forward.pure _
      | exact Forward.readIndex _
      | exact Forward.read_fpreal32
      | exact Forward.read_UT_Vector3
      | apply Forward.bind
      | intro _

theorem Forward.readVertex (cfg : Config) : Forward (readVertex cfg) := by
  unfold PMX.readVertex
  repeat' first
    | exact Forward.pure _
    | exact Forward.read_fpreal32
    | exact Forward.read_UT_Vector3
    | exact Forward.read_UT_Vector2
    | exact Forward.times Forward.read_UT_Vector4 _
    | exact Forward.readBoneWeightInfo _
    | apply Forward.bind
    | intro _

theorem Forward.readToonTextureIndex (shared_toon_flag texture_index_stride : Nat) :
    Forward (readToonTextureIndex shared_toon_flag texture_index_stride) := by
  unfold PMX.readToonTextureIndex
  exact Forward.ite _ (Forward.readIndex _)
    (Forward.bind Forward.read_uint8 (fun _ => Forward.pure _))

theorem Forward.readFaceIndex (vertex_index_stride : Nat) :
    Forward (readFaceIndex vertex_index_stride) :=
  Forward.bind (Forward.readIndex _) (fun _ => Forward.pure _)

/-! ## The header checks of `cook` -/

theorem cook_apply (conv : Conv) (filepath : String) (buf : List Byte) :
    cook conv filepath false (some buf) = (cookBuffer conv filepath buf 0).map Prod.fst := rfl

theorem cookBuffer_short (conv : Conv) (filepath : String) (buf : List Byte)
    (hlen : ¬ 8 ≤ buf.length) : cookBuffer conv filepath buf 0 = none := by
  unfold cookBuffer
  rw [Decoder.bind_apply, read_FileHeader_apply]
  have : bytesAt buf 0 8 = none := by
    unfold bytesAt
    rw [if_neg]
    push_cast
    omega
  rw [this]
  rfl

theorem read_uint8_eq (buf : List Byte) (i : Nat) (h : i + 1 ≤ buf.length) :
    read_uint8 buf i = some (byteAt buf i, (i : Int) + 1) := by
  rw [read_uint8_apply, bytesAt_eq_some (by omega) (by push_cast; omega)]
  simp only [Int.toNat_ofNat, Option.map_some']
  rfl

/-- C1: a buffer whose first four bytes are not `'P','M','X',' '` never yields a
model: every run of `cook` that returns has taken the signature return with the
output geometry empty (no points, no primitives, no attributes), and the run does
return so whenever the buffer holds the eight bytes of the header. -/
theorem cook_signature_gate (conv : Conv) (filepath : String) (buf : List Byte)
    (hsig : buf.take 4 ≠ pmxSignature) :
    (∀ r, cook conv filepath false (some buf) = some r → r = ⟨Exit.signature, Detail.empty⟩)
    ∧ (8 ≤ buf.length →
        cook conv filepath false (some buf) = some ⟨Exit.signature, Detail.empty⟩) := by
  have key : 8 ≤ buf.length →
      cook conv filepath false (some buf) = some ⟨Exit.signature, Detail.empty⟩ := by
    intro hlen
    rw [cook_apply, cookBuffer_apply conv filepath buf hlen, if_pos hsig]
    rfl
  refine ⟨?_, key⟩
  intro r hr
  by_cases hlen : 8 ≤ buf.length
  · rw [key hlen] at hr
    exact (Option.some.inj hr).symm
  · rw [cook_apply, cookBuffer_short conv filepath buf hlen] at hr
    exact absurd hr (by simp)

theorem cook_signature_gate_witness :
    cook ⟨id, id⟩ "a.pmx" false (some [0x50, 0x4D, 0x58, 0x00, 0, 0, 0, 0x40, 8])
      = some ⟨Exit.signature, Detail.empty⟩ :=
  (cook_signature_gate ⟨id, id⟩ "a.pmx" [0x50, 0x4D, 0x58, 0x00, 0, 0, 0, 0x40, 8]
    (by decide)).2 (by decide)

theorem cook_past_version {conv : Conv} {filepath : String} {buf : List Byte}
    (hlen : 8 ≤ buf.length) (hsig : buf.take 4 = pmxSignature)
    (hver : versionAt buf = F32.two ∨ versionAt buf = F32.twoPointOne) :
    cook conv filepath false (some buf) = ((read_uint8 buf 8).bind (fun p =>
        if p.1 < 8 then some (⟨Exit.infoCountBelow8, Detail.empty⟩, p.2)
        else if versionAt buf = F32.two ∧ p.1 ≠ 8 then
          some (⟨Exit.infoCountNot8, Detail.empty⟩, p.2)
        else cookConfigured conv filepath p.1 buf p.2)).map Prod.fst := by
  have r1 : ¬ (buf.take 4 ≠ pmxSignature) := not_not.2 hsig
  have r2 : ¬ (versionAt buf ≠ F32.two ∧ versionAt buf ≠ F32.twoPointOne) := by
    rintro ⟨h1, h2⟩
    rcases hver with h | h
    · exact h1 h
    · exact h2 h
  rw [cook_apply, cookBuffer_apply conv filepath buf hlen, if_neg r1, if_neg r2]

theorem cook_past_version_exit {conv : Conv} {filepath : String} {buf : List Byte}
    (hlen : 8 ≤ buf.length) (hsig : buf.take 4 = pmxSignature)
    (hver : versionAt buf = F32.two ∨ versionAt buf = F32.twoPointOne)
    {r : CookResult} (hr : cook conv filepath false (some buf) = some r) :
    9 ≤ buf.length ∧
    ((byteAt buf 8 < 8 ∧ r = ⟨Exit.infoCountBelow8, Detail.empty⟩)
    ∨ (¬ byteAt buf 8 < 8 ∧ (versionAt buf = F32.two ∧ byteAt buf 8 ≠ 8)
        ∧ r = ⟨Exit.infoCountNot8, Detail.empty⟩)
    ∨ (¬ byteAt buf 8 < 8 ∧ ¬ (versionAt buf = F32.two ∧ byteAt buf 8 ≠ 8)
        ∧ ∃ c, cookConfigured conv filepath (byteAt buf 8) buf 9 = some (r, c))) := by
  rw [cook_past_version hlen hsig hver] at hr
  by_cases h9 : 9 ≤ buf.length
  · refine ⟨h9, ?_⟩
    have e := read_uint8_eq buf 8 (by omega)
    simp only [Nat.cast_ofNat] at e
    rw [e] at hr
    simp only [Option.some_bind] at hr
    by_cases h4 : byteAt buf 8 < 8
    · rw [if_pos h4] at hr
      exact Or.inl ⟨h4, (Option.some.inj hr).symm⟩
    · rw [if_neg h4] at hr
      by_cases h5 : versionAt buf = F32.two ∧ byteAt buf 8 ≠ 8
      · rw [if_pos h5] at hr
        exact Or.inr (Or.inl ⟨h4, h5, (Option.some.inj hr).symm⟩)
      · rw [if_neg h5] at hr
        refine Or.inr (Or.inr ⟨h4, h5, ?_⟩)
        norm_num at hr
        cases hc : cookConfigured conv filepath (byteAt buf 8) buf 9 with
        | none => rw [hc] at hr; exact absurd hr (by simp)
        | some p =>
          rw [hc] at hr
          obtain ⟨r', c⟩ := p
          simp only [Option.map_some', Option.some.injEq] at hr
          obtain ⟨x, hx⟩ := hr
          simp only [Prod.mk.injEq] at hx
          exact ⟨c, by rw [hx.1]⟩
  · exfalso
    have : read_uint8 buf 8 = none := by
      rw [read_uint8_apply]
      unfold bytesAt
      rw [if_neg (by push_cast; omega)]
      rfl
    rw [this] at hr
    exact absurd hr (by simp)

theorem cookConfigured_exit {conv : Conv} {filepath : String} {info_count : Nat}
    {buf : List Byte} {cur c : Int} {r : CookResult}
    (h : cookConfigured conv filepath info_count buf cur = some (r, c)) :
    r.exit = Exit.faceIndexCount ∨ r.exit = Exit.indexRange ∨ r.exit = Exit.done := by
  obtain ⟨_, cfg, m, _, rfl⟩ := cookConfigured_some h
  exact finish_exit conv filepath m

/-- C2: with a valid signature, `cook` takes the version return (output geometry empty)
when the pattern of the float at file offset 4 is neither that of `2.0f` nor that of
`2.1f`; with either of these two patterns no run takes the version return.  The
patterns of `1.9f` (0x3FF33333) and `2.2f` (0x400CCCCD) are rejected. -/
theorem cook_version_gate (conv : Conv) (filepath : String) (buf : List Byte)
    (hlen : 8 ≤ buf.length) (hsig : buf.take 4 = pmxSignature) :
    (versionAt buf ≠ 0x40000000 ∧ versionAt buf ≠ 0x40066666 →
      cook conv filepath false (some buf) = some ⟨Exit.version, Detail.empty⟩)
    ∧ (versionAt buf = 0x40000000 ∨ versionAt buf = 0x40066666 →
        ∀ r, cook conv filepath false (some buf) = some r → r.exit ≠ Exit.version)
    ∧ (versionAt buf = 0x3FF33333 ∨ versionAt buf = 0x400CCCCD →
        cook conv filepath false (some buf) = some ⟨Exit.version, Detail.empty⟩) := by
  have key : versionAt buf ≠ F32.two ∧ versionAt buf ≠ F32.twoPointOne →
      cook conv filepath false (some buf) = some ⟨Exit.version, Detail.empty⟩ := by
    intro h
    have r1 : ¬ (buf.take 4 ≠ pmxSignature) := not_not.2 hsig
    rw [cook_apply, cookBuffer_apply conv filepath buf hlen, if_neg r1, if_pos h]
    rfl
  refine ⟨key, ?_, ?_⟩
  · intro hver r hr
    obtain ⟨_, h | h | h⟩ := cook_past_version_exit hlen hsig hver hr
    · rw [h.2]; decide
    · rw [h.2.2]; decide
    · obtain ⟨c, hc⟩ := h.2.2
      rcases cookConfigured_exit hc with e | e | e <;> rw [e] <;> decide
  · intro h
    apply key
    rcases h with h | h <;> rw [h] <;> decide

theorem cook_version_gate_witness :
    cook ⟨id, id⟩ "a.pmx" false (some [0x50, 0x4D, 0x58, 0x20, 0x33, 0x33, 0xF3, 0x3F, 8])
      = some ⟨Exit.version, Detail.empty⟩ :=
  (cook_version_gate ⟨id, id⟩ "a.pmx" [0x50, 0x4D, 0x58, 0x20, 0x33, 0x33, 0xF3, 0x3F, 8]
    (by decide) (by decide)).2.2 (Or.inl (by decide))

/-- C3: with a valid signature and an accepted version, `cook` returns at one of the two
checks of the configuration-byte count (output geometry empty) exactly when the
unsigned byte at file offset 8 is less than 8, or the version is 2.0 and the byte is
not 8.  Version 2.0 with count 9 is rejected; version 2.1 with count 9 is not. -/
theorem cook_info_count_gate (conv : Conv) (filepath : String) (buf : List Byte)
    (hlen : 9 ≤ buf.length) (hsig : buf.take 4 = pmxSignature)
    (hver : versionAt buf = 0x40000000 ∨ versionAt buf = 0x40066666) :
    (byteAt buf 8 < 8 →
      cook conv filepath false (some buf) = some ⟨Exit.infoCountBelow8, Detail.empty⟩)
    ∧ (8 ≤ byteAt buf 8 → versionAt buf = 0x40000000 → byteAt buf 8 ≠ 8 →
        cook conv filepath false (some buf) = some ⟨Exit.infoCountNot8, Detail.empty⟩)
    ∧ (∀ r, cook conv filepath false (some buf) = some r →
        ((r.exit = Exit.infoCountBelow8 ∨ r.exit = Exit.infoCountNot8)
          ↔ (byteAt buf 8 < 8 ∨ (versionAt buf = 0x40000000 ∧ byteAt buf 8 ≠ 8))))
    ∧ (versionAt buf = 0x40000000 → byteAt buf 8 = 9 →
        cook conv filepath false (some buf) = some ⟨Exit.infoCountNot8, Detail.empty⟩)
    ∧ (versionAt buf = 0x40066666 → byteAt buf 8 = 9 →
        ∀ r, cook conv filepath false (some buf) = some r →
          r.exit ≠ Exit.infoCountBelow8 ∧ r.exit ≠ Exit.infoCountNot8) := by
  have e := read_uint8_eq buf 8 (by omega)
  simp only [Nat.cast_ofNat] at e
  have low : byteAt buf 8 < 8 →
      cook conv filepath false (some buf) = some ⟨Exit.infoCountBelow8, Detail.empty⟩ := by
    intro h
    rw [cook_past_version (by omega) hsig hver, e]
    simp only [Option.some_bind]
    rw [if_pos h]
    rfl
  have not8 : 8 ≤ byteAt buf 8 → versionAt buf = 0x40000000 → byteAt buf 8 ≠ 8 →
      cook conv filepath false (some buf) = some ⟨Exit.infoCountNot8, Detail.empty⟩ := by
    intro h8 hv hne
    have h4 : ¬ byteAt buf 8 < 8 := by omega
    have h5 : versionAt buf = F32.two ∧ byteAt buf 8 ≠ 8 := ⟨hv, hne⟩
    rw [cook_past_version (by omega) hsig hver, e]
    simp only [Option.some_bind]
    rw [if_neg h4, if_pos h5]
    rfl
  have iff : ∀ r, cook conv filepath false (some buf) = some r →
      ((r.exit = Exit.infoCountBelow8 ∨ r.exit = Exit.infoCountNot8)
        ↔ (byteAt buf 8 < 8 ∨ (versionAt buf = 0x40000000 ∧ byteAt buf 8 ≠ 8))) := by
    intro r hr
    obtain ⟨_, h | h | h⟩ := cook_past_version_exit (by omega) hsig hver hr
    · rw [h.2]
      exact ⟨fun _ => Or.inl h.1, fun _ => Or.inl rfl⟩
    · rw [h.2.2]
      exact ⟨fun _ => Or.inr h.2.1, fun _ => Or.inr rfl⟩
    · obtain ⟨c, hc⟩ := h.2.2
      constructor
      · intro hx
        exfalso
        rcases cookConfigured_exit hc with e | e | e <;> rw [e] at hx <;>
          exact absurd hx (by decide)
      · rintro (hx | hx)
        · exact absurd hx h.1
        · exact absurd hx h.2.1
  refine ⟨low, not8, iff, ?_, ?_⟩
  · intro hv h9
    exact not8 (by omega) hv (by omega)
  · intro hv h9 r hr
    have hn : ¬ (byteAt buf 8 < 8 ∨ (versionAt buf = 0x40000000 ∧ byteAt buf 8 ≠ 8)) := by
      rw [hv, h9]
      decide
    have := (iff r hr).not.2 hn
    exact ⟨fun hx => this (Or.inl hx), fun hx => this (Or.inr hx)⟩

theorem cook_info_count_gate_witness :
    cook ⟨id, id⟩ "a.pmx" false (some [0x50, 0x4D, 0x58, 0x20, 0, 0, 0, 0x40, 9, 1])
      = some ⟨Exit.infoCountNot8, Detail.empty⟩ :=
  (cook_info_count_gate ⟨id, id⟩ "a.pmx" [0x50, 0x4D, 0x58, 0x20, 0, 0, 0, 0x40, 9, 1]
    (by decide) (by decide) (Or.inl (by decide))).2.2.2.1 (by decide) (by decide)

/-! ## The configuration block -/

theorem slice_agree {buf buf' : List Byte} {b : Nat}
    (h : ∀ j, j < b → buf'.get? j = buf.get? j) (i k : Nat) (hik : i + k ≤ b) :
    (buf'.drop i).take k = (buf.drop i).take k := by
  apply List.ext_get?
  intro j
  simp only [List.get?_eq_getElem?, List.getElem?_take, List.getElem?_drop]
  by_cases hj : j < k
  · have := h (i + j) (by omega)
    simp only [List.get?_eq_getElem?] at this
    simp only [hj, if_true, this]
  · simp only [hj, if_false]

theorem Decoder.times_length {α : Type} {step : Decoder α} :
    ∀ (n : Nat) {buf : List Byte} {cur c : Int} {as : List α},
      Decoder.times n step buf cur = some (as, c) → as.length = n
  | 0, buf, cur, c, as, h => by
    simp only [Decoder.times, Decoder.pure_apply, Option.some.injEq, Prod.mk.injEq] at h
    rw [← h.1]
    rfl
  | n + 1, buf, cur, c, as, h => by
    unfold Decoder.times at h
    obtain ⟨a, c1, _, h⟩ := Decoder.bind_eq_some.1 h
    obtain ⟨rest, c2, h2, h⟩ := Decoder.bind_eq_some.1 h
    simp only [Decoder.pure_apply, Option.some.injEq, Prod.mk.injEq] at h
    rw [← h.1, List.length_cons, Decoder.times_length n h2]

theorem readModel_some {cfg : Config} {buf : List Byte} {cur c : Int} {m : Model}
    (h : readModel cfg buf cur = some (some m, c)) :
    (∃ c1, readText cfg.text_encode buf cur = some (m.model_name, c1))
    ∧ Int.tmod m.face_index_count 3 = 0
    ∧ (∃ c2 c3, Decoder.times m.face_index_count.toNat
          (readFaceIndex cfg.vertex_index_stride) buf c2 = some (m.indices, c3))
    ∧ m.position_array.length = m.num_vertices.toNat
    ∧ m.normal_array.length = m.num_vertices.toNat
    ∧ m.uv_array.length = m.num_vertices.toNat
    ∧ m.bone_weight_array.length = m.num_vertices.toNat := by
  unfold readModel at h
  obtain ⟨model_name, c1, h1, h⟩ := Decoder.bind_eq_some.1 h
  obtain ⟨model_name_en, c2, h2, h⟩ := Decoder.bind_eq_some.1 h
  obtain ⟨comment, c3, h3, h⟩ := Decoder.bind_eq_some.1 h
  obtain ⟨comment_en, c4, h4, h⟩ := Decoder.bind_eq_some.1 h
  obtain ⟨num_vertices, c5, h5, h⟩ := Decoder.bind_eq_some.1 h
  obtain ⟨vertices, c6, h6, h⟩ := Decoder.bind_eq_some.1 h
  obtain ⟨face_index_count, c7, h7, h⟩ := Decoder.bind_eq_some.1 h
  split at h
  · simp only [Decoder.pure_apply, Option.some.injEq, Prod.mk.injEq] at h
    exact absurd h.1 (by simp)
  · rename_i hmod
    obtain ⟨indices, c8, h8, h⟩ := Decoder.bind_eq_some.1 h
    obtain ⟨texture_count, c9, h9, h⟩ := Decoder.bind_eq_some.1 h
    obtain ⟨texture_array, c10, h10, h⟩ := Decoder.bind_eq_some.1 h
    obtain ⟨material_count, c11, h11, h⟩ := Decoder.bind_eq_some.1 h
    obtain ⟨materials, c12, h12, h⟩ := Decoder.bind_eq_some.1 h
    simp only [Decoder.pure_apply, Option.some.injEq, Prod.mk.injEq] at h
    obtain ⟨rfl, rfl⟩ := h
    have hv := Decoder.times_length _ h6
    refine ⟨⟨c1, h1⟩, not_not.1 hmod, ⟨c7, c8, h8⟩, ?_, ?_, ?_, ?_⟩ <;>
      simp only [List.length_map, hv]

theorem cook_accepted {conv : Conv} {filepath : String} {buf : List Byte}
    (h17 : 17 ≤ buf.length) (hsig : buf.take 4 = pmxSignature)
    (hver : versionAt buf = F32.two ∨ versionAt buf = F32.twoPointOne)
    (hn : 8 ≤ byteAt buf 8) (h20 : versionAt buf = F32.two → byteAt buf 8 = 8) :
    cook conv filepath false (some buf)
      = (readModel (configAt buf) buf (9 + byteAt buf 8)).map
          (fun p => finish conv filepath p.1) := by
  have e := read_uint8_eq buf 8 (by omega)
  simp only [Nat.cast_ofNat] at e
  have h4 : ¬ byteAt buf 8 < 8 := by omega
  have h5 : ¬ (versionAt buf = F32.two ∧ byteAt buf 8 ≠ 8) := fun h => h.2 (h20 h.1)
  rw [cook_past_version (by omega) hsig hver, e]
  simp only [Option.some_bind]
  rw [if_neg h4, if_neg h5]
  norm_num
  rw [cookConfigured_apply conv filepath _ buf h17, Option.map_map]
  rfl

/-! ## The index checks -/

theorem assemble_done_iff (conv : Conv) (filepath : String) (m : Model) :
    (assemble conv filepath m).exit = Exit.done
      ↔ ∀ index ∈ m.indices, 0 ≤ index ∧ index < m.num_vertices := by
  unfold assemble
  simp only
  split
  · rename_i h
    simp only [List.any_eq_true, Bool.or_eq_true, decide_eq_true_eq] at h
    obtain ⟨i, hi, hbad⟩ := h
    constructor
    · intro h; exact absurd h (by simp)
    · intro h
      have := h i hi
      omega
  · rename_i h
    simp only [List.any_eq_true, Bool.or_eq_true, decide_eq_true_eq, not_exists, not_and,
      not_or] at h
    constructor
    · intro _ i hi
      have := h i hi
      omega
    · intro _; trivial

theorem assemble_prims (conv : Conv) (filepath : String) (m : Model) :
    ((assemble conv filepath m).exit = Exit.done →
      (assemble conv filepath m).detail.prims = triangles m.indices)
    ∧ ((assemble conv filepath m).exit ≠ Exit.done →
      (assemble conv filepath m).detail.prims = []) := by
  unfold assemble
  simp only
  split
  · exact ⟨fun h => absurd h (by simp), fun _ => rfl⟩
  · exact ⟨fun _ => rfl, fun h => absurd rfl h⟩

theorem cook_some_cases {conv : Conv} {filepath : String} {buf : List Byte} {r : CookResult}
    (hr : cook conv filepath false (some buf) = some r) :
    (r.detail = Detail.empty ∧ r.exit ≠ Exit.done)
    ∨ ∃ m c, readModel (configAt buf) buf (9 + byteAt buf 8) = some (some m, c)
        ∧ r = assemble conv filepath m := by
  by_cases hlen : 8 ≤ buf.length
  · by_cases hsig : buf.take 4 = pmxSignature
    · by_cases hver : versionAt buf = F32.two ∨ versionAt buf = F32.twoPointOne
      · obtain ⟨_, h | h | h⟩ := cook_past_version_exit hlen hsig hver hr
        · rw [h.2]; exact Or.inl ⟨rfl, by decide⟩
        · rw [h.2.2]; exact Or.inl ⟨rfl, by decide⟩
        · obtain ⟨c, hc⟩ := h.2.2
          have h17 : 17 ≤ buf.length := by
            have := (cookConfigured_some hc).1
            omega
          rw [cookConfigured_apply conv filepath _ buf h17] at hc
          cases hm : readModel (configAt buf) buf (9 + byteAt buf 8) with
          | none => rw [hm] at hc; exact absurd hc (by simp)
          | some p =>
            obtain ⟨m, c'⟩ := p
            rw [hm] at hc
            simp only [Option.map_some', Option.some.injEq, Prod.mk.injEq] at hc
            obtain ⟨rfl, rfl⟩ := hc
            cases m with
            | none => exact Or.inl ⟨rfl, by simp [finish]⟩
            | some m => exact Or.inr ⟨m, c', rfl, rfl⟩
      · have hv : versionAt buf ≠ F32.two ∧ versionAt buf ≠ F32.twoPointOne :=
          ⟨fun h => hver (Or.inl h), fun h => hver (Or.inr h)⟩
        have r1 : ¬ (buf.take 4 ≠ pmxSignature) := not_not.2 hsig
        rw [cook_apply, cookBuffer_apply conv filepath buf hlen, if_neg r1, if_pos hv] at hr
        rw [← Option.some.inj hr]
        exact Or.inl ⟨rfl, by decide⟩
    · have r1 : buf.take 4 ≠ pmxSignature := hsig
      rw [cook_apply, cookBuffer_apply conv filepath buf hlen, if_pos r1] at hr
      rw [← Option.some.inj hr]
      exact Or.inl ⟨rfl, by decide⟩
  · rw [cook_apply, cookBuffer_short conv filepath buf hlen] at hr
    exact absurd hr (by simp)

theorem narrowToInt_high (v : Int) (h1 : 2 ^ 31 ≤ v) (h2 : v < 2 ^ 32) :
    narrowToInt v < 0 := by
  unfold narrowToInt
  omega

/-- C5: `cook` comes to build the polygons (`GEO_PrimPoly::buildBlock`) only when the
declared index count is divisible by 3 and every stored index `i` has
`0 ≤ i < num_vertices`; on every other return no primitive has been built.  One index
outside the range is enough for the return, and a 4-byte index of `2 ^ 31` or more is
negative once narrowed into the `int` array, hence outside the range. -/
theorem cook_index_validation (conv : Conv) (filepath : String) :
    (∀ buf r, cook conv filepath false (some buf) = some r → r.exit = Exit.done →
      ∃ m c c2 c3,
        readModel (configAt buf) buf (9 + byteAt buf 8) = some (some m, c)
        ∧ r = assemble conv filepath m
        ∧ Decoder.times m.face_index_count.toNat
            (readFaceIndex (byteAt buf 11)) buf c2 = some (m.indices, c3)
        ∧ Int.tmod m.face_index_count 3 = 0
        ∧ (∀ index ∈ m.indices, 0 ≤ index ∧ index < m.num_vertices)
        ∧ r.detail.prims = triangles m.indices)
    ∧ (∀ buf r, cook conv filepath false (some buf) = some r → r.exit ≠ Exit.done →
        r.detail.prims = [])
    ∧ (∀ m : Model, (∃ index ∈ m.indices, index < 0 ∨ m.num_vertices ≤ index) →
        (assemble conv filepath m).exit = Exit.indexRange
          ∧ (assemble conv filepath m).detail.prims = [])
    ∧ (∀ (stride : Nat) (buf : List Byte) (cur c v : Int),
        readIndex stride buf cur = some (v, c) → 2 ^ 31 ≤ v → v < 2 ^ 32 →
        ∃ index, readFaceIndex stride buf cur = some (index, c) ∧ index < 0) := by
  refine ⟨?_, ?_, ?_, ?_⟩
  · intro buf r hr hdone
    rcases cook_some_cases hr with h | ⟨m, c, hm, rfl⟩
    · exact absurd hdone h.2
    · obtain ⟨_, hmod, ⟨c2, c3, hidx⟩, _⟩ := readModel_some hm
      exact ⟨m, c, c2, c3, hm, rfl, hidx, hmod,
        (assemble_done_iff conv filepath m).1 hdone,
        (assemble_prims conv filepath m).1 hdone⟩
  · intro buf r hr hne
    rcases cook_some_cases hr with h | ⟨m, c, hm, rfl⟩
    · rw [h.1]; rfl
    · exact (assemble_prims conv filepath m).2 hne
  · intro m hbad
    have hne : (assemble conv filepath m).exit ≠ Exit.done := by
      intro h
      obtain ⟨i, hi, hb⟩ := hbad
      have := (assemble_done_iff conv filepath m).1 h i hi
      omega
    refine ⟨?_, (assemble_prims conv filepath m).2 hne⟩
    unfold assemble at hne ⊢
    simp only at hne ⊢
    split
    · rfl
    · rename_i h
      rw [if_neg h] at hne
      exact absurd rfl hne
  · intro stride buf cur c v hv h1 h2
    refine ⟨narrowToInt v, ?_, narrowToInt_high v h1 h2⟩
    unfold readFaceIndex
    rw [Decoder.bind_apply, hv]
    rfl

theorem cook_index_validation_witness :
    (assemble ⟨id, id⟩ "a.pmx" modelIndexPastEnd).exit = Exit.indexRange
      ∧ (assemble ⟨id, id⟩ "a.pmx" modelIndexPastEnd).detail.prims = [] :=
  (cook_index_validation ⟨id, id⟩ "a.pmx").2.2.1 modelIndexPastEnd
    ⟨1, by decide, Or.inr (by decide)⟩

/-! ## Failure after the points have been written -/

theorem readModel_fileIndexPastEnd :
    readModel (configAt fileIndexPastEnd) fileIndexPastEnd (9 + byteAt fileIndexPastEnd 8)
      = some (some modelIndexPastEnd, 90) := by
  decide

/-- C6 (the code differs): on `fileIndexPastEnd`, whose third polygon index equals the
vertex count, `cook` returns from the index range check after it has appended the
point and set the point attributes `N` and `uv`: the output holds one point with a
normal and a uv, not an empty geometry. -/
theorem cook_index_range_partial (conv : Conv) :
    cook conv "a.pmx" false (some fileIndexPastEnd)
      = some ⟨Exit.indexRange,
          { points := [conv.pos_conv ⟨0x3F800000, 0x40000000, 0x40400000⟩]
            N := some [conv.axis ⟨0, 0x3F800000, 0⟩]
            uv := some [⟨0x3F000000, 0x3F000000, 0x3F800000⟩]
            prims := [], mat_index := none, filepath := none, tex_names := none
            mat_parms := none }⟩ := by
  rw [cook_accepted (by decide) (by decide) (Or.inl (by decide)) (by decide) (by decide),
    readModel_fileIndexPastEnd]
  rfl

/-! ## Skin bindings -/

theorem read_uint8_at (buf : List Byte) (cur : Int) (h0 : 0 ≤ cur)
    (h1 : cur + 1 ≤ buf.length) :
    read_uint8 buf cur = some (unsignedAt buf cur 1, cur + 1) := by
  rw [read_uint8_apply, bytesAt_eq_some h0 (by exact_mod_cast h1)]
  rfl

theorem read_fpreal32_at (buf : List Byte) (cur : Int) (h0 : 0 ≤ cur)
    (h1 : cur + 4 ≤ buf.length) :
    read_fpreal32 buf cur = some (unsignedAt buf cur 4, cur + 4) := by
  rw [read_fpreal32_apply, bytesAt_eq_some h0 (by exact_mod_cast h1)]
  rfl

theorem read_int32_at (buf : List Byte) (cur : Int) (h0 : 0 ≤ cur)
    (h1 : cur + 4 ≤ buf.length) :
    read_int32 buf cur = some (int32At buf cur, cur + 4) := by
  rw [read_int32_apply, bytesAt_eq_some h0 (by exact_mod_cast h1)]
  rfl

theorem readIndex_at {stride : Nat} (hs : stride = 1 ∨ stride = 2 ∨ stride = 4)
    (buf : List Byte) (cur : Int) (h0 : 0 ≤ cur) (h1 : cur + stride ≤ buf.length) :
    readIndex stride buf cur = some ((unsignedAt buf cur stride : Int), cur + stride) := by
  rw [readIndex_apply stride hs, bytesAt_eq_some h0 h1]
  rfl

theorem read_UT_Vector3_at (buf : List Byte) (cur : Int) (h0 : 0 ≤ cur)
    (h1 : cur + 12 ≤ buf.length) :
    ∃ v, read_UT_Vector3 buf cur = some (v, cur + 12) := by
  simp only [read_UT_Vector3, Decoder.bind_apply, read_apply,
    bytesAt_eq_some h0 (show cur + (12 : Nat) ≤ buf.length by exact_mod_cast h1)]
  exact ⟨_, rfl⟩

/-- C7: for a bone stride of 1, 2 or 4, a vertex record with deform type 1 (BDEF2)
decodes to bone indices `(a, b, -1, -1)` and weights `(w, 1 - w, 0, 0)`, where `a`,
`b` are the two bone indices and `w` the weight read after them; deform type 3 (SDEF)
gives the same indices and weights (and its three vectors), and deform type 0 (BDEF1)
gives bone indices `(a, -1, -1, -1)` and weights `(1, 0, 0, 0)`.  In binary32,
`1 - 0.3f` is `0.7f`. -/
theorem readBoneWeightInfo_shape (stride : Nat) (hs : stride = 1 ∨ stride = 2 ∨ stride = 4)
    (buf : List Byte) (cur : Int) (h0 : 0 ≤ cur) :
    (unsignedAt buf cur 1 = 1 → cur + 1 + 2 * stride + 4 ≤ buf.length →
      readBoneWeightInfo stride buf cur
        = some (⟨1,
            some (unsignedAt buf (cur + 1) stride, unsignedAt buf (cur + 1 + stride) stride,
              -1, -1),
            some (unsignedAt buf (cur + 1 + stride + stride) 4,
              F32.sub F32.one (unsignedAt buf (cur + 1 + stride + stride) 4),
              F32.zero, F32.zero),
            none⟩, cur + 1 + stride + stride + 4))
    ∧ (unsignedAt buf cur 1 = 3 → cur + 1 + 2 * stride + 4 + 36 ≤ buf.length →
      ∃ c r0 r1, readBoneWeightInfo stride buf cur
        = some (⟨3,
            some (unsignedAt buf (cur + 1) stride, unsignedAt buf (cur + 1 + stride) stride,
              -1, -1),
            some (unsignedAt buf (cur + 1 + stride + stride) 4,
              F32.sub F32.one (unsignedAt buf (cur + 1 + stride + stride) 4),
              F32.zero, F32.zero),
            some (c, r0, r1)⟩, cur + 1 + stride + stride + 4 + 12 + 12 + 12))
    ∧ (unsignedAt buf cur 1 = 0 → cur + 1 + stride ≤ buf.length →
      readBoneWeightInfo stride buf cur
        = some (⟨0, some (unsignedAt buf (cur + 1) stride, -1, -1, -1),
            some (F32.one, F32.zero, F32.zero, F32.zero), none⟩, cur + 1 + stride))
    ∧ F32.sub F32.one 0x3E99999A = 0x3F333333 := by
  refine ⟨?_, ?_, ?_, by decide⟩
  · intro ht hlen
    unfold readBoneWeightInfo
    rw [Decoder.bind_apply, read_uint8_at buf cur h0 (by omega)]
    simp only [Option.some_bind, ht]
    rw [Decoder.bind_apply, readIndex_at hs buf _ (by omega) (by omega)]
    simp only [Option.some_bind]
    rw [Decoder.bind_apply, readIndex_at hs buf _ (by omega) (by omega)]
    simp only [Option.some_bind]
    rw [Decoder.bind_apply, read_fpreal32_at buf _ (by omega) (by omega)]
    rfl
  · intro ht hlen
    obtain ⟨c, hc⟩ := read_UT_Vector3_at buf (cur + 1 + stride + stride + 4)
      (by omega) (by omega)
    obtain ⟨r0, hr0⟩ := read_UT_Vector3_at buf
      (cur + 1 + stride + stride + 4 + 12) (by omega) (by omega)
    obtain ⟨r1, hr1⟩ := read_UT_Vector3_at buf
      (cur + 1 + stride + stride + 4 + 12 + 12) (by omega) (by omega)
    refine ⟨c, r0, r1, ?_⟩
    unfold readBoneWeightInfo
    rw [Decoder.bind_apply, read_uint8_at buf cur h0 (by omega)]
    simp only [Option.some_bind, ht]
    rw [Decoder.bind_apply, readIndex_at hs buf _ (by omega) (by omega)]
    simp only [Option.some_bind]
    rw [Decoder.bind_apply, readIndex_at hs buf _ (by omega) (by omega)]
    simp only [Option.some_bind]
    rw [Decoder.bind_apply, read_fpreal32_at buf _ (by omega) (by omega)]
    simp only [Option.some_bind]
    rw [Decoder.bind_apply, hc]
    simp only [Option.some_bind]
    rw [Decoder.bind_apply, hr0]
    simp only [Option.some_bind]
    rw [Decoder.bind_apply, hr1]
    rfl
  · intro ht hlen
    unfold readBoneWeightInfo
    rw [Decoder.bind_apply, read_uint8_at buf cur h0 (by omega)]
    simp only [Option.some_bind, ht]
    rw [Decoder.bind_apply, readIndex_at hs buf _ (by omega) (by omega)]
    rfl

theorem readBoneWeightInfo_shape_witness :
    readBoneWeightInfo 1 [1, 5, 6, 0x9A, 0x99, 0x99, 0x3E] 0
      = some (⟨1, some (5, 6, -1, -1), some (0x3E99999A, 0x3F333333, 0, 0), none⟩, 7) :=
  (readBoneWeightInfo_shape 1 (by decide) [1, 5, 6, 0x9A, 0x99, 0x99, 0x3E] 0 (by decide)).1
    (by decide) (by decide)

/-! ## The material record -/

theorem read_some {size : Nat} {buf : List Byte} {cur c : Int} {bs : List Byte}
    (h : read size true buf cur = some (bs, c)) :
    c = cur + size ∧ 0 ≤ cur ∧ bs = (buf.drop cur.toNat).take size := by
  rw [read_apply] at h
  cases hb : bytesAt buf cur size with
  | none => rw [hb] at h; exact absurd h (by simp)
  | some bs' =>
    rw [hb] at h
    simp only [Option.map_some', Option.some.injEq, Prod.mk.injEq] at h
    obtain ⟨⟨h0, _⟩, e⟩ := bytesAt_some_iff.1 hb
    exact ⟨h.2.symm, h0, by rw [← h.1, e]⟩

theorem read_uint8_some {buf : List Byte} {cur c : Int} {v : Nat}
    (h : read_uint8 buf cur = some (v, c)) :
    c = cur + 1 ∧ 0 ≤ cur ∧ v = unsignedAt buf cur 1 := by
  unfold read_uint8 at h
  obtain ⟨bs, c1, h1, h⟩ := Decoder.bind_eq_some.1 h
  obtain ⟨e1, e2, e3⟩ := read_some h1
  simp only [Decoder.pure_apply, Option.some.injEq, Prod.mk.injEq] at h
  exact ⟨by rw [← h.2, e1]; rfl, e2, by rw [← h.1, e3]; rfl⟩

theorem read_int32_some {buf : List Byte} {cur c : Int} {v : Int}
    (h : read_int32 buf cur = some (v, c)) :
    c = cur + 4 ∧ 0 ≤ cur ∧ v = int32At buf cur := by
  unfold read_int32 at h
  obtain ⟨bs, c1, h1, h⟩ := Decoder.bind_eq_some.1 h
  obtain ⟨e1, e2, e3⟩ := read_some h1
  simp only [Decoder.pure_apply, Option.some.injEq, Prod.mk.injEq] at h
  exact ⟨by rw [← h.2, e1]; rfl, e2, by rw [← h.1, e3]; rfl⟩

theorem read_fpreal32_some {buf : List Byte} {cur c : Int} {v : F32}
    (h : read_fpreal32 buf cur = some (v, c)) : c = cur + 4 ∧ 0 ≤ cur := by
  unfold read_fpreal32 at h
  obtain ⟨bs, c1, h1, h⟩ := Decoder.bind_eq_some.1 h
  obtain ⟨e1, e2, _⟩ := read_some h1
  simp only [Decoder.pure_apply, Option.some.injEq, Prod.mk.injEq] at h
  exact ⟨by rw [← h.2, e1]; rfl, e2⟩

theorem read_UT_Vector3_some {buf : List Byte} {cur c : Int} {v : UT_Vector3}
    (h : read_UT_Vector3 buf cur = some (v, c)) : c = cur + 12 ∧ 0 ≤ cur := by
  unfold read_UT_Vector3 at h
  obtain ⟨bs, c1, h1, h⟩ := Decoder.bind_eq_some.1 h
  obtain ⟨e1, e2, _⟩ := read_some h1
  simp only [Decoder.pure_apply, Option.some.injEq, Prod.mk.injEq] at h
  exact ⟨by rw [← h.2, e1]; rfl, e2⟩

theorem read_UT_Vector4_some {buf : List Byte} {cur c : Int} {v : UT_Vector4}
    (h : read_UT_Vector4 buf cur = some (v, c)) : c = cur + 16 ∧ 0 ≤ cur := by
  unfold read_UT_Vector4 at h
  obtain ⟨bs, c1, h1, h⟩ := Decoder.bind_eq_some.1 h
  obtain ⟨e1, e2, _⟩ := read_some h1
  simp only [Decoder.pure_apply, Option.some.injEq, Prod.mk.injEq] at h
  exact ⟨by rw [← h.2, e1]; rfl, e2⟩

theorem read_UT_Vector4_at (buf : List Byte) (cur : Int) (h0 : 0 ≤ cur)
    (h1 : cur + 16 ≤ buf.length) :
    ∃ v, read_UT_Vector4 buf cur = some (v, cur + 16) := by
  simp only [read_UT_Vector4, Decoder.bind_apply, read_apply,
    bytesAt_eq_some h0 (show cur + (16 : Nat) ≤ buf.length by exact_mod_cast h1)]
  exact ⟨_, rfl⟩

theorem readIndex_some {stride : Nat} (hs : stride = 1 ∨ stride = 2 ∨ stride = 4)
    {buf : List Byte} {cur c v : Int} (h : readIndex stride buf cur = some (v, c)) :
    c = cur + stride ∧ 0 ≤ cur ∧ v = unsignedAt buf cur stride := by
  rw [readIndex_apply stride hs] at h
  cases hb : bytesAt buf cur stride with
  | none => rw [hb] at h; exact absurd h (by simp)
  | some bs =>
    rw [hb] at h
    simp only [Option.map_some', Option.some.injEq, Prod.mk.injEq] at h
    obtain ⟨⟨h0, _⟩, e⟩ := bytesAt_some_iff.1 hb
    exact ⟨h.2.symm, h0, by rw [← h.1, e]; rfl⟩

theorem readText_some {encode : Nat} {buf : List Byte} {cur c : Int} {s : UT_String}
    (h : readText encode buf cur = some (s, c)) :
    c = cur + 4 + int32At buf cur ∧ 0 ≤ cur ∧ cur + 4 ≤ buf.length := by
  rw [readText_apply] at h
  cases hb : bytesAt buf cur 4 with
  | none => rw [hb] at h; exact absurd h (by simp)
  | some bs =>
    obtain ⟨⟨h0, h4⟩, rfl⟩ := bytesAt_some_iff.1 hb
    rw [hb] at h
    simp only [Option.some_bind] at h
    split at h
    · exact ⟨readTextUTF16_cursor h, h0, by exact_mod_cast h4⟩
    · exact ⟨ofRange_cursor h, h0, by exact_mod_cast h4⟩

theorem readText_at (encode : Nat) (buf : List Byte) (cur : Int) (h0 : 0 ≤ cur)
    (hn : 0 ≤ int32At buf cur) (h1 : cur + 4 + int32At buf cur ≤ buf.length) :
    ∃ s, readText encode buf cur = some (s, cur + 4 + int32At buf cur) := by
  have hb : bytesAt buf cur 4 = some ((buf.drop cur.toNat).take 4) :=
    bytesAt_eq_some h0 (by push_cast; omega)
  rw [readText_apply, hb]
  simp only [Option.some_bind]
  split
  · exact readTextUTF16_defined _ (by omega) hn (by unfold int32At at h1; omega)
  · exact ⟨_, ofRange_eq _ (by omega) (by unfold int32At at hn; omega)
      (by unfold int32At at h1; omega)⟩

theorem readToonTextureIndex_shared {flag : Nat} (hf : flag ≠ 0) (stride : Nat)
    {buf : List Byte} {cur : Int} (h0 : 0 ≤ cur) (h1 : cur + 1 ≤ buf.length) :
    readToonTextureIndex flag stride buf cur
      = some ((unsignedAt buf cur 1 : Int), cur + 1) := by
  unfold readToonTextureIndex
  rw [if_neg hf, Decoder.bind_apply, read_uint8_at buf cur h0 h1]
  rfl

theorem readToonTextureIndex_own {stride : Nat} (hs : stride = 1 ∨ stride = 2 ∨ stride = 4)
    {buf : List Byte} {cur : Int} (h0 : 0 ≤ cur) (h1 : cur + stride ≤ buf.length) :
    readToonTextureIndex 0 stride buf cur
      = some ((unsignedAt buf cur stride : Int), cur + stride) := by
  unfold readToonTextureIndex
  rw [if_pos rfl, readIndex_at hs buf cur h0 h1]

theorem readToonTextureIndex_some {flag stride : Nat}
    (hs : stride = 1 ∨ stride = 2 ∨ stride = 4)
    {buf : List Byte} {cur c v : Int}
    (h : readToonTextureIndex flag stride buf cur = some (v, c)) :
    (flag = 0 → c = cur + stride ∧ v = unsignedAt buf cur stride)
    ∧ (flag ≠ 0 → c = cur + 1 ∧ v = unsignedAt buf cur 1) := by
  unfold readToonTextureIndex at h
  split at h
  · rename_i hf
    have := readIndex_some hs h
    exact ⟨fun _ => ⟨this.1, this.2.2⟩, fun hne => absurd hf hne⟩
  · rename_i hf
    obtain ⟨b, c1, h1, h⟩ := Decoder.bind_eq_some.1 h
    have := read_uint8_some h1
    simp only [Decoder.pure_apply, Option.some.injEq, Prod.mk.injEq] at h
    refine ⟨fun h0 => absurd h0 hf, fun _ => ⟨by rw [← h.2]; exact this.1, ?_⟩⟩
    rw [← h.1, this.2.2]

theorem readMaterial_some {cfg : Config}
    (hs : cfg.texture_index_stride = 1 ∨ cfg.texture_index_stride = 2
      ∨ cfg.texture_index_stride = 4)
    {buf : List Byte} {cur c : Int} {mat : Material} {count : Int}
    (h : readMaterial cfg buf cur = some ((mat, count), c)) :
    0 ≤ toonOffset buf cur cfg.texture_index_stride - 1
    ∧ mat.shared_toon_flag
        = unsignedAt buf (toonOffset buf cur cfg.texture_index_stride - 1) 1
    ∧ (mat.shared_toon_flag = 0 →
        mat.toon_texture_index
            = unsignedAt buf (toonOffset buf cur cfg.texture_index_stride)
                cfg.texture_index_stride
          ∧ c = toonOffset buf cur cfg.texture_index_stride + cfg.texture_index_stride
              + 4 + int32At buf (toonOffset buf cur cfg.texture_index_stride
                  + cfg.texture_index_stride) + 4)
    ∧ (mat.shared_toon_flag ≠ 0 →
        mat.toon_texture_index
            = unsignedAt buf (toonOffset buf cur cfg.texture_index_stride) 1
          ∧ c = toonOffset buf cur cfg.texture_index_stride + 1
              + 4 + int32At buf (toonOffset buf cur cfg.texture_index_stride + 1) + 4) := by
  unfold readMaterial at h
  obtain ⟨name, c1, h1, h⟩ := Decoder.bind_eq_some.1 h
  obtain ⟨rfl, p1, _⟩ := readText_some h1
  obtain ⟨name_en, c2, h2, h⟩ := Decoder.bind_eq_some.1 h
  obtain ⟨rfl, p2, _⟩ := readText_some h2
  obtain ⟨diffuse, c3, h3, h⟩ := Decoder.bind_eq_some.1 h
  obtain ⟨rfl, p3⟩ := read_UT_Vector4_some h3
  obtain ⟨specular, c4, h4, h⟩ := Decoder.bind_eq_some.1 h
  obtain ⟨rfl, p4⟩ := read_UT_Vector4_some h4
  obtain ⟨ambient, c5, h5, h⟩ := Decoder.bind_eq_some.1 h
  obtain ⟨rfl, p5⟩ := read_UT_Vector3_some h5
  obtain ⟨flag, c6, h6, h⟩ := Decoder.bind_eq_some.1 h
  obtain ⟨rfl, p6, _⟩ := read_uint8_some h6
  obtain ⟨edge_color, c7, h7, h⟩ := Decoder.bind_eq_some.1 h
  obtain ⟨rfl, p7⟩ := read_UT_Vector4_some h7
  obtain ⟨edge_size, c8, h8, h⟩ := Decoder.bind_eq_some.1 h
  obtain ⟨rfl, p8⟩ := read_fpreal32_some h8
  obtain ⟨texture_index, c9, h9, h⟩ := Decoder.bind_eq_some.1 h
  obtain ⟨rfl, p9, _⟩ := readIndex_some hs h9
  obtain ⟨sphere_texture_index, c10, h10, h⟩ := Decoder.bind_eq_some.1 h
  obtain ⟨rfl, p10, _⟩ := readIndex_some hs h10
  obtain ⟨sphere_mode, c11, h11, h⟩ := Decoder.bind_eq_some.1 h
  obtain ⟨rfl, p11, _⟩ := read_uint8_some h11
  obtain ⟨shared_toon_flag, c12, h12, h⟩ := Decoder.bind_eq_some.1 h
  obtain ⟨rfl, p12, hflag⟩ := read_uint8_some h12
  obtain ⟨toon_texture_index, c13, h13, h⟩ := Decoder.bind_eq_some.1 h
  have htoon := readToonTextureIndex_some hs h13
  obtain ⟨memo, c14, h14, h⟩ := Decoder.bind_eq_some.1 h
  obtain ⟨rfl, p14, _⟩ := readText_some h14
  obtain ⟨material_index_count, c15, h15, h⟩ := Decoder.bind_eq_some.1 h
  obtain ⟨rfl, p15, _⟩ := read_int32_some h15
  simp only [Decoder.pure_apply, Option.some.injEq, Prod.mk.injEq] at h
  obtain ⟨⟨rfl, rfl⟩, rfl⟩ := h
  have et : cur + 4 + int32At buf cur + 4 + int32At buf (cur + 4 + int32At buf cur)
      + 16 + 16 + 12 + 1 + 16 + 4 + cfg.texture_index_stride + cfg.texture_index_stride
      + 1 + 1 = toonOffset buf cur cfg.texture_index_stride := rfl
  rw [et] at h13 htoon
  have ef : cur + 4 + int32At buf cur + 4 + int32At buf (cur + 4 + int32At buf cur)
      + 16 + 16 + 12 + 1 + 16 + 4 + cfg.texture_index_stride + cfg.texture_index_stride
      + 1 = toonOffset buf cur cfg.texture_index_stride - 1 := by
    unfold toonOffset; omega
  rw [ef] at hflag p12
  refine ⟨p12, hflag, ?_, ?_⟩
  · intro h0
    obtain ⟨rfl, hv⟩ := htoon.1 h0
    exact ⟨hv, rfl⟩
  · intro h0
    obtain ⟨rfl, hv⟩ := htoon.2 h0
    exact ⟨hv, rfl⟩

theorem readMaterial_at {cfg : Config}
    (hs : cfg.texture_index_stride = 1 ∨ cfg.texture_index_stride = 2
      ∨ cfg.texture_index_stride = 4)
    {buf : List Byte} {cur : Int} (width : Nat)
    (hw : width = if unsignedAt buf (toonOffset buf cur cfg.texture_index_stride - 1) 1 = 0
      then cfg.texture_index_stride else 1)
    (h0 : 0 ≤ cur) (hn1 : 0 ≤ int32At buf cur)
    (hn2 : 0 ≤ int32At buf (cur + 4 + int32At buf cur))
    (hn3 : 0 ≤ int32At buf (toonOffset buf cur cfg.texture_index_stride + width))
    (hlen : toonOffset buf cur cfg.texture_index_stride + width + 4
      + int32At buf (toonOffset buf cur cfg.texture_index_stride + width) + 4
        ≤ buf.length) :
    ∃ mat count, readMaterial cfg buf cur
      = some ((mat, count), toonOffset buf cur cfg.texture_index_stride + width + 4
          + int32At buf (toonOffset buf cur cfg.texture_index_stride + width) + 4) := by
  have et : cur + 4 + int32At buf cur + 4 + int32At buf (cur + 4 + int32At buf cur)
      + 16 + 16 + 12 + 1 + 16 + 4 + cfg.texture_index_stride + cfg.texture_index_stride
      + 1 + 1 = toonOffset buf cur cfg.texture_index_stride := rfl
  have ef : cur + 4 + int32At buf cur + 4 + int32At buf (cur + 4 + int32At buf cur)
      + 16 + 16 + 12 + 1 + 16 + 4 + cfg.texture_index_stride + cfg.texture_index_stride
      + 1 = toonOffset buf cur cfg.texture_index_stride - 1 := by
    unfold toonOffset; omega
  have hlen' := hlen
  rw [← et] at hlen'
  obtain ⟨name, e1⟩ := readText_at cfg.text_encode buf cur h0 hn1 (by omega)
  obtain ⟨name_en, e2⟩ := readText_at cfg.text_encode buf
    (cur + 4 + int32At buf cur) (by omega) hn2 (by omega)
  obtain ⟨diffuse, e3⟩ := read_UT_Vector4_at buf
    (cur + 4 + int32At buf cur + 4 + int32At buf (cur + 4 + int32At buf cur))
    (by omega) (by omega)
  obtain ⟨specular, e4⟩ := read_UT_Vector4_at buf
    (cur + 4 + int32At buf cur + 4 + int32At buf (cur + 4 + int32At buf cur) + 16)
    (by omega) (by omega)
  obtain ⟨ambient, e5⟩ := read_UT_Vector3_at buf
    (cur + 4 + int32At buf cur + 4 + int32At buf (cur + 4 + int32At buf cur) + 16
      + 16) (by omega) (by omega)
  have e6 := read_uint8_at buf
    (cur + 4 + int32At buf cur + 4 + int32At buf (cur + 4 + int32At buf cur) + 16
      + 16 + 12) (by omega) (by omega)
  obtain ⟨edge_color, e7⟩ := read_UT_Vector4_at buf
    (cur + 4 + int32At buf cur + 4 + int32At buf (cur + 4 + int32At buf cur) + 16
      + 16 + 12 + 1) (by omega) (by omega)
  have e8 := read_fpreal32_at buf
    (cur + 4 + int32At buf cur + 4 + int32At buf (cur + 4 + int32At buf cur) + 16
      + 16 + 12 + 1 + 16) (by omega) (by omega)
  have e9 := readIndex_at hs buf
    (cur + 4 + int32At buf cur + 4 + int32At buf (cur + 4 + int32At buf cur) + 16
      + 16 + 12 + 1 + 16 + 4) (by omega) (by omega)
  have e10 := readIndex_at hs buf
    (cur + 4 + int32At buf cur + 4 + int32At buf (cur + 4 + int32At buf cur) + 16
      + 16 + 12 + 1 + 16 + 4 + cfg.texture_index_stride) (by omega) (by omega)
  have e11 := read_uint8_at buf
    (cur + 4 + int32At buf cur + 4 + int32At buf (cur + 4 + int32At buf cur) + 16
      + 16 + 12 + 1 + 16 + 4 + cfg.texture_index_stride + cfg.texture_index_stride)
    (by omega) (by omega)
  have e12 := read_uint8_at buf
    (cur + 4 + int32At buf cur + 4 + int32At buf (cur + 4 + int32At buf cur) + 16
      + 16 + 12 + 1 + 16 + 4 + cfg.texture_index_stride + cfg.texture_index_stride + 1)
    (by omega) (by omega)
  have e13 : ∃ v, readToonTextureIndex
      (unsignedAt buf (toonOffset buf cur cfg.texture_index_stride - 1) 1)
      cfg.texture_index_stride buf (toonOffset buf cur cfg.texture_index_stride)
        = some (v, toonOffset buf cur cfg.texture_index_stride + width) := by
    by_cases hf : unsignedAt buf (toonOffset buf cur cfg.texture_index_stride - 1) 1 = 0
    · rw [if_pos hf] at hw
      rw [hf, hw]
      exact ⟨_, readToonTextureIndex_own hs (by omega) (by omega)⟩
    · rw [if_neg hf] at hw
      rw [hw]
      exact ⟨_, readToonTextureIndex_shared hf _ (by omega) (by omega)⟩
  obtain ⟨toon, e13⟩ := e13
  obtain ⟨memo, e14⟩ := readText_at cfg.text_encode buf
    (toonOffset buf cur cfg.texture_index_stride + width) (by omega) hn3 (by omega)
  have e15 := read_int32_at buf
    (toonOffset buf cur cfg.texture_index_stride + width + 4
      + int32At buf (toonOffset buf cur cfg.texture_index_stride + width))
    (by omega) (by omega)
  unfold readMaterial
  rw [Decoder.bind_apply, e1]; simp only [Option.some_bind]
  rw [Decoder.bind_apply, e2]; simp only [Option.some_bind]
  rw [Decoder.bind_apply, e3]; simp only [Option.some_bind]
  rw [Decoder.bind_apply, e4]; simp only [Option.some_bind]
  rw [Decoder.bind_apply, e5]; simp only [Option.some_bind]
  rw [Decoder.bind_apply, e6]; simp only [Option.some_bind]
  rw [Decoder.bind_apply, e7]; simp only [Option.some_bind]
  rw [Decoder.bind_apply, e8]; simp only [Option.some_bind]
  rw [Decoder.bind_apply, e9]; simp only [Option.some_bind]
  rw [Decoder.bind_apply, e10]; simp only [Option.some_bind]
  rw [Decoder.bind_apply, e11]; simp only [Option.some_bind]
  rw [Decoder.bind_apply, e12]; simp only [Option.some_bind]
  rw [et, ef]
  rw [Decoder.bind_apply, e13]; simp only [Option.some_bind]
  rw [Decoder.bind_apply, e14]; simp only [Option.some_bind]
  rw [Decoder.bind_apply, e15]
  exact ⟨_, _, rfl⟩

theorem readIndex_other {stride : Nat} (h1 : stride ≠ 1) (h2 : stride ≠ 2) (h4 : stride ≠ 4)
    (buf : List Byte) (cur : Int) : readIndex stride buf cur = some (-1, cur) := by
  unfold readIndex
  split
  · exact absurd rfl h1
  · exact absurd rfl h2
  · exact absurd rfl h4
  · rfl

theorem readToonTextureIndex_other {flag stride : Nat}
    (hs1 : stride ≠ 1) (hs2 : stride ≠ 2) (hs4 : stride ≠ 4)
    {buf : List Byte} {cur c v : Int}
    (h : readToonTextureIndex flag stride buf cur = some (v, c)) :
    (flag = 0 → c = cur ∧ v = -1)
    ∧ (flag ≠ 0 → c = cur + 1 ∧ v = unsignedAt buf cur 1) := by
  unfold readToonTextureIndex at h
  split at h
  · rename_i hf
    rw [readIndex_other hs1 hs2 hs4] at h
    simp only [Option.some.injEq, Prod.mk.injEq] at h
    exact ⟨fun _ => ⟨h.2.symm, h.1.symm⟩, fun hne => absurd hf hne⟩
  · rename_i hf
    obtain ⟨b, c1, h1, h⟩ := Decoder.bind_eq_some.1 h
    have := read_uint8_some h1
    simp only [Decoder.pure_apply, Option.some.injEq, Prod.mk.injEq] at h
    refine ⟨fun h0 => absurd h0 hf, fun _ => ⟨by rw [← h.2]; exact this.1, ?_⟩⟩
    rw [← h.1, this.2.2]

theorem readMaterial_other {cfg : Config}
    (hs1 : cfg.texture_index_stride ≠ 1) (hs2 : cfg.texture_index_stride ≠ 2)
    (hs4 : cfg.texture_index_stride ≠ 4)
    {buf : List Byte} {cur c : Int} {mat : Material} {count : Int}
    (h : readMaterial cfg buf cur = some ((mat, count), c)) :
    mat.texture_index = -1
    ∧ mat.sphere_texture_index = -1
    ∧ mat.shared_toon_flag = unsignedAt buf (toonOffset buf cur 0 - 1) 1
    ∧ (mat.shared_toon_flag = 0 →
        mat.toon_texture_index = -1
          ∧ c = toonOffset buf cur 0 + 4 + int32At buf (toonOffset buf cur 0) + 4)
    ∧ (mat.shared_toon_flag ≠ 0 →
        mat.toon_texture_index = unsignedAt buf (toonOffset buf cur 0) 1
          ∧ c = toonOffset buf cur 0 + 1
              + 4 + int32At buf (toonOffset buf cur 0 + 1) + 4) := by
  unfold readMaterial at h
  obtain ⟨name, c1, h1, h⟩ := Decoder.bind_eq_some.1 h
  obtain ⟨rfl, p1, _⟩ := readText_some h1
  obtain ⟨name_en, c2, h2, h⟩ := Decoder.bind_eq_some.1 h
  obtain ⟨rfl, p2, _⟩ := readText_some h2
  obtain ⟨diffuse, c3, h3, h⟩ := Decoder.bind_eq_some.1 h
  obtain ⟨rfl, p3⟩ := read_UT_Vector4_some h3
  obtain ⟨specular, c4, h4, h⟩ := Decoder.bind_eq_some.1 h
  obtain ⟨rfl, p4⟩ := read_UT_Vector4_some h4
  obtain ⟨ambient, c5, h5, h⟩ := Decoder.bind_eq_some.1 h
  obtain ⟨rfl, p5⟩ := read_UT_Vector3_some h5
  obtain ⟨flag, c6, h6, h⟩ := Decoder.bind_eq_some.1 h
  obtain ⟨rfl, p6, _⟩ := read_uint8_some h6
  obtain ⟨edge_color, c7, h7, h⟩ := Decoder.bind_eq_some.1 h
  obtain ⟨rfl, p7⟩ := read_UT_Vector4_some h7
  obtain ⟨edge_size, c8, h8, h⟩ := Decoder.bind_eq_some.1 h
  obtain ⟨rfl, p8⟩ := read_fpreal32_some h8
  obtain ⟨texture_index, c9, h9, h⟩ := Decoder.bind_eq_some.1 h
  rw [readIndex_other hs1 hs2 hs4] at h9
  simp only [Option.some.injEq, Prod.mk.injEq] at h9
  obtain ⟨rfl, rfl⟩ := h9
  obtain ⟨sphere_texture_index, c10, h10, h⟩ := Decoder.bind_eq_some.1 h
  rw [readIndex_other hs1 hs2 hs4] at h10
  simp only [Option.some.injEq, Prod.mk.injEq] at h10
  obtain ⟨rfl, rfl⟩ := h10
  obtain ⟨sphere_mode, c11, h11, h⟩ := Decoder.bind_eq_some.1 h
  obtain ⟨rfl, p11, _⟩ := read_uint8_some h11
  obtain ⟨shared_toon_flag, c12, h12, h⟩ := Decoder.bind_eq_some.1 h
  obtain ⟨rfl, p12, hflag⟩ := read_uint8_some h12
  obtain ⟨toon_texture_index, c13, h13, h⟩ := Decoder.bind_eq_some.1 h
  have htoon := readToonTextureIndex_other hs1 hs2 hs4 h13
  obtain ⟨memo, c14, h14, h⟩ := Decoder.bind_eq_some.1 h
  obtain ⟨rfl, p14, _⟩ := readText_some h14
  obtain ⟨material_index_count, c15, h15, h⟩ := Decoder.bind_eq_some.1 h
  obtain ⟨rfl, p15, _⟩ := read_int32_some h15
  simp only [Decoder.pure_apply, Option.some.injEq, Prod.mk.injEq] at h
  obtain ⟨⟨rfl, rfl⟩, rfl⟩ := h
  have et : cur + 4 + int32At buf cur + 4 + int32At buf (cur + 4 + int32At buf cur)
      + 16 + 16 + 12 + 1 + 16 + 4 + 1 + 1 = toonOffset buf cur 0 := by
    unfold toonOffset; omega
  rw [et] at h13 htoon
  have ef : cur + 4 + int32At buf cur + 4 + int32At buf (cur + 4 + int32At buf cur)
      + 16 + 16 + 12 + 1 + 16 + 4 + 1 = toonOffset buf cur 0 - 1 := by
    unfold toonOffset; omega
  rw [ef] at hflag
  refine ⟨rfl, rfl, hflag, ?_, ?_⟩
  · intro h0
    obtain ⟨rfl, hv⟩ := htoon.1 h0
    exact ⟨hv, rfl⟩
  · intro h0
    obtain ⟨rfl, hv⟩ := htoon.2 h0
    exact ⟨hv, rfl⟩

/-- C8 (as stated, false): with the texture index stride 3 and `shared_toon_flag` 0 the
toon texture reference takes no byte, not three, and the index is -1, not the unsigned
value of the bytes at the cursor. -/
theorem readToonTextureIndex_stride3 :
    readToonTextureIndex 0 3 [7, 3, 1, 0, 0] 1 = some (-1, 1) := by
  decide

/-- C8 (amended): in a material record the toon texture reference takes exactly one byte
when `shared_toon_flag` is not 0 (in particular 1), whatever the texture stride; when
the flag is 0 it takes exactly `texture_index_stride` bytes if the stride is 1, 2 or
4, and no byte for any other stride, the index then being -1.  Where bytes are taken
the decoded index is their unsigned value.  The memo text follows right after, so the
record ends accordingly, the reference standing at the offset `toonOffset` counted
with the stride when it is 1, 2 or 4 and with 0 otherwise; for a stride of 1, 2 or 4
a record whose bytes are all in the buffer is read. -/
theorem readMaterial_toon_width (cfg : Config) (buf : List Byte) (cur : Int) :
    (∀ (flag stride : Nat) (p : Int), flag ≠ 0 → 0 ≤ p → p + 1 ≤ buf.length →
      readToonTextureIndex flag stride buf p = some ((unsignedAt buf p 1 : Int), p + 1))
    ∧ (∀ (stride : Nat) (p : Int), stride = 1 ∨ stride = 2 ∨ stride = 4 →
      0 ≤ p → p + stride ≤ buf.length →
      readToonTextureIndex 0 stride buf p
        = some ((unsignedAt buf p stride : Int), p + stride))
    ∧ (∀ (stride : Nat) (p : Int), stride ≠ 1 → stride ≠ 2 → stride ≠ 4 →
      readToonTextureIndex 0 stride buf p = some (-1, p))
    ∧ (cfg.texture_index_stride = 1 ∨ cfg.texture_index_stride = 2
        ∨ cfg.texture_index_stride = 4 →
      (∀ mat count c, readMaterial cfg buf cur = some ((mat, count), c) →
        mat.shared_toon_flag
            = unsignedAt buf (toonOffset buf cur cfg.texture_index_stride - 1) 1
        ∧ (mat.shared_toon_flag = 0 →
            mat.toon_texture_index
                = unsignedAt buf (toonOffset buf cur cfg.texture_index_stride)
                    cfg.texture_index_stride
              ∧ c = toonOffset buf cur cfg.texture_index_stride + cfg.texture_index_stride
                  + 4 + int32At buf (toonOffset buf cur cfg.texture_index_stride
                      + cfg.texture_index_stride) + 4)
        ∧ (mat.shared_toon_flag ≠ 0 →
            mat.toon_texture_index
                = unsignedAt buf (toonOffset buf cur cfg.texture_index_stride) 1
              ∧ c = toonOffset buf cur cfg.texture_index_stride + 1
                  + 4 + int32At buf (toonOffset buf cur cfg.texture_index_stride + 1) + 4))
      ∧ (∀ width : Nat,
        width = (if unsignedAt buf (toonOffset buf cur cfg.texture_index_stride - 1) 1 = 0
          then cfg.texture_index_stride else 1) →
        0 ≤ cur → 0 ≤ int32At buf cur → 0 ≤ int32At buf (cur + 4 + int32At buf cur) →
        0 ≤ int32At buf (toonOffset buf cur cfg.texture_index_stride + width) →
        toonOffset buf cur cfg.texture_index_stride + width + 4
          + int32At buf (toonOffset buf cur cfg.texture_index_stride + width) + 4
            ≤ buf.length →
        ∃ mat count, readMaterial cfg buf cur
          = some ((mat, count), toonOffset buf cur cfg.texture_index_stride + width + 4
              + int32At buf (toonOffset buf cur cfg.texture_index_stride + width) + 4)))
    ∧ (cfg.texture_index_stride ≠ 1 → cfg.texture_index_stride ≠ 2
        → cfg.texture_index_stride ≠ 4 →
      ∀ mat count c, readMaterial cfg buf cur = some ((mat, count), c) →
        mat.shared_toon_flag = unsignedAt buf (toonOffset buf cur 0 - 1) 1
        ∧ (mat.shared_toon_flag = 0 →
            mat.toon_texture_index = -1
              ∧ c = toonOffset buf cur 0 + 4 + int32At buf (toonOffset buf cur 0) + 4)
        ∧ (mat.shared_toon_flag ≠ 0 →
            mat.toon_texture_index = unsignedAt buf (toonOffset buf cur 0) 1
              ∧ c = toonOffset buf cur 0 + 1
                  + 4 + int32At buf (toonOffset buf cur 0 + 1) + 4)) := by
  refine ⟨?_, ?_, ?_, ?_, ?_⟩
  · intro flag stride p hf h0 h1
    exact readToonTextureIndex_shared hf stride h0 h1
  · intro stride p hs h0 h1
    exact readToonTextureIndex_own hs h0 h1
  · intro stride p h1 h2 h4
    unfold readToonTextureIndex
    rw [if_pos rfl]
    exact readIndex_other h1 h2 h4 buf p
  · intro hs
    constructor
    · intro mat count c h
      exact (readMaterial_some hs h).2
    · intro width hw h0 hn1 hn2 hn3 hlen
      exact readMaterial_at hs width hw h0 hn1 hn2 hn3 hlen
  · intro h1 h2 h4 mat count c h
    exact (readMaterial_other h1 h2 h4 h).2.2

theorem readMaterial_toon_width_witness :
    readToonTextureIndex 1 4 [7, 3, 9, 9, 9] 1 = some (3, 2)
      ∧ readToonTextureIndex 0 4 [7, 3, 1, 0, 0] 1 = some (0x103, 5)
      ∧ readToonTextureIndex 0 3 [7, 3, 1, 0, 0] 1 = some (-1, 1)
      ∧ (∃ mat count, readMaterial ⟨1, 0, 1, 4, 1, 1, 1, 1⟩ materialSharedToon 0
          = some ((mat, count), 93))
      ∧ (∃ mat count, readMaterial ⟨1, 0, 1, 3, 1, 1, 1, 1⟩ materialStride3 0
          = some ((mat, count), 84) ∧ mat.toon_texture_index = -1) := by
  refine ⟨(readMaterial_toon_width ⟨1, 0, 1, 4, 1, 1, 1, 1⟩ [7, 3, 9, 9, 9] 0).1 1 4 1
      (by decide) (by decide) (by decide),
    (readMaterial_toon_width ⟨1, 0, 1, 4, 1, 1, 1, 1⟩ [7, 3, 1, 0, 0] 0).2.1 4 1
      (Or.inr (Or.inr rfl)) (by decide) (by decide),
    (readMaterial_toon_width ⟨1, 0, 1, 4, 1, 1, 1, 1⟩ [7, 3, 1, 0, 0] 0).2.2.1 3 1
      (by decide) (by decide) (by decide),
    ((readMaterial_toon_width ⟨1, 0, 1, 4, 1, 1, 1, 1⟩ materialSharedToon 0).2.2.2.1
      (Or.inr (Or.inr rfl))).2 1 (by decide) (by decide) (by decide) (by decide)
      (by decide) (by decide), ?_⟩
  obtain ⟨⟨⟨mat, count⟩, c⟩, h⟩ := Option.isSome_iff_exists.1
    (show (readMaterial ⟨1, 0, 1, 3, 1, 1, 1, 1⟩ materialStride3 0).isSome = true
      by decide)
  have t := (readMaterial_toon_width ⟨1, 0, 1, 3, 1, 1, 1, 1⟩ materialStride3 0).2.2.2.2
    (by decide) (by decide) (by decide) mat count c h
  have hf : mat.shared_toon_flag = 0 := t.1.trans (by decide)
  have hc : c = 84 := (t.2.1 hf).2.trans (by decide)
  rw [hc] at h
  exact ⟨mat, count, h, (t.2.1 hf).1⟩

/-! ## Values outside the format: stride, encoding, deform type -/

/-- C12 (as stated, false): with stride 3 `readIndex` returns the value -1 and leaves the
cursor where it was, and the decode goes on: on `fileInvalidConfig`, whose bone index
stride is 3, `cook` runs to the end of the function, the bone index of its vertex
being -1. -/
theorem readIndex_stride3_returns :
    readIndex 3 [7, 8, 9] 1 = some (-1, 1)
    ∧ (readModel (configAt fileInvalidConfig) fileInvalidConfig 17).map
        (fun p => p.1.map Model.bone_weight_array) =
      some (some [⟨0, some (-1, -1, -1, -1), some (0x3F800000, 0, 0, 0), none⟩])
    ∧ (cook ⟨id, id⟩ "a.pmx" false (some fileInvalidConfig)).map CookResult.exit
        = some Exit.done := by
  decide

/-- C12 (amended): for every stride other than 1, 2 and 4, `readIndex` returns -1 on every
buffer and every cursor position, reads nothing and leaves the cursor unchanged; an
entry of the index array read this way is -1 as well. -/
theorem readIndex_invalid_stride (stride : Nat) (h1 : stride ≠ 1) (h2 : stride ≠ 2)
    (h4 : stride ≠ 4) (buf : List Byte) (cur : Int) :
    readIndex stride buf cur = some (-1, cur)
      ∧ readFaceIndex stride buf cur = some (-1, cur) := by
  refine ⟨readIndex_other h1 h2 h4 buf cur, ?_⟩
  unfold readFaceIndex
  rw [Decoder.bind_apply, readIndex_other h1 h2 h4 buf cur]
  rfl

theorem readIndex_invalid_stride_witness :
    readIndex 0 [] 5 = some (-1, 5) ∧ readFaceIndex 0 [] 5 = some (-1, 5) :=
  readIndex_invalid_stride 0 (by decide) (by decide) (by decide) [] 5

theorem readText_nonzero {encode : Nat} (h : encode ≠ 0) (buf : List Byte) (cur : Int) :
    readText encode buf cur = readText 1 buf cur := by
  rw [readText_apply, readText_apply]
  cases bytesAt buf cur 4 with
  | none => rfl
  | some bs =>
    simp only [Option.some_bind]
    rw [if_neg h, if_neg (by decide)]

/-- C13 (as stated, false): with the encoding selector 2 `readText` returns a string, the
bytes of the field, as it does with selector 1; on `fileInvalidConfig`, whose text
encoding is 2, `cook` runs to the end of the function and stores the texture
name. -/
theorem readText_encoding2_returns :
    readText 2 [3, 0, 0, 0, 0x61, 0x62, 0x63] 0
      = some (UT_String.chars [0x61, 0x62, 0x63], 7)
    ∧ (cook ⟨id, id⟩ "a.pmx" false (some fileInvalidConfig)).map
        (fun r => (r.exit, r.detail.tex_names))
      = some (Exit.done, some [UT_String.chars [0x61]]) := by
  decide

/-- C13 (amended): for every encoding selector other than 0, `readText` takes the UTF-8
branch: on every buffer and cursor position its result is the one for selector 1. -/
theorem readText_invalid_encoding (encode : Nat) (h : encode ≠ 0) (buf : List Byte)
    (cur : Int) : readText encode buf cur = readText 1 buf cur :=
  readText_nonzero h buf cur

theorem readText_invalid_encoding_witness :
    readText 255 [1, 0, 0, 0, 0x41] 0 = readText 1 [1, 0, 0, 0, 0x41] 0 :=
  readText_invalid_encoding 255 (by decide) [1, 0, 0, 0, 0x41] 0

/-! ## The length of a vertex record -/

theorem readBoneWeightInfo_some {stride : Nat}
    (hs : stride = 1 ∨ stride = 2 ∨ stride = 4)
    {buf : List Byte} {cur c : Int} {bw : BoneWeightInfo}
    (h : readBoneWeightInfo stride buf cur = some (bw, c)) :
    0 ≤ cur ∧ bw.deform_type = unsignedAt buf cur 1
      ∧ c = cur + 1 + skinLength stride bw.deform_type
      ∧ (4 < bw.deform_type → bw = ⟨bw.deform_type, none, none, none⟩) := by
  unfold readBoneWeightInfo at h
  obtain ⟨deform_type, c0, h0, h⟩ := Decoder.bind_eq_some.1 h
  obtain ⟨rfl, p0, ht⟩ := read_uint8_some h0
  rw [← ht]
  clear ht h0
  split at h
  · obtain ⟨b0, c1, h1, h⟩ := Decoder.bind_eq_some.1 h
    obtain ⟨rfl, _, _⟩ := readIndex_some hs h1
    simp only [Decoder.pure_apply, Option.some.injEq, Prod.mk.injEq] at h
    obtain ⟨rfl, rfl⟩ := h
    exact ⟨p0, rfl, by simp only [skinLength], fun h => absurd h (by simp)⟩
  · obtain ⟨b0, c1, h1, h⟩ := Decoder.bind_eq_some.1 h
    obtain ⟨rfl, _, _⟩ := readIndex_some hs h1
    obtain ⟨b1, c2, h2, h⟩ := Decoder.bind_eq_some.1 h
    obtain ⟨rfl, _, _⟩ := readIndex_some hs h2
    obtain ⟨w0, c3, h3, h⟩ := Decoder.bind_eq_some.1 h
    obtain ⟨rfl, _⟩ := read_fpreal32_some h3
    simp only [Decoder.pure_apply, Option.some.injEq, Prod.mk.injEq] at h
    obtain ⟨rfl, rfl⟩ := h
    exact ⟨p0, rfl, by simp only [skinLength]; push_cast; omega,
      fun h => absurd h (by simp)⟩
  · obtain ⟨b0, c1, h1, h⟩ := Decoder.bind_eq_some.1 h
    obtain ⟨rfl, _, _⟩ := readIndex_some hs h1
    obtain ⟨b1, c2, h2, h⟩ := Decoder.bind_eq_some.1 h
    obtain ⟨rfl, _, _⟩ := readIndex_some hs h2
    obtain ⟨b2, c3, h3, h⟩ := Decoder.bind_eq_some.1 h
    obtain ⟨rfl, _, _⟩ := readIndex_some hs h3
    obtain ⟨b3, c4, h4, h⟩ := Decoder.bind_eq_some.1 h
    obtain ⟨rfl, _, _⟩ := readIndex_some hs h4
    obtain ⟨w0, c5, h5, h⟩ := Decoder.bind_eq_some.1 h
    obtain ⟨rfl, _⟩ := read_fpreal32_some h5
    obtain ⟨w1, c6, h6, h⟩ := Decoder.bind_eq_some.1 h
    obtain ⟨rfl, _⟩ := read_fpreal32_some h6
    obtain ⟨w2, c7, h7, h⟩ := Decoder.bind_eq_some.1 h
    obtain ⟨rfl, _⟩ := read_fpreal32_some h7
    obtain ⟨w3, c8, h8, h⟩ := Decoder.bind_eq_some.1 h
    obtain ⟨rfl, _⟩ := read_fpreal32_some h8
    simp only [Decoder.pure_apply, Option.some.injEq, Prod.mk.injEq] at h
    obtain ⟨rfl, rfl⟩ := h
    exact ⟨p0, rfl, by simp only [skinLength]; push_cast; omega,
      fun h => absurd h (by simp)⟩
  · obtain ⟨b0, c1, h1, h⟩ := Decoder.bind_eq_some.1 h
    obtain ⟨rfl, _, _⟩ := readIndex_some hs h1
    obtain ⟨b1, c2, h2, h⟩ := Decoder.bind_eq_some.1 h
    obtain ⟨rfl, _, _⟩ := readIndex_some hs h2
    obtain ⟨w0, c3, h3, h⟩ := Decoder.bind_eq_some.1 h
    obtain ⟨rfl, _⟩ := read_fpreal32_some h3
    obtain ⟨v0, c4, h4, h⟩ := Decoder.bind_eq_some.1 h
    obtain ⟨rfl, _⟩ := read_UT_Vector3_some h4
    obtain ⟨v1, c5, h5, h⟩ := Decoder.bind_eq_some.1 h
    obtain ⟨rfl, _⟩ := read_UT_Vector3_some h5
    obtain ⟨v2, c6, h6, h⟩ := Decoder.bind_eq_some.1 h
    obtain ⟨rfl, _⟩ := read_UT_Vector3_some h6
    simp only [Decoder.pure_apply, Option.some.injEq, Prod.mk.injEq] at h
    obtain ⟨rfl, rfl⟩ := h
    exact ⟨p0, rfl, by simp only [skinLength]; push_cast; omega,
      fun h => absurd h (by simp)⟩
  · obtain ⟨b0, c1, h1, h⟩ := Decoder.bind_eq_some.1 h
    obtain ⟨rfl, _, _⟩ := readIndex_some hs h1
    obtain ⟨b1, c2, h2, h⟩ := Decoder.bind_eq_some.1 h
    obtain ⟨rfl, _, _⟩ := readIndex_some hs h2
    obtain ⟨b2, c3, h3, h⟩ := Decoder.bind_eq_some.1 h
    obtain ⟨rfl, _, _⟩ := readIndex_some hs h3
    obtain ⟨b3, c4, h4, h⟩ := Decoder.bind_eq_some.1 h
    obtain ⟨rfl, _, _⟩ := readIndex_some hs h4
    obtain ⟨w0, c5, h5, h⟩ := Decoder.bind_eq_some.1 h
    obtain ⟨rfl, _⟩ := read_fpreal32_some h5
    obtain ⟨w1, c6, h6, h⟩ := Decoder.bind_eq_some.1 h
    obtain ⟨rfl, _⟩ := read_fpreal32_some h6
    obtain ⟨w2, c7, h7, h⟩ := Decoder.bind_eq_some.1 h
    obtain ⟨rfl, _⟩ := read_fpreal32_some h7
    obtain ⟨w3, c8, h8, h⟩ := Decoder.bind_eq_some.1 h
    obtain ⟨rfl, _⟩ := read_fpreal32_some h8
    simp only [Decoder.pure_apply, Option.some.injEq, Prod.mk.injEq] at h
    obtain ⟨rfl, rfl⟩ := h
    exact ⟨p0, rfl, by simp only [skinLength]; push_cast; omega,
      fun h => absurd h (by simp)⟩
  · rename_i n0 n1 n2 n3 n4
    simp only [Decoder.pure_apply, Option.some.injEq, Prod.mk.injEq] at h
    obtain ⟨rfl, rfl⟩ := h
    refine ⟨p0, rfl, ?_, fun _ => rfl⟩
    have : skinLength stride deform_type = 0 := by
      unfold skinLength
      split <;> first | rfl | (exfalso; simp_all)
    simp only [this]
    push_cast
    omega

theorem readBoneWeightInfo_at {stride : Nat} (hs : stride = 1 ∨ stride = 2 ∨ stride = 4)
    (buf : List Byte) (cur : Int) (h0 : 0 ≤ cur)
    (hlen : cur + 1 + skinLength stride (unsignedAt buf cur 1) ≤ buf.length) :
    ∃ bw, readBoneWeightInfo stride buf cur
        = some (bw, cur + 1 + skinLength stride (unsignedAt buf cur 1))
      ∧ bw.deform_type = unsignedAt buf cur 1 := by
  unfold readBoneWeightInfo
  rw [Decoder.bind_apply, read_uint8_at buf cur h0 (by omega)]
  simp only [Option.some_bind]
  generalize unsignedAt buf cur 1 = t at hlen
  split
  · simp only [skinLength] at hlen ⊢
    rw [Decoder.bind_apply, readIndex_at hs buf _ (by omega) (by omega)]
    exact ⟨_, rfl, rfl⟩
  · simp only [skinLength] at hlen ⊢
    push_cast at hlen ⊢
    have e : cur + 1 + (2 * (stride : Int) + 4) = cur + 1 + stride + stride + 4 := by omega
    rw [e]
    rw [Decoder.bind_apply, readIndex_at hs buf _ (by omega) (by omega)]
    simp only [Option.some_bind]
    rw [Decoder.bind_apply, readIndex_at hs buf _ (by omega) (by omega)]
    simp only [Option.some_bind]
    rw [Decoder.bind_apply, read_fpreal32_at buf _ (by omega) (by omega)]
    exact ⟨_, rfl, rfl⟩
  · simp only [skinLength] at hlen ⊢
    push_cast at hlen ⊢
    have e : cur + 1 + (4 * (stride : Int) + 16)
        = cur + 1 + stride + stride + stride + stride + 4 + 4 + 4 + 4 := by omega
    rw [e]
    rw [Decoder.bind_apply, readIndex_at hs buf _ (by omega) (by omega)]
    simp only [Option.some_bind]
    rw [Decoder.bind_apply, readIndex_at hs buf _ (by omega) (by omega)]
    simp only [Option.some_bind]
    rw [Decoder.bind_apply, readIndex_at hs buf _ (by omega) (by omega)]
    simp only [Option.some_bind]
    rw [Decoder.bind_apply, readIndex_at hs buf _ (by omega) (by omega)]
    simp only [Option.some_bind]
    rw [Decoder.bind_apply, read_fpreal32_at buf _ (by omega) (by omega)]
    simp only [Option.some_bind]
    rw [Decoder.bind_apply, read_fpreal32_at buf _ (by omega) (by omega)]
    simp only [Option.some_bind]
    rw [Decoder.bind_apply, read_fpreal32_at buf _ (by omega) (by omega)]
    simp only [Option.some_bind]
    rw [Decoder.bind_apply, read_fpreal32_at buf _ (by omega) (by omega)]
    exact ⟨_, rfl, rfl⟩
  · simp only [skinLength] at hlen ⊢
    push_cast at hlen ⊢
    obtain ⟨v0, e0⟩ := read_UT_Vector3_at buf (cur + 1 + stride + stride + 4)
      (by omega) (by omega)
    obtain ⟨v1, e1⟩ := read_UT_Vector3_at buf (cur + 1 + stride + stride + 4 + 12)
      (by omega) (by omega)
    obtain ⟨v2, e2⟩ := read_UT_Vector3_at buf (cur + 1 + stride + stride + 4 + 12 + 12)
      (by omega) (by omega)
    have e : cur + 1 + (2 * (stride : Int) + 40)
        = cur + 1 + stride + stride + 4 + 12 + 12 + 12 := by omega
    rw [e]
    rw [Decoder.bind_apply, readIndex_at hs buf _ (by omega) (by omega)]
    simp only [Option.some_bind]
    rw [Decoder.bind_apply, readIndex_at hs buf _ (by omega) (by omega)]
    simp only [Option.some_bind]
    rw [Decoder.bind_apply, read_fpreal32_at buf _ (by omega) (by omega)]
    simp only [Option.some_bind]
    rw [Decoder.bind_apply, e0]
    simp only [Option.some_bind]
    rw [Decoder.bind_apply, e1]
    simp only [Option.some_bind]
    rw [Decoder.bind_apply, e2]
    exact ⟨_, rfl, rfl⟩
  · simp only [skinLength] at hlen ⊢
    push_cast at hlen ⊢
    have e : cur + 1 + (4 * (stride : Int) + 16)
        = cur + 1 + stride + stride + stride + stride + 4 + 4 + 4 + 4 := by omega
    rw [e]
    rw [Decoder.bind_apply, readIndex_at hs buf _ (by omega) (by omega)]
    simp only [Option.some_bind]
    rw [Decoder.bind_apply, readIndex_at hs buf _ (by omega) (by omega)]
    simp only [Option.some_bind]
    rw [Decoder.bind_apply, readIndex_at hs buf _ (by omega) (by omega)]
    simp only [Option.some_bind]
    rw [Decoder.bind_apply, readIndex_at hs buf _ (by omega) (by omega)]
    simp only [Option.some_bind]
    rw [Decoder.bind_apply, read_fpreal32_at buf _ (by omega) (by omega)]
    simp only [Option.some_bind]
    rw [Decoder.bind_apply, read_fpreal32_at buf _ (by omega) (by omega)]
    simp only [Option.some_bind]
    rw [Decoder.bind_apply, read_fpreal32_at buf _ (by omega) (by omega)]
    simp only [Option.some_bind]
    rw [Decoder.bind_apply, read_fpreal32_at buf _ (by omega) (by omega)]
    exact ⟨_, rfl, rfl⟩
  · rename_i n0 n1 n2 n3 n4
    have : skinLength stride t = 0 := by
      unfold skinLength
      split <;> first | rfl | (exfalso; simp_all)
    rw [this]
    exact ⟨_, congrArg (fun c => some (_, c)) (by push_cast; omega), rfl⟩

theorem readBoneWeightInfo_default {t : Nat} (ht : 4 < t) (stride : Nat)
    (buf : List Byte) (cur : Int) (h0 : 0 ≤ cur) (h1 : cur + 1 ≤ buf.length)
    (hb : unsignedAt buf cur 1 = t) :
    readBoneWeightInfo stride buf cur = some (⟨t, none, none, none⟩, cur + 1) := by
  unfold readBoneWeightInfo
  rw [Decoder.bind_apply, read_uint8_at buf cur h0 h1, hb]
  simp only [Option.some_bind]
  split <;> first | rfl | (exfalso; omega)

theorem read_UT_Vector2_some {buf : List Byte} {cur c : Int} {v : UT_Vector2}
    (h : read_UT_Vector2 buf cur = some (v, c)) : c = cur + 8 ∧ 0 ≤ cur := by
  unfold read_UT_Vector2 at h
  obtain ⟨bs, c1, h1, h⟩ := Decoder.bind_eq_some.1 h
  obtain ⟨e1, e2, _⟩ := read_some h1
  simp only [Decoder.pure_apply, Option.some.injEq, Prod.mk.injEq] at h
  exact ⟨by rw [← h.2, e1]; rfl, e2⟩

theorem read_UT_Vector2_at (buf : List Byte) (cur : Int) (h0 : 0 ≤ cur)
    (h1 : cur + 8 ≤ buf.length) :
    ∃ v, read_UT_Vector2 buf cur = some (v, cur + 8) := by
  simp only [read_UT_Vector2, Decoder.bind_apply, read_apply,
    bytesAt_eq_some h0 (show cur + (8 : Nat) ≤ buf.length by exact_mod_cast h1)]
  exact ⟨_, rfl⟩

theorem times_UT_Vector4_some :
    ∀ (n : Nat) {buf : List Byte} {cur c : Int} {l : List UT_Vector4},
      Decoder.times n read_UT_Vector4 buf cur = some (l, c) → c = cur + 16 * n
  | 0, buf, cur, c, l, h => by
    simp only [Decoder.times, Decoder.pure_apply, Option.some.injEq, Prod.mk.injEq] at h
    rw [← h.2]
    simp
  | n + 1, buf, cur, c, l, h => by
    unfold Decoder.times at h
    obtain ⟨a, c1, h1, h⟩ := Decoder.bind_eq_some.1 h
    obtain ⟨rest, c2, h2, h⟩ := Decoder.bind_eq_some.1 h
    simp only [Decoder.pure_apply, Option.some.injEq, Prod.mk.injEq] at h
    have e1 := (read_UT_Vector4_some h1).1
    have e2 := times_UT_Vector4_some n h2
    rw [← h.2, e2, e1]
    push_cast
    ring

theorem times_UT_Vector4_at :
    ∀ (n : Nat) (buf : List Byte) (cur : Int), 0 ≤ cur → cur + 16 * n ≤ buf.length →
      ∃ l, Decoder.times n read_UT_Vector4 buf cur = some (l, cur + 16 * n)
  | 0, buf, cur, _, _ => ⟨[], by simp [Decoder.times, Decoder.pure_apply]⟩
  | n + 1, buf, cur, h0, h1 => by
    push_cast at h1
    obtain ⟨a, e1⟩ := read_UT_Vector4_at buf cur h0 (by omega)
    obtain ⟨rest, e2⟩ := times_UT_Vector4_at n buf (cur + 16) (by omega) (by omega)
    refine ⟨a :: rest, ?_⟩
    unfold Decoder.times
    rw [Decoder.bind_apply, e1]
    simp only [Option.some_bind]
    rw [Decoder.bind_apply, e2]
    simp only [Option.some_bind, Decoder.pure_apply, Option.some.injEq, Prod.mk.injEq,
      true_and]
    push_cast
    ring

theorem readVertex_some {cfg : Config}
    (hs : cfg.bone_index_stride = 1 ∨ cfg.bone_index_stride = 2 ∨ cfg.bone_index_stride = 4)
    {buf : List Byte} {cur c : Int} {v : VertexRecord}
    (h : readVertex cfg buf cur = some (v, c)) :
    0 ≤ cur
      ∧ v.bone_weight_info.deform_type
          = unsignedAt buf (cur + 32 + 16 * cfg.additional_uv_count) 1
      ∧ c = cur + vertexLength cfg v.bone_weight_info.deform_type
      ∧ (4 < v.bone_weight_info.deform_type →
          v.bone_weight_info = ⟨v.bone_weight_info.deform_type, none, none, none⟩) := by
  unfold readVertex at h
  obtain ⟨position, c1, h1, h⟩ := Decoder.bind_eq_some.1 h
  obtain ⟨rfl, p1⟩ := read_UT_Vector3_some h1
  obtain ⟨normal, c2, h2, h⟩ := Decoder.bind_eq_some.1 h
  obtain ⟨rfl, _⟩ := read_UT_Vector3_some h2
  obtain ⟨uv, c3, h3, h⟩ := Decoder.bind_eq_some.1 h
  obtain ⟨rfl, _⟩ := read_UT_Vector2_some h3
  obtain ⟨additional, c4, h4, h⟩ := Decoder.bind_eq_some.1 h
  obtain rfl := times_UT_Vector4_some _ h4
  obtain ⟨bw, c5, h5, h⟩ := Decoder.bind_eq_some.1 h
  obtain ⟨_, htag, rfl, hdef⟩ := readBoneWeightInfo_some hs h5
  obtain ⟨edge_rate, c6, h6, h⟩ := Decoder.bind_eq_some.1 h
  obtain ⟨rfl, _⟩ := read_fpreal32_some h6
  simp only [Decoder.pure_apply, Option.some.injEq, Prod.mk.injEq] at h
  obtain ⟨rfl, rfl⟩ := h
  have e : cur + 12 + 12 + 8 + 16 * (cfg.additional_uv_count : Int)
      = cur + 32 + 16 * cfg.additional_uv_count := by omega
  rw [e] at htag
  refine ⟨p1, htag, ?_, hdef⟩
  simp only [vertexLength]
  push_cast
  omega

theorem readVertex_at {cfg : Config}
    (hs : cfg.bone_index_stride = 1 ∨ cfg.bone_index_stride = 2 ∨ cfg.bone_index_stride = 4)
    (buf : List Byte) (cur : Int) (h0 : 0 ≤ cur)
    (hlen : cur + vertexLength cfg
      (unsignedAt buf (cur + 32 + 16 * cfg.additional_uv_count) 1) ≤ buf.length) :
    ∃ v, readVertex cfg buf cur
        = some (v, cur + vertexLength cfg
            (unsignedAt buf (cur + 32 + 16 * cfg.additional_uv_count) 1))
      ∧ v.bone_weight_info.deform_type
          = unsignedAt buf (cur + 32 + 16 * cfg.additional_uv_count) 1 := by
  have e : cur + 12 + 12 + 8 + 16 * (cfg.additional_uv_count : Int)
      = cur + 32 + 16 * cfg.additional_uv_count := by omega
  simp only [vertexLength] at hlen ⊢
  push_cast at hlen ⊢
  obtain ⟨position, e1⟩ := read_UT_Vector3_at buf cur h0 (by omega)
  obtain ⟨normal, e2⟩ := read_UT_Vector3_at buf (cur + 12) (by omega) (by omega)
  obtain ⟨uv, e3⟩ := read_UT_Vector2_at buf (cur + 12 + 12) (by omega) (by omega)
  obtain ⟨additional, e4⟩ := times_UT_Vector4_at cfg.additional_uv_count buf
    (cur + 12 + 12 + 8) (by omega) (by omega)
  rw [e] at e4
  obtain ⟨bw, e5, htag⟩ := readBoneWeightInfo_at hs buf
    (cur + 32 + 16 * cfg.additional_uv_count) (by omega) (by omega)
  have e6 := read_fpreal32_at buf (cur + 32 + 16 * cfg.additional_uv_count + 1
    + skinLength cfg.bone_index_stride
        (unsignedAt buf (cur + 32 + 16 * cfg.additional_uv_count) 1)) (by omega) (by omega)
  refine ⟨⟨position, normal, uv, bw⟩, ?_, htag⟩
  unfold readVertex
  rw [Decoder.bind_apply, e1]; simp only [Option.some_bind]
  rw [Decoder.bind_apply, e2]; simp only [Option.some_bind]
  rw [Decoder.bind_apply, e3]; simp only [Option.some_bind]
  rw [Decoder.bind_apply, e4]; simp only [Option.some_bind]
  rw [Decoder.bind_apply, e5]; simp only [Option.some_bind]
  rw [Decoder.bind_apply, e6]
  simp only [Option.some_bind, Decoder.pure_apply, Option.some.injEq, Prod.mk.injEq,
    true_and]
  omega

theorem times_readVertex_some {cfg : Config}
    (hs : cfg.bone_index_stride = 1 ∨ cfg.bone_index_stride = 2 ∨ cfg.bone_index_stride = 4) :
    ∀ (k : Nat) {buf : List Byte} {cur c : Int} {vs : List VertexRecord},
      Decoder.times k (readVertex cfg) buf cur = some (vs, c) →
      vs.length = k
        ∧ c = cur + ((vs.map (fun v =>
            vertexLength cfg v.bone_weight_info.deform_type)).sum : Nat)
  | 0, buf, cur, c, vs, h => by
    simp only [Decoder.times, Decoder.pure_apply, Option.some.injEq, Prod.mk.injEq] at h
    rw [← h.1, ← h.2]
    simp
  | k + 1, buf, cur, c, vs, h => by
    unfold Decoder.times at h
    obtain ⟨v, c1, h1, h⟩ := Decoder.bind_eq_some.1 h
    obtain ⟨rest, c2, h2, h⟩ := Decoder.bind_eq_some.1 h
    simp only [Decoder.pure_apply, Option.some.injEq, Prod.mk.injEq] at h
    obtain ⟨_, _, e1, _⟩ := readVertex_some hs h1
    obtain ⟨l2, e2⟩ := times_readVertex_some hs k h2
    rw [← h.1, ← h.2, e2, e1]
    simp only [List.length_cons, l2, List.map_cons, List.sum_cons, true_and]
    push_cast
    ring

theorem le_vertexEnd (cfg : Config) (buf : List Byte) :
    ∀ (k : Nat) (cur : Int), cur ≤ vertexEnd cfg buf k cur
  | 0, cur => le_refl _
  | k + 1, cur => by
    unfold vertexEnd
    have := le_vertexEnd cfg buf k
      (cur + vertexLength cfg (unsignedAt buf (cur + 32 + 16 * cfg.additional_uv_count) 1))
    omega

theorem times_readVertex_at {cfg : Config}
    (hs : cfg.bone_index_stride = 1 ∨ cfg.bone_index_stride = 2 ∨ cfg.bone_index_stride = 4)
    (buf : List Byte) :
    ∀ (k : Nat) (cur : Int), 0 ≤ cur → vertexEnd cfg buf k cur ≤ buf.length →
      ∃ vs, Decoder.times k (readVertex cfg) buf cur = some (vs, vertexEnd cfg buf k cur)
  | 0, cur, _, _ => ⟨[], rfl⟩
  | k + 1, cur, h0, h1 => by
    unfold vertexEnd at h1 ⊢
    have hle := le_vertexEnd cfg buf k
      (cur + vertexLength cfg (unsignedAt buf (cur + 32 + 16 * cfg.additional_uv_count) 1))
    obtain ⟨v, e1, _⟩ := readVertex_at hs buf cur h0 (by omega)
    obtain ⟨rest, e2⟩ := times_readVertex_at hs buf k _ (by omega) h1
    refine ⟨v :: rest, ?_⟩
    unfold Decoder.times
    rw [Decoder.bind_apply, e1]
    simp only [Option.some_bind]
    rw [Decoder.bind_apply, e2]
    rfl

/-- C20: for a bone stride `s` of 1, 2 or 4 and `u` additional uv blocks, one pass of the
vertex loop moves the cursor by `32 + 16 u + 1 + skin t + 4` bytes, `t` being the
deform-type byte of the record, with `skin 0 = s`, `skin 1 = 2 s + 4`,
`skin 2 = skin 4 = 4 s + 16` and `skin 3 = 2 s + 40`; a record that lies in the
buffer is read.  After `k` passes the cursor is at the sum of these lengths and `k`
records have been appended: in the model that `cook` reads, the position, normal, uv
and skin arrays each hold `num_vertices` entries. -/
theorem readVertex_length (cfg : Config)
    (hs : cfg.bone_index_stride = 1 ∨ cfg.bone_index_stride = 2
      ∨ cfg.bone_index_stride = 4) :
    (skinLength cfg.bone_index_stride 0 = cfg.bone_index_stride
      ∧ skinLength cfg.bone_index_stride 1 = 2 * cfg.bone_index_stride + 4
      ∧ skinLength cfg.bone_index_stride 2 = 4 * cfg.bone_index_stride + 16
      ∧ skinLength cfg.bone_index_stride 3 = 2 * cfg.bone_index_stride + 40
      ∧ skinLength cfg.bone_index_stride 4 = 4 * cfg.bone_index_stride + 16)
    ∧ (∀ buf cur v c, readVertex cfg buf cur = some (v, c) →
        v.bone_weight_info.deform_type ≤ 4 →
        c = cur + (32 + 16 * cfg.additional_uv_count + 1
            + skinLength cfg.bone_index_stride v.bone_weight_info.deform_type + 4 : Nat))
    ∧ (∀ (buf : List Byte) (cur : Int) (t : Nat), 0 ≤ cur → t ≤ 4 →
        unsignedAt buf (cur + 32 + 16 * cfg.additional_uv_count) 1 = t →
        cur + (32 + 16 * cfg.additional_uv_count + 1
            + skinLength cfg.bone_index_stride t + 4 : Nat) ≤ buf.length →
        ∃ v, readVertex cfg buf cur
            = some (v, cur + (32 + 16 * cfg.additional_uv_count + 1
                + skinLength cfg.bone_index_stride t + 4 : Nat))
          ∧ v.bone_weight_info.deform_type = t)
    ∧ (∀ (k : Nat) buf cur vs c,
        Decoder.times k (readVertex cfg) buf cur = some (vs, c) →
        (∀ v ∈ vs, v.bone_weight_info.deform_type ≤ 4) →
        vs.length = k
          ∧ c = cur + ((vs.map (fun v => 32 + 16 * cfg.additional_uv_count + 1
              + skinLength cfg.bone_index_stride v.bone_weight_info.deform_type + 4)).sum
                : Nat))
    ∧ (∀ (k : Nat) (buf : List Byte) (cur : Int), 0 ≤ cur →
        vertexEnd cfg buf k cur ≤ buf.length →
        ∃ vs, Decoder.times k (readVertex cfg) buf cur = some (vs, vertexEnd cfg buf k cur))
    ∧ (∀ buf cur m c, readModel cfg buf cur = some (some m, c) →
        m.position_array.length = m.num_vertices.toNat
          ∧ m.normal_array.length = m.num_vertices.toNat
          ∧ m.uv_array.length = m.num_vertices.toNat
          ∧ m.bone_weight_array.length = m.num_vertices.toNat) := by
  refine ⟨⟨rfl, rfl, rfl, rfl, rfl⟩, ?_, ?_, ?_, ?_, ?_⟩
  · intro buf cur v c h _
    exact (readVertex_some hs h).2.2.1
  · intro buf cur t h0 _ ht hlen
    have := readVertex_at hs buf cur h0 (by rw [ht]; exact hlen)
    rw [ht] at this
    exact this
  · intro k buf cur vs c h _
    exact times_readVertex_some hs k h
  · intro k buf cur h0 h1
    exact times_readVertex_at hs buf k cur h0 h1
  · intro buf cur m c h
    exact (readModel_some h).2.2.2

theorem readVertex_length_witness :
    ∃ v, readVertex ⟨1, 0, 1, 1, 1, 1, 1, 1⟩ (fileIndexPastEnd.drop 37) 0
        = some (v, 38)
      ∧ v.bone_weight_info.deform_type = 0 :=
  (readVertex_length ⟨1, 0, 1, 1, 1, 1, 1, 1⟩ (Or.inl rfl)).2.2.1
    (fileIndexPastEnd.drop 37) 0 0 (by decide) (by decide) (by decide) (by decide)

/-! ## A deform type outside 0..4 -/

/-- C11 (as stated, false): on `fileDeformType5`, whose only vertex has the deform-type
byte 5, `cook` does not fail: it runs to the end of the function and leaves one point
in the output, and the skin array of the model it has read holds the record with
tag 5. -/
theorem cook_deform_type5_accepted :
    (cook ⟨id, id⟩ "a.pmx" false (some fileDeformType5)).map
        (fun r => (r.exit, r.detail.points)) =
      some (Exit.done, [⟨0x3F800000, 0x40000000, 0x40400000⟩])
    ∧ (readModel (configAt fileDeformType5) fileDeformType5 17).map
        (fun p => p.1.map Model.bone_weight_array) =
      some (some [⟨5, none, none, none⟩]) := by
  decide

/-- C11 (amended): for every vertex record whose deform-type byte `t` is not in 0..4 the
decode does not fail: the `switch` takes its `default` branch, which reads no skin
byte, and the record is appended with the tag `t` and with bone indices, weights and
SDEF vectors left unset; the pass ends after the edge-scale float that follows the
tag byte. -/
theorem readVertex_unknown_deform_type (cfg : Config) (buf : List Byte) (cur : Int)
    (t : Nat) (ht : 4 < t) (h0 : 0 ≤ cur)
    (htag : unsignedAt buf (cur + 32 + 16 * cfg.additional_uv_count) 1 = t)
    (hlen : cur + 32 + 16 * cfg.additional_uv_count + 1 + 4 ≤ buf.length) :
    readBoneWeightInfo cfg.bone_index_stride buf (cur + 32 + 16 * cfg.additional_uv_count)
        = some (⟨t, none, none, none⟩, cur + 32 + 16 * cfg.additional_uv_count + 1)
    ∧ ∃ v, readVertex cfg buf cur
          = some (v, cur + 32 + 16 * cfg.additional_uv_count + 1 + 4)
        ∧ v.bone_weight_info = ⟨t, none, none, none⟩ := by
  have e : cur + 12 + 12 + 8 + 16 * (cfg.additional_uv_count : Int)
      = cur + 32 + 16 * cfg.additional_uv_count := by omega
  obtain ⟨position, e1⟩ := read_UT_Vector3_at buf cur h0 (by omega)
  obtain ⟨normal, e2⟩ := read_UT_Vector3_at buf (cur + 12) (by omega) (by omega)
  obtain ⟨uv, e3⟩ := read_UT_Vector2_at buf (cur + 12 + 12) (by omega) (by omega)
  obtain ⟨additional, e4⟩ := times_UT_Vector4_at cfg.additional_uv_count buf
    (cur + 12 + 12 + 8) (by omega) (by omega)
  rw [e] at e4
  have e5 := readBoneWeightInfo_default ht cfg.bone_index_stride buf
    (cur + 32 + 16 * cfg.additional_uv_count) (by omega) (by omega) htag
  have e6 := read_fpreal32_at buf (cur + 32 + 16 * cfg.additional_uv_count + 1)
    (by omega) (by omega)
  refine ⟨e5, ⟨position, normal, uv, ⟨t, none, none, none⟩⟩, ?_, rfl⟩
  unfold readVertex
  rw [Decoder.bind_apply, e1]; simp only [Option.some_bind]
  rw [Decoder.bind_apply, e2]; simp only [Option.some_bind]
  rw [Decoder.bind_apply, e3]; simp only [Option.some_bind]
  rw [Decoder.bind_apply, e4]; simp only [Option.some_bind]
  rw [Decoder.bind_apply, e5]; simp only [Option.some_bind]
  rw [Decoder.bind_apply, e6]
  rfl

theorem readVertex_unknown_deform_type_witness :
    readBoneWeightInfo 1 (fileDeformType5.drop 37) 32
        = some (⟨5, none, none, none⟩, 33)
    ∧ ∃ v, readVertex ⟨1, 0, 1, 1, 1, 1, 1, 1⟩ (fileDeformType5.drop 37) 0 = some (v, 37)
        ∧ v.bone_weight_info = ⟨5, none, none, none⟩ :=
  readVertex_unknown_deform_type ⟨1, 0, 1, 1, 1, 1, 1, 1⟩ (fileDeformType5.drop 37) 0 5
    (by decide) (by decide) (by decide) (by decide)

/-! ## Reads and the end of the buffer -/

theorem bytesAt_take_of_le {buf : List Byte} {p : Int} {n : Nat} {bs : List Byte}
    (h : bytesAt buf p n = some bs) {k : Nat} (hk : p + n ≤ k) :
    bytesAt (buf.take k) p n = some bs := by
  obtain ⟨⟨h0, h1⟩, rfl⟩ := bytesAt_some_iff.1 h
  have hlen : (buf.take k).length = min k buf.length := List.length_take _ _
  rw [bytesAt_eq_some h0 (by rw [hlen]; omega)]
  congr 1
  apply List.ext_get?
  intro j
  simp only [List.get?_eq_getElem?, List.getElem?_take, List.getElem?_drop]
  by_cases hj : j < n
  · have : p.toNat + j < k := by omega
    simp only [hj, if_true, this]
  · simp only [hj, if_false]

theorem bytesAt_take_of_lt (buf : List Byte) {p : Int} {n : Nat} {k : Nat}
    (hk : (k : Int) < p + n) : bytesAt (buf.take k) p n = none := by
  have hlen : (buf.take k).length = min k buf.length := List.length_take _ _
  unfold bytesAt
  rw [if_neg]
  rw [hlen]
  omega

theorem bytesAt_append {buf : List Byte} {p : Int} {n : Nat} {bs : List Byte}
    (h : bytesAt buf p n = some bs) (ext : List Byte) :
    bytesAt (buf ++ ext) p n = some bs := by
  obtain ⟨⟨h0, h1⟩, rfl⟩ := bytesAt_some_iff.1 h
  rw [bytesAt_eq_some h0 (by rw [List.length_append]; push_cast; omega)]
  congr 1
  rw [List.drop_append_of_le_length (by omega),
    List.take_append_of_le_length (by rw [List.length_drop]; omega)]

theorem bytesAt_shift {buf : List Byte} {p : Int} {n : Nat} {bs : List Byte}
    (h : bytesAt buf p n = some bs) (pre : List Byte) :
    bytesAt (pre ++ buf) (p + pre.length) n = some bs := by
  obtain ⟨⟨h0, h1⟩, rfl⟩ := bytesAt_some_iff.1 h
  rw [bytesAt_eq_some (by omega) (by rw [List.length_append]; push_cast; omega)]
  have e : (p + pre.length).toNat = pre.length + p.toNat := by omega
  rw [e, List.drop_append]

theorem Local.of_pure {α : Type} (a : α) : Local (Pure.pure a : Decoder α) where
  grow := by
    intro buf ext cur a' c h
    exact h
  shift := by
    intro pre buf cur a' c h
    simp only [Decoder.pure_apply, Option.some.injEq, Prod.mk.injEq] at h ⊢
    exact ⟨h.1, by omega⟩
  inside := by
    intro buf cur a' c h hcur
    simp only [Decoder.pure_apply, Option.some.injEq, Prod.mk.injEq] at h
    omega

theorem Local.of_bind {α β : Type} {x : Decoder α} {f : α → Decoder β}
    (hx : Local x) (hf : ∀ a, Local (f a)) : Local (x >>= f) where
  grow := by
    intro buf ext cur b c h
    obtain ⟨a, c1, h1, h2⟩ := Decoder.bind_eq_some.1 h
    rw [Decoder.bind_apply, hx.grow _ ext _ _ _ h1]
    exact (hf a).grow _ ext _ _ _ h2
  shift := by
    intro pre buf cur b c h
    obtain ⟨a, c1, h1, h2⟩ := Decoder.bind_eq_some.1 h
    rw [Decoder.bind_apply, hx.shift pre _ _ _ _ h1]
    exact (hf a).shift pre _ _ _ _ h2
  inside := by
    intro buf cur b c h hcur
    obtain ⟨a, c1, h1, h2⟩ := Decoder.bind_eq_some.1 h
    exact (hf a).inside _ _ _ _ h2 (hx.inside _ _ _ _ h1 hcur)

theorem Local.of_ite {α : Type} (c : Prop) [Decidable c] {x y : Decoder α}
    (hx : Local x) (hy : Local y) : Local (if c then x else y) := by
  split
  · exact hx
  · exact hy

theorem Local.of_read (size : Nat) : Local (read size true) where
  grow := by
    intro buf ext cur a c h
    rw [read_apply] at h ⊢
    cases hb : bytesAt buf cur size with
    | none => rw [hb] at h; exact absurd h (by simp)
    | some bs =>
      rw [hb] at h
      rw [bytesAt_append hb]
      exact h
  shift := by
    intro pre buf cur a c h
    rw [read_apply] at h ⊢
    cases hb : bytesAt buf cur size with
    | none => rw [hb] at h; exact absurd h (by simp)
    | some bs =>
      rw [hb] at h
      simp only [Option.map_some', Option.some.injEq, Prod.mk.injEq] at h
      rw [bytesAt_shift hb]
      simp only [Option.map_some', Option.some.injEq, Prod.mk.injEq]
      exact ⟨h.1, by omega⟩
  inside := by
    intro buf cur a c h _
    rw [read_apply] at h
    cases hb : bytesAt buf cur size with
    | none => rw [hb] at h; exact absurd h (by simp)
    | some bs =>
      obtain ⟨⟨_, h1⟩, _⟩ := bytesAt_some_iff.1 hb
      rw [hb] at h
      simp only [Option.map_some', Option.some.injEq, Prod.mk.injEq] at h
      omega

theorem Local.of_times {α : Type} {step : Decoder α} (hs : Local step) (n : Nat) :
    Local (Decoder.times n step) := by
  induction n with
  | zero => exact Local.of_pure _
  | succ k ih =>
    unfold Decoder.times
    exact Local.of_bind hs (fun _ => Local.of_bind ih (fun _ => Local.of_pure _))

theorem Local.of_read_uint8 : Local read_uint8 :=
  Local.of_bind (Local.of_read 1) (fun _ => Local.of_pure _)

theorem Local.of_read_uint16 : Local read_uint16 :=
  Local.of_bind (Local.of_read 2) (fun _ => Local.of_pure _)

theorem Local.of_read_uint32 : Local read_uint32 :=
  Local.of_bind (Local.of_read 4) (fun _ => Local.of_pure _)

theorem Local.of_read_int32 : Local read_int32 :=
  Local.of_bind (Local.of_read 4) (fun _ => Local.of_pure _)

theorem Local.of_read_fpreal32 : Local read_fpreal32 :=
  Local.of_bind (Local.of_read 4) (fun _ => Local.of_pure _)

theorem Local.of_read_UT_Vector2 : Local read_UT_Vector2 :=
  Local.of_bind (Local.of_read 8) (fun _ => Local.of_pure _)

theorem Local.of_read_UT_Vector3 : Local read_UT_Vector3 :=
  Local.of_bind (Local.of_read 12) (fun _ => Local.of_pure _)

theorem Local.of_read_UT_Vector4 : Local read_UT_Vector4 :=
  Local.of_bind (Local.of_read 16) (fun _ => Local.of_pure _)

theorem Local.of_readIndex (stride : Nat) : Local (readIndex stride) := by
  unfold PMX.readIndex
  split
  · exact Local.of_bind Local.of_read_uint8 (fun _ => Local.of_pure _)
  · exact Local.of_bind Local.of_read_uint16 (fun _ => Local.of_pure _)
  · exact Local.of_bind Local.of_read_uint32 (fun _ => Local.of_pure _)
  · exact Local.of_pure _

theorem readTextUTF16_append {begin byte_size : Int} {buf : List Byte} {cur : Int}
    {x : UT_String × Int} (h : readTextUTF16 begin byte_size buf cur = some x)
    (ext : List Byte) : readTextUTF16 begin byte_size (buf ++ ext) cur = some x := by
  unfold readTextUTF16 at h ⊢
  split at h
  · exact absurd h (by simp)
  · rename_i hn
    rw [if_neg hn]
    cases hb : bytesAt buf begin byte_size.toNat with
    | none => rw [hb] at h; exact absurd h (by simp)
    | some src =>
      rw [hb] at h
      rw [bytesAt_append hb]
      exact h

theorem readTextUTF16_shift {begin byte_size : Int} {buf : List Byte} {cur c : Int}
    {s : UT_String} (h : readTextUTF16 begin byte_size buf cur = some (s, c))
    (pre : List Byte) (cur' : Int) :
    readTextUTF16 (begin + pre.length) byte_size (pre ++ buf) cur' = some (s, cur') := by
  unfold readTextUTF16 at h ⊢
  split at h
  · exact absurd h (by simp)
  · rename_i hn
    rw [if_neg hn]
    cases hb : bytesAt buf begin byte_size.toNat with
    | none => rw [hb] at h; exact absurd h (by simp)
    | some src =>
      rw [hb] at h
      rw [bytesAt_shift hb]
      dsimp only at h ⊢
      split at h
      · rename_i hl
        rw [if_pos hl]
        simp only [Option.some.injEq, Prod.mk.injEq] at h ⊢
        exact ⟨h.1, trivial⟩
      · exact absurd h (by simp)

theorem readTextUTF16_end {begin byte_size : Int} {buf : List Byte} {cur c : Int}
    {s : UT_String} (h : readTextUTF16 begin byte_size buf cur = some (s, c)) :
    begin + byte_size ≤ buf.length := by
  unfold readTextUTF16 at h
  split at h
  · exact absurd h (by simp)
  · cases hb : bytesAt buf begin byte_size.toNat with
    | none => rw [hb] at h; exact absurd h (by simp)
    | some src =>
      obtain ⟨⟨_, h1⟩, _⟩ := bytesAt_some_iff.1 hb
      omega

theorem ofRange_append {begin last : Int} {buf : List Byte} {cur : Int}
    {x : UT_String × Int} (h : UT_String.ofRange begin last buf cur = some x)
    (ext : List Byte) : UT_String.ofRange begin last (buf ++ ext) cur = some x := by
  unfold UT_String.ofRange at h ⊢
  split at h
  · rename_i hle
    rw [if_pos hle]
    cases hb : bytesAt buf begin (last - begin).toNat with
    | none => rw [hb] at h; exact absurd h (by simp)
    | some src =>
      rw [hb] at h
      rw [bytesAt_append hb]
      exact h
  · rename_i hle
    rw [if_neg hle]
    exact h

theorem ofRange_shift {begin last : Int} {buf : List Byte} {cur c : Int}
    {s : UT_String} (h : UT_String.ofRange begin last buf cur = some (s, c))
    (pre : List Byte) (cur' : Int) :
    UT_String.ofRange (begin + pre.length) (last + pre.length) (pre ++ buf) cur'
      = some (s, cur') := by
  have e : last + (pre.length : Int) - (begin + pre.length) = last - begin := by omega
  unfold UT_String.ofRange at h ⊢
  rw [e]
  split at h
  · rename_i hle
    rw [if_pos (by omega)]
    cases hb : bytesAt buf begin (last - begin).toNat with
    | none => rw [hb] at h; exact absurd h (by simp)
    | some src =>
      rw [hb] at h
      rw [bytesAt_shift hb]
      simp only [Option.some.injEq, Prod.mk.injEq] at h ⊢
      exact ⟨h.1, trivial⟩
  · rename_i hle
    rw [if_neg (by omega)]
    simp only [Option.some.injEq, Prod.mk.injEq] at h ⊢
    exact ⟨h.1, trivial⟩

theorem ofRange_end {begin last : Int} {buf : List Byte} {cur c : Int}
    {s : UT_String} (h : UT_String.ofRange begin last buf cur = some (s, c))
    (hb : begin ≤ buf.length) : last ≤ buf.length := by
  unfold UT_String.ofRange at h
  split at h
  · cases hb : bytesAt buf begin (last - begin).toNat with
    | none => rw [hb] at h; exact absurd h (by simp)
    | some src =>
      obtain ⟨⟨_, h1⟩, _⟩ := bytesAt_some_iff.1 hb
      omega
  · omega

theorem Local.of_readText (encode : Nat) : Local (readText encode) where
  grow := by
    intro buf ext cur s c h
    rw [readText_apply] at h ⊢
    cases hb : bytesAt buf cur 4 with
    | none => rw [hb] at h; exact absurd h (by simp)
    | some bs =>
      rw [hb] at h
      rw [bytesAt_append hb]
      simp only [Option.some_bind] at h ⊢
      split at h
      · rename_i he
        rw [if_pos he]
        exact readTextUTF16_append h ext
      · rename_i he
        rw [if_neg he]
        exact ofRange_append h ext
  shift := by
    intro pre buf cur s c h
    have hc := (readText_some h).1
    rw [readText_apply] at h ⊢
    cases hb : bytesAt buf cur 4 with
    | none => rw [hb] at h; exact absurd h (by simp)
    | some bs =>
      have hbs : bs = (buf.drop cur.toNat).take 4 := (bytesAt_some_iff.1 hb).2
      have hc' : c = cur + 4 + toInt32 (leNat bs) := by rw [hbs]; exact hc
      rw [hb] at h
      rw [bytesAt_shift hb]
      simp only [Option.some_bind] at h ⊢
      have e1 : cur + (pre.length : Int) + 4 = cur + 4 + pre.length := by omega
      have e2 : cur + 4 + (pre.length : Int) + toInt32 (leNat bs)
          = cur + 4 + toInt32 (leNat bs) + pre.length := by omega
      rw [e1, e2, hc']
      split at h
      · rename_i he
        rw [if_pos he]
        exact readTextUTF16_shift h pre _
      · rename_i he
        rw [if_neg he]
        exact ofRange_shift h pre _
  inside := by
    intro buf cur s c h _
    obtain ⟨hc, h0, h4⟩ := readText_some h
    rw [readText_apply] at h
    cases hb : bytesAt buf cur 4 with
    | none => rw [hb] at h; exact absurd h (by simp)
    | some bs =>
      have hbs : bs = (buf.drop cur.toNat).take 4 := (bytesAt_some_iff.1 hb).2
      have hc' : c = cur + 4 + toInt32 (leNat bs) := by rw [hbs]; exact hc
      rw [hb] at h
      simp only [Option.some_bind] at h
      split at h
      · have := readTextUTF16_end h
        omega
      · have := ofRange_end h (by omega)
        omega

theorem Local.of_readBoneWeightInfo (bone_index_stride : Nat) :
    Local (readBoneWeightInfo bone_index_stride) := by
  unfold PMX.readBoneWeightInfo
  refine Local.of_bind Local.of_read_uint8 (fun deform_type => ?_)
  split <;>
    repeat' first
      | exact Local.of_pure _
      | exact Local.of_readIndex _
      | exact Local.of_read_fpreal32
      | exact Local.of_read_UT_Vector3
      | apply Local.of_bind
      | intro _

theorem Local.of_readVertex (cfg : Config) : Local (readVertex cfg) := by
  unfold PMX.readVertex
  repeat' first
    | exact Local.of_pure _
    | exact Local.of_read_fpreal32
    | exact Local.of_read_UT_Vector3
    | exact Local.of_read_UT_Vector2
    | exact Local.of_times Local.of_read_UT_Vector4 _
    | exact Local.of_readBoneWeightInfo _
    | apply Local.of_bind
    | intro _

theorem Local.of_readToonTextureIndex (shared_toon_flag texture_index_stride : Nat) :
    Local (readToonTextureIndex shared_toon_flag texture_index_stride) := by
  unfold PMX.readToonTextureIndex
  exact Local.of_ite _ (Local.of_readIndex _)
    (Local.of_bind Local.of_read_uint8 (fun _ => Local.of_pure _))

theorem Local.of_readMaterial (cfg : Config) : Local (readMaterial cfg) := by
  unfold PMX.readMaterial
  repeat' first
    | exact Local.of_pure _
    | exact Local.of_read_fpreal32
    | exact Local.of_read_int32
    | exact Local.of_read_uint8
    | exact Local.of_read_UT_Vector3
    | exact Local.of_read_UT_Vector4
    | exact Local.of_readText _
    | exact Local.of_readIndex _
    | exact Local.of_readToonTextureIndex _ _
    | apply Local.of_bind
    | intro _

theorem Local.of_readFaceIndex (vertex_index_stride : Nat) :
    Local (readFaceIndex vertex_index_stride) :=
  Local.of_bind (Local.of_readIndex _) (fun _ => Local.of_pure _)

theorem Local.of_readModel (cfg : Config) : Local (readModel cfg) := by
  unfold PMX.readModel
  repeat' first
    | exact Local.of_pure _
    | exact Local.of_read_int32
    | exact Local.of_readText _
    | exact Local.of_times (Local.of_readVertex _) _
    | exact Local.of_times (Local.of_readFaceIndex _) _
    | exact Local.of_times (Local.of_readText _) _
    | exact Local.of_times (Local.of_readMaterial _) _
    | apply Local.of_ite
    | apply Local.of_bind
    | intro _

theorem take_get? (buf : List Byte) (k : Nat) :
    ∀ j, j < k → (buf.take k).get? j = buf.get? j := by
  intro j hj
  simp only [List.get?_eq_getElem?, List.getElem?_take, hj, if_true]

theorem readModel_start {cfg : Config} {buf : List Byte} {cur : Int}
    {x : Option Model × Int} (h : readModel cfg buf cur = some x) :
    cur + 4 ≤ buf.length := by
  obtain ⟨m, c⟩ := x
  unfold readModel at h
  obtain ⟨model_name, c1, h1, _⟩ := Decoder.bind_eq_some.1 h
  rw [readText_apply] at h1
  cases hb : bytesAt buf cur 4 with
  | none => rw [hb] at h1; exact absurd h1 (by simp)
  | some bs =>
    obtain ⟨⟨_, hlen⟩, _⟩ := bytesAt_some_iff.1 hb
    exact_mod_cast hlen

theorem readMaterial_low {cfg : Config} {buf : List Byte} {cur c : Int}
    {x : Material × Int} (h : readMaterial cfg buf cur = some (x, c)) : 4 ≤ c := by
  unfold readMaterial at h
  obtain ⟨_, _, _, g1⟩ := Decoder.bind_eq_some.1 h
  obtain ⟨_, _, _, g2⟩ := Decoder.bind_eq_some.1 g1
  obtain ⟨_, _, _, g3⟩ := Decoder.bind_eq_some.1 g2
  obtain ⟨_, _, _, g4⟩ := Decoder.bind_eq_some.1 g3
  obtain ⟨_, _, _, g5⟩ := Decoder.bind_eq_some.1 g4
  obtain ⟨_, _, _, g6⟩ := Decoder.bind_eq_some.1 g5
  obtain ⟨_, _, _, g7⟩ := Decoder.bind_eq_some.1 g6
  obtain ⟨_, _, _, g8⟩ := Decoder.bind_eq_some.1 g7
  obtain ⟨_, _, _, g9⟩ := Decoder.bind_eq_some.1 g8
  obtain ⟨_, _, _, g10⟩ := Decoder.bind_eq_some.1 g9
  obtain ⟨_, _, _, g11⟩ := Decoder.bind_eq_some.1 g10
  obtain ⟨_, _, _, g12⟩ := Decoder.bind_eq_some.1 g11
  obtain ⟨_, _, _, g13⟩ := Decoder.bind_eq_some.1 g12
  obtain ⟨_, _, _, g14⟩ := Decoder.bind_eq_some.1 g13
  obtain ⟨n, c15, h15, g15⟩ := Decoder.bind_eq_some.1 g14
  obtain ⟨e, h0, _⟩ := read_int32_some h15
  simp only [Decoder.pure_apply, Option.some.injEq, Prod.mk.injEq] at g15
  omega

theorem times_readMaterial_low {cfg : Config} :
    ∀ (n : Nat) {buf : List Byte} {cur c : Int} {ms : List (Material × Int)},
      Decoder.times n (readMaterial cfg) buf cur = some (ms, c) → 4 ≤ cur → 4 ≤ c
  | 0, buf, cur, c, ms, h, hcur => by
    simp only [Decoder.times, Decoder.pure_apply, Option.some.injEq, Prod.mk.injEq] at h
    omega
  | n + 1, buf, cur, c, ms, h, _ => by
    unfold Decoder.times at h
    obtain ⟨a, c1, h1, g1⟩ := Decoder.bind_eq_some.1 h
    obtain ⟨rest, c2, h2, g2⟩ := Decoder.bind_eq_some.1 g1
    simp only [Decoder.pure_apply, Option.some.injEq, Prod.mk.injEq] at g2
    have := times_readMaterial_low n h2 (readMaterial_low h1)
    omega

theorem readModel_low {cfg : Config} {buf : List Byte} {cur c : Int}
    {m : Option Model} (h : readModel cfg buf cur = some (m, c)) : 4 ≤ c := by
  unfold readModel at h
  obtain ⟨_, _, _, g1⟩ := Decoder.bind_eq_some.1 h
  obtain ⟨_, _, _, g2⟩ := Decoder.bind_eq_some.1 g1
  obtain ⟨_, _, _, g3⟩ := Decoder.bind_eq_some.1 g2
  obtain ⟨_, _, _, g4⟩ := Decoder.bind_eq_some.1 g3
  obtain ⟨_, _, _, g5⟩ := Decoder.bind_eq_some.1 g4
  obtain ⟨_, _, _, g6⟩ := Decoder.bind_eq_some.1 g5
  obtain ⟨face_index_count, c7, h7, g7⟩ := Decoder.bind_eq_some.1 g6
  obtain ⟨e7, p7, _⟩ := read_int32_some h7
  split at g7
  · simp only [Decoder.pure_apply, Option.some.injEq, Prod.mk.injEq] at g7
    omega
  · obtain ⟨_, _, _, g8⟩ := Decoder.bind_eq_some.1 g7
    obtain ⟨_, _, _, g9⟩ := Decoder.bind_eq_some.1 g8
    obtain ⟨_, _, _, g10⟩ := Decoder.bind_eq_some.1 g9
    obtain ⟨material_count, c11, h11, g11⟩ := Decoder.bind_eq_some.1 g10
    obtain ⟨e11, p11, _⟩ := read_int32_some h11
    obtain ⟨materials, c12, h12, g12⟩ := Decoder.bind_eq_some.1 g11
    simp only [Decoder.pure_apply, Option.some.injEq, Prod.mk.injEq] at g12
    have := times_readMaterial_low _ h12 (by omega)
    omega

theorem cookBuffer_cut {conv : Conv} {filepath : String} {buf : List Byte}
    {r : CookResult} {c : Int} (h : cookBuffer conv filepath buf 0 = some (r, c))
    (k : Nat) (hk : (k : Int) < c) :
    cookBuffer conv filepath (buf.take k) 0 = none := by
  have hTlen : (buf.take k).length = min k buf.length := List.length_take _ _
  have hlen : 8 ≤ buf.length := by
    by_contra hn
    rw [cookBuffer_short conv filepath buf hn] at h
    exact absurd h (by simp)
  by_cases hk8 : 8 ≤ k
  swap
  · exact cookBuffer_short conv filepath _ (by rw [hTlen]; omega)
  have hpre := take_get? buf k
  have hsig : (buf.take k).take 4 = buf.take 4 := slice_agree hpre 0 4 (by omega)
  have hver : versionAt (buf.take k) = versionAt buf := by
    unfold versionAt
    rw [slice_agree hpre 4 4 (by omega)]
  rw [cookBuffer_apply conv filepath buf hlen] at h
  rw [cookBuffer_apply conv filepath _ (by rw [hTlen]; omega), hsig, hver]
  by_cases h1 : buf.take 4 ≠ pmxSignature
  · rw [if_pos h1] at h
    simp only [Option.some.injEq, Prod.mk.injEq] at h
    omega
  rw [if_neg h1] at h ⊢
  by_cases h2 : versionAt buf ≠ F32.two ∧ versionAt buf ≠ F32.twoPointOne
  · rw [if_pos h2] at h
    simp only [Option.some.injEq, Prod.mk.injEq] at h
    omega
  rw [if_neg h2] at h ⊢
  have h9 : 9 ≤ buf.length := by
    by_contra hn
    have : read_uint8 buf 8 = none := by
      rw [read_uint8_apply]
      unfold bytesAt
      rw [if_neg (by push_cast; omega)]
      rfl
    rw [this] at h
    exact absurd h (by simp)
  have e := read_uint8_eq buf 8 (by omega)
  simp only [Nat.cast_ofNat] at e
  rw [e] at h
  simp only [Option.some_bind] at h
  by_cases hk9 : 9 ≤ k
  swap
  · have : read_uint8 (buf.take k) 8 = none := by
      rw [read_uint8_apply, bytesAt_take_of_lt buf (by push_cast; omega)]
      rfl
    rw [this]
    rfl
  have e' := read_uint8_eq (buf.take k) 8 (by rw [hTlen]; omega)
  simp only [Nat.cast_ofNat] at e'
  have hb8 : byteAt (buf.take k) 8 = byteAt buf 8 := by
    unfold byteAt
    rw [slice_agree hpre 8 1 (by omega)]
  rw [e', hb8]
  simp only [Option.some_bind]
  by_cases h4 : byteAt buf 8 < 8
  · rw [if_pos h4] at h
    simp only [Option.some.injEq, Prod.mk.injEq] at h
    omega
  rw [if_neg h4] at h ⊢
  by_cases h5 : versionAt buf = F32.two ∧ byteAt buf 8 ≠ 8
  · rw [if_pos h5] at h
    simp only [Option.some.injEq, Prod.mk.injEq] at h
    omega
  rw [if_neg h5] at h ⊢
  norm_num at h ⊢
  have h17 : 17 ≤ buf.length := by
    have := (cookConfigured_some h).1
    omega
  cases hT : cookConfigured conv filepath (byteAt buf 8) (buf.take k) 9 with
  | none => rfl
  | some p =>
    exfalso
    obtain ⟨r', c'⟩ := p
    have hT17 : 17 ≤ (buf.take k).length := by
      have := (cookConfigured_some hT).1
      omega
    have hk17 : 17 ≤ k := by rw [hTlen] at hT17; omega
    have hb : ∀ i, i + 1 ≤ 17 → byteAt (buf.take k) i = byteAt buf i := by
      intro i hi
      unfold byteAt
      rw [slice_agree hpre i 1 (by omega)]
    have hcfg : configAt (buf.take k) = configAt buf := by
      unfold configAt
      rw [hb 9 (by omega), hb 10 (by omega), hb 11 (by omega), hb 12 (by omega),
        hb 13 (by omega), hb 14 (by omega), hb 15 (by omega), hb 16 (by omega)]
    rw [cookConfigured_apply conv filepath _ buf h17] at h
    rw [cookConfigured_apply conv filepath _ _ hT17, hcfg] at hT
    cases hm : readModel (configAt buf) buf (9 + byteAt buf 8) with
    | none => rw [hm] at h; exact absurd h (by simp)
    | some q =>
      obtain ⟨m, c0⟩ := q
      rw [hm] at h
      simp only [Option.map_some', Option.some.injEq, Prod.mk.injEq] at h
      obtain ⟨_, rfl⟩ := h
      cases hmT : readModel (configAt buf) (buf.take k) (9 + byteAt buf 8) with
      | none => rw [hmT] at hT; exact absurd hT (by simp)
      | some q' =>
        obtain ⟨m', c'⟩ := q'
        have hstart := readModel_start hmT
        have hgrow := (Local.of_readModel (configAt buf)).grow _ (buf.drop k) _ _ _ hmT
        rw [List.take_append_drop, hm] at hgrow
        simp only [Option.some.injEq, Prod.mk.injEq] at hgrow
        have hin := (Local.of_readModel (configAt buf)).inside _ _ _ _ hmT (by omega)
        rw [hTlen] at hin
        omega

theorem cookBuffer_inside {conv : Conv} {filepath : String} {buf : List Byte}
    {r : CookResult} {c : Int} (h : cookBuffer conv filepath buf 0 = some (r, c)) :
    c ≤ buf.length := by
  by_contra hc
  have := cookBuffer_cut h buf.length (by omega)
  rw [List.take_length] at this
  rw [this] at h
  exact absurd h (by simp)

theorem cookBuffer_low {conv : Conv} {filepath : String} {buf : List Byte}
    {r : CookResult} {c : Int} (h : cookBuffer conv filepath buf 0 = some (r, c)) :
    4 ≤ c := by
  have hlen : 8 ≤ buf.length := by
    by_contra hn
    rw [cookBuffer_short conv filepath buf hn] at h
    exact absurd h (by simp)
  rw [cookBuffer_apply conv filepath buf hlen] at h
  split at h
  · simp only [Option.some.injEq, Prod.mk.injEq] at h
    omega
  split at h
  · simp only [Option.some.injEq, Prod.mk.injEq] at h
    omega
  cases h8 : read_uint8 buf 8 with
  | none => rw [h8] at h; exact absurd h (by simp)
  | some p =>
    obtain ⟨n, c1⟩ := p
    obtain ⟨rfl, _, _⟩ := read_uint8_some h8
    rw [h8] at h
    simp only [Option.some_bind] at h
    split at h
    · simp only [Option.some.injEq, Prod.mk.injEq] at h
      omega
    split at h
    · simp only [Option.some.injEq, Prod.mk.injEq] at h
      omega
    obtain ⟨_, cfg, m, hm, _⟩ := cookConfigured_some h
    exact readModel_low hm

/-- A run can end inside the header: in `fileEndsInHeader` the memo of the material has
the length -128, the index count of the material is read at offset 3 and the model is
read up to offset 7. -/
theorem readModel_ends_in_header :
    (readModel (configAt fileEndsInHeader) fileEndsInHeader 17).map Prod.snd
      = some 7 := by
  decide!

/-- C14 (as stated, false): on the four-byte buffer that holds only the signature, the
first step of `cook`, the 8-byte `read<FileHeader>` at offset 0, is not inside the
buffer, and `cook` has no return: the source copies the eight bytes without a check,
it does not fail with an empty output.  The same happens when the sample file
`fileIndexPastEnd` is cut after 50 bytes, in the middle of its vertex. -/
theorem cook_truncated_reads_outside :
    bytesAt [0x50, 0x4D, 0x58, 0x20] 0 8 = none
    ∧ cook ⟨id, id⟩ "a.pmx" false (some [0x50, 0x4D, 0x58, 0x20]) = none
    ∧ cook ⟨id, id⟩ "a.pmx" false (some (fileIndexPastEnd.take 50)) = none := by
  decide

/-- C14 (amended): no read of the decode is checked against the end of the buffer.  A run
of `cook` that returns has read only inside the buffer (it ends at an offset `c` that
is at most the buffer length); when a read would extend past the end of the supplied
buffer the read is made all the same, an access outside the buffer, and the run has
no return: this is so for every buffer cut short of the `c` bytes a returning run
consumes, and for every buffer shorter than the 8-byte header. -/
theorem cook_reads_unchecked (conv : Conv) (filepath : String) :
    (∀ buf r c, cookBuffer conv filepath buf 0 = some (r, c) →
      4 ≤ c ∧ c ≤ buf.length
        ∧ ∀ k : Nat, (k : Int) < c → cook conv filepath false (some (buf.take k)) = none)
    ∧ (∀ buf : List Byte, buf.length < 8 → cook conv filepath false (some buf) = none) := by
  constructor
  · intro buf r c h
    refine ⟨?_, cookBuffer_inside h, ?_⟩
    · exact cookBuffer_low h
    · intro k hk
      rw [cook_apply, cookBuffer_cut h k hk]
      rfl
  · intro buf hlen
    rw [cook_apply, cookBuffer_short conv filepath buf (by omega)]
    rfl

theorem cook_reads_unchecked_witness :
    cook ⟨id, id⟩ "a.pmx" false (some (fileNineConfigBytes.take 30)) = none :=
  ((cook_reads_unchecked ⟨id, id⟩ "a.pmx").1 fileNineConfigBytes
    ⟨Exit.done, ⟨[], some [], some [], [], some [], some "a.pmx", some [], some []⟩⟩ 50
    (by decide)).2.2 30 (by decide)

/-! ## The skip of the configuration block -/

theorem drop_agree {buf buf' : List Byte} {k : Nat}
    (h : ∀ i, k ≤ i → buf'.get? i = buf.get? i) : buf'.drop k = buf.drop k := by
  apply List.ext_get?
  intro j
  simp only [List.get?_eq_getElem?, List.getElem?_drop]
  have := h (k + j) (by omega)
  simpa only [List.get?_eq_getElem?] using this

theorem readModel_of_tail {cfg : Config} {buf : List Byte} {k : Nat}
    {m : Option Model} {c : Int}
    (h : readModel cfg (buf.drop k) 0 = some (m, c)) :
    readModel cfg buf k = some (m, c + k) := by
  have hstart := readModel_start h
  rw [List.length_drop] at hstart
  have hk : (buf.take k).length = k := by
    rw [List.length_take]
    omega
  have := (Local.of_readModel cfg).shift (buf.take k) _ _ _ _ h
  rw [List.take_append_drop, hk, zero_add] at this
  exact this

/-- C4 (as stated, false): in `fileBackwardText` the configuration block has 12 bytes and
the model name has the length -8, which takes the cursor from offset 25 back to
offset 17, the block byte 8; the next text field takes its length from the block bytes
8 to 11.  With the value 4 there `cook` runs to its end and stores one texture name;
with the block byte 8 changed to 8, and nothing else, `cook` returns at the check of
the index count. -/
theorem cook_skipped_byte_read :
    byteAt fileBackwardText 8 = 12
    ∧ readText 1 fileBackwardText 21 = some (UT_String.reversed (-8), 17)
    ∧ cook ⟨id, id⟩ "a.pmx" false (some fileBackwardText)
        = some ⟨Exit.done, ⟨[], some [], some [], [], some [], some "a.pmx",
            some [UT_String.chars []], some []⟩⟩
    ∧ cook ⟨id, id⟩ "a.pmx" false (some (fileBackwardText.set 17 8))
        = some ⟨Exit.faceIndexCount, Detail.empty⟩ := by
  decide

/-- C4 (amended): for an accepted header with declared count `n ≥ 8`, the eight
configuration values are the bytes at file offsets 9 to 16 in the order text encoding,
additional-UV count, vertex, texture, material, bone, morph and rigid-body index
stride, and the model is read from file offset `9 + n`, where the first text field
(the model name) starts.  When the bytes from offset `9 + n` on, taken as a buffer of
their own, decode (no text field with a negative length takes the cursor back before
offset `9 + n`), the result of `cook` is the result of that decode, and a buffer that
differs only in bytes at offsets 17 to `9 + n - 1` gives the same result. -/
theorem cook_configuration_block (conv : Conv) (filepath : String) (buf : List Byte)
    (h17 : 17 ≤ buf.length) (hsig : buf.take 4 = pmxSignature)
    (hver : versionAt buf = 0x40000000 ∨ versionAt buf = 0x40066666)
    (hn : 8 ≤ byteAt buf 8) (h20 : versionAt buf = 0x40000000 → byteAt buf 8 = 8) :
    readConfig 9 buf 9
        = some ({ text_encode := byteAt buf 9
                  additional_uv_count := byteAt buf 10
                  vertex_index_stride := byteAt buf 11
                  texture_index_stride := byteAt buf 12
                  material_index_stride := byteAt buf 13
                  bone_index_stride := byteAt buf 14
                  morph_index_stride := byteAt buf 15
                  rigid_index_stride := byteAt buf 16 }, 9)
    ∧ cook conv filepath false (some buf)
        = (readModel (configAt buf) buf (9 + byteAt buf 8)).map
            (fun p => finish conv filepath p.1)
    ∧ (∀ m c, readModel (configAt buf) buf (9 + byteAt buf 8) = some (some m, c) →
        ∃ c1, readText (byteAt buf 9) buf (9 + byteAt buf 8) = some (m.model_name, c1))
    ∧ ((readModel (configAt buf) (buf.drop (9 + byteAt buf 8)) 0).isSome →
        cook conv filepath false (some buf)
          = (readModel (configAt buf) (buf.drop (9 + byteAt buf 8)) 0).map
              (fun p => finish conv filepath p.1)
        ∧ ∀ buf' : List Byte, buf'.length = buf.length →
          (∀ i, i < 17 ∨ 9 + byteAt buf 8 ≤ i → buf'.get? i = buf.get? i) →
          cook conv filepath false (some buf') = cook conv filepath false (some buf)) := by
  refine ⟨readConfig_eq buf 9 h17, cook_accepted h17 hsig hver hn h20, ?_, ?_⟩
  · intro m c h
    exact (readModel_some h).1
  · intro htail
    cases hT : readModel (configAt buf) (buf.drop (9 + byteAt buf 8)) 0 with
    | none => rw [hT] at htail; exact absurd htail (by simp)
    | some p =>
      obtain ⟨m, c⟩ := p
      have hrun := readModel_of_tail hT
      push_cast at hrun
      have hcook : cook conv filepath false (some buf) = some (finish conv filepath m) := by
        rw [cook_accepted h17 hsig hver hn h20, hrun]
        rfl
      refine ⟨by rw [hcook]; rfl, ?_⟩
      intro buf' hlen hag
      have hpre : ∀ j, j < 17 → buf'.get? j = buf.get? j := fun j hj => hag j (Or.inl hj)
      have hb : ∀ i, i + 1 ≤ 17 → byteAt buf' i = byteAt buf i := by
        intro i hi
        unfold byteAt
        rw [slice_agree hpre i 1 hi]
      have hsig' : buf'.take 4 = pmxSignature := by
        rw [← hsig]
        exact slice_agree hpre 0 4 (by omega)
      have hv : versionAt buf' = versionAt buf := by
        unfold versionAt
        rw [slice_agree hpre 4 4 (by omega)]
      have hc : configAt buf' = configAt buf := by
        unfold configAt
        rw [hb 9 (by omega), hb 10 (by omega), hb 11 (by omega), hb 12 (by omega),
          hb 13 (by omega), hb 14 (by omega), hb 15 (by omega), hb 16 (by omega)]
      have h8 := hb 8 (by omega)
      have hdrop : buf'.drop (9 + byteAt buf 8) = buf.drop (9 + byteAt buf 8) :=
        drop_agree (fun i hi => hag i (Or.inr hi))
      have hT' : readModel (configAt buf) (buf'.drop (9 + byteAt buf 8)) 0 = some (m, c) := by
        rw [hdrop]
        exact hT
      have hrun' := readModel_of_tail hT'
      push_cast at hrun'
      rw [hcook, cook_accepted (by omega) hsig' (by rw [hv]; exact hver)
        (by rw [h8]; exact hn) (by rw [hv, h8]; exact h20), hc, h8, hrun']
      rfl

theorem cook_configuration_block_witness :
    cook ⟨id, id⟩ "a.pmx" false (some fileNineConfigBytes)
        = (readModel ⟨1, 0, 1, 1, 1, 1, 1, 1⟩ fileNineConfigBytes 18).map
            (fun p => finish ⟨id, id⟩ "a.pmx" p.1)
    ∧ cook ⟨id, id⟩ "a.pmx" false (some (fileNineConfigBytes.set 17 0x01))
        = cook ⟨id, id⟩ "a.pmx" false (some fileNineConfigBytes) :=
  have h := cook_configuration_block ⟨id, id⟩ "a.pmx" fileNineConfigBytes (by decide)
    (by decide) (Or.inr (by decide)) (by decide) (by decide)
  ⟨h.2.1, (h.2.2.2 (by decide)).2 (fileNineConfigBytes.set 17 0x01) (by decide)
    (fun i hi => by
      simp only [List.get?_eq_getElem?]
      exact List.getElem?_set_ne (by
        have e : byteAt fileNineConfigBytes 8 = 9 := by decide
        rw [e] at hi
        omega))⟩

/-! ## UTF-16 text of odd length -/

theorem utf16Units_append_even :
    ∀ (k : Nat) (a b : List Byte), a.length = 2 * k →
      utf16Units (a ++ b) = utf16Units a ++ utf16Units b
  | 0, a, b, h => by
    have : a = [] := List.length_eq_zero.1 (by omega)
    subst this
    simp [utf16Units]
  | k + 1, a, b, h => by
    match a, h with
    | lo :: hi :: rest, h =>
      have hr : rest.length = 2 * k := by
        simp only [List.length_cons] at h
        omega
      show utf16Units (lo :: hi :: (rest ++ b)) = utf16Units (lo :: hi :: rest) ++ utf16Units b
      simp only [utf16Units]
      rw [utf16Units_append_even k rest b hr]
      rfl

theorem takeWhile_append_stop {α : Type} (p : α → Bool) (z : α) (hz : p z = false) :
    ∀ l r : List α, List.takeWhile p (l ++ z :: r) = List.takeWhile p l
  | [], r => by simp [List.takeWhile, hz]
  | x :: l, r => by
    show List.takeWhile p (x :: (l ++ z :: r)) = List.takeWhile p (x :: l)
    simp only [List.takeWhile_cons]
    rw [takeWhile_append_stop p z hz l r]

theorem readText_utf16_odd_aux (buf : List Byte) (cur : Int) (k : Nat) (h0 : 0 ≤ cur)
    (hn : int32At buf cur = 2 * k + 1) (hlen : cur + 4 + (2 * k + 1) ≤ buf.length) :
    readText 0 buf cur
      = some (UT_String.narrow
          ((utf16Units ((buf.drop (cur.toNat + 4)).take (2 * k))
              ++ [unsignedAt buf (cur + 4 + 2 * k) 1]).takeWhile (fun u => u ≠ 0)),
          cur + 4 + (2 * k + 1)) := by
  have hb : bytesAt buf cur 4 = some ((buf.drop cur.toNat).take 4) :=
    bytesAt_eq_some h0 (by push_cast; omega)
  have hn' : toInt32 (leNat ((buf.drop cur.toNat).take 4)) = 2 * k + 1 := hn
  rw [readText_apply, hb]
  simp only [Option.some_bind, if_true, hn']
  unfold readTextUTF16
  rw [if_neg (by omega)]
  have hcap : (Int.tdiv (2 * (k : Int) + 1 - 1) 2 + 2).toNat = k + 2 := by
    rw [Int.tdiv_eq_ediv (by omega) (by norm_num)]
    omega
  have htn : (2 * (k : Int) + 1).toNat = 2 * k + 1 := by omega
  have hsrc : bytesAt buf (cur + 4) (2 * k + 1)
      = some ((buf.drop (cur.toNat + 4)).take (2 * k + 1)) := by
    rw [bytesAt_eq_some (by omega) (by push_cast; omega)]
    have : (cur + 4).toNat = cur.toNat + 4 := by omega
    rw [this]
  simp only [hcap, htn, hsrc]
  have hl : ((buf.drop (cur.toNat + 4)).take (2 * k + 1)).length = 2 * k + 1 := by
    simp only [List.length_take, List.length_drop]
    omega
  rw [if_pos (by rw [hl]; omega), hl]
  have hrep : 2 * (k + 2) - (2 * k + 1) = 3 := by omega
  rw [hrep]
  -- split the copied bytes into the even part and the last byte
  have hsplit : (buf.drop (cur.toNat + 4)).take (2 * k + 1)
      = (buf.drop (cur.toNat + 4)).take (2 * k)
        ++ (buf.drop (cur.toNat + 4 + 2 * k)).take 1 := by
    rw [List.take_add, List.drop_drop]
  have hl1 : ((buf.drop (cur.toNat + 4 + 2 * k)).take 1).length = 1 := by
    simp only [List.length_take, List.length_drop]
    omega
  obtain ⟨b, hb1⟩ : ∃ b, (buf.drop (cur.toNat + 4 + 2 * k)).take 1 = [b] := by
    match hx : (buf.drop (cur.toNat + 4 + 2 * k)).take 1, hl1 with
    | [b], _ => exact ⟨b, rfl⟩
  have hu : unsignedAt buf (cur + 4 + 2 * k) 1 = b.val := by
    unfold unsignedAt
    have : (cur + 4 + 2 * (k : Int)).toNat = cur.toNat + 4 + 2 * k := by omega
    rw [this, hb1]
    simp [leNat]
  have hle : ((buf.drop (cur.toNat + 4)).take (2 * k)).length = 2 * k := by
    simp only [List.length_take, List.length_drop]
    omega
  rw [hsplit, hb1, hu, List.append_assoc,
    utf16Units_append_even k _ _ hle]
  have hunits : utf16Units ([b] ++ List.replicate 3 (0 : Byte)) = [b.val, 0] := by
    simp [List.replicate, utf16Units]
  rw [hunits]
  have : utf16Units ((buf.drop (cur.toNat + 4)).take (2 * k)) ++ [b.val, 0]
      = (utf16Units ((buf.drop (cur.toNat + 4)).take (2 * k)) ++ [b.val]) ++ 0 :: [] := by
    simp
  rw [this, takeWhile_append_stop _ 0 (by simp)]

/-- C16 (as stated, false): the 3-byte UTF-16 field `41 00 42` hands the two code units
0x41 and 0x42 to the transcoder; the units formed from its first two bytes are
0x41 alone.  The trailing byte is a code unit of its own. -/
theorem readText_utf16_three_bytes :
    readText 0 [3, 0, 0, 0, 0x41, 0x00, 0x42] 0 = some (UT_String.narrow [0x41, 0x42], 7)
    ∧ utf16Units [0x41, 0x00] = [0x41] := by
  decide

/-- C16 (amended): for a text field with encoding 0 and odd byte length `n = 2 k + 1`, all
`n` bytes are copied into the zero-filled scratch array, so the code units handed to
the transcoder are the `k` units formed from the first `2 k` bytes followed by one
unit whose value is the trailing byte, up to the first zero unit (where the
transcoder stops).  The trailing byte gives a unit unless it is 0 or a zero unit
comes before it. -/
theorem readText_utf16_odd (buf : List Byte) (cur : Int) (k : Nat) (h0 : 0 ≤ cur)
    (hn : int32At buf cur = 2 * k + 1) (hlen : cur + 4 + (2 * k + 1) ≤ buf.length) :
    readText 0 buf cur
        = some (UT_String.narrow
            ((utf16Units ((buf.drop (cur.toNat + 4)).take (2 * k))
                ++ [unsignedAt buf (cur + 4 + 2 * k) 1]).takeWhile (fun u => u ≠ 0)),
            cur + 4 + (2 * k + 1))
    ∧ ((∀ u ∈ utf16Units ((buf.drop (cur.toNat + 4)).take (2 * k)), u ≠ 0) →
        unsignedAt buf (cur + 4 + 2 * k) 1 ≠ 0 →
        readText 0 buf cur
          = some (UT_String.narrow
              (utf16Units ((buf.drop (cur.toNat + 4)).take (2 * k))
                ++ [unsignedAt buf (cur + 4 + 2 * k) 1]),
              cur + 4 + (2 * k + 1)))
    ∧ (unsignedAt buf (cur + 4 + 2 * k) 1 = 0 →
        readText 0 buf cur
          = some (UT_String.narrow
              ((utf16Units ((buf.drop (cur.toNat + 4)).take (2 * k))).takeWhile
                (fun u => u ≠ 0)),
              cur + 4 + (2 * k + 1))) := by
  have key := readText_utf16_odd_aux buf cur k h0 hn hlen
  refine ⟨key, ?_, ?_⟩
  · intro hall hlast
    rw [key]
    congr 3
    rw [List.takeWhile_eq_self_iff]
    intro u hu
    rcases List.mem_append.1 hu with h | h
    · simpa using hall u h
    · simp only [List.mem_singleton] at h
      rw [h]
      simpa using hlast
  · intro hzero
    rw [key, hzero]
    congr 3
    have := takeWhile_append_stop (fun u : Nat => decide (u ≠ 0)) 0 (by simp)
      (utf16Units ((buf.drop (cur.toNat + 4)).take (2 * k))) []
    exact this

theorem readText_utf16_odd_witness :
    readText 0 [3, 0, 0, 0, 0x41, 0x00, 0x42] 0
      = some (UT_String.narrow [0x41, 0x42], 7) :=
  (readText_utf16_odd [3, 0, 0, 0, 0x41, 0x00, 0x42] 0 1 (by decide) (by decide)
    (by decide)).1

/-! ## QDEF and BDEF4 -/

theorem readBoneWeightInfo_four {stride : Nat} (hs : stride = 1 ∨ stride = 2 ∨ stride = 4)
    {t : Nat} (ht : t = 2 ∨ t = 4) (buf : List Byte) (cur : Int) (h0 : 0 ≤ cur)
    (htag : unsignedAt buf cur 1 = t)
    (hlen : cur + 1 + (4 * stride + 16) ≤ buf.length) :
    readBoneWeightInfo stride buf cur
      = some (⟨t,
          some (unsignedAt buf (cur + 1) stride, unsignedAt buf (cur + 1 + stride) stride,
            unsignedAt buf (cur + 1 + stride + stride) stride,
            unsignedAt buf (cur + 1 + stride + stride + stride) stride),
          some (unsignedAt buf (cur + 1 + stride + stride + stride + stride) 4,
            unsignedAt buf (cur + 1 + stride + stride + stride + stride + 4) 4,
            unsignedAt buf (cur + 1 + stride + stride + stride + stride + 4 + 4) 4,
            unsignedAt buf (cur + 1 + stride + stride + stride + stride + 4 + 4 + 4) 4),
          none⟩, cur + 1 + stride + stride + stride + stride + 4 + 4 + 4 + 4) := by
  unfold readBoneWeightInfo
  rw [Decoder.bind_apply, read_uint8_at buf cur h0 (by omega), htag]
  rcases ht with rfl | rfl
  all_goals
    simp only [Option.some_bind]
    rw [Decoder.bind_apply, readIndex_at hs buf _ (by omega) (by omega)]
    simp only [Option.some_bind]
    rw [Decoder.bind_apply, readIndex_at hs buf _ (by omega) (by omega)]
    simp only [Option.some_bind]
    rw [Decoder.bind_apply, readIndex_at hs buf _ (by omega) (by omega)]
    simp only [Option.some_bind]
    rw [Decoder.bind_apply, readIndex_at hs buf _ (by omega) (by omega)]
    simp only [Option.some_bind]
    rw [Decoder.bind_apply, read_fpreal32_at buf _ (by omega) (by omega)]
    simp only [Option.some_bind]
    rw [Decoder.bind_apply, read_fpreal32_at buf _ (by omega) (by omega)]
    simp only [Option.some_bind]
    rw [Decoder.bind_apply, read_fpreal32_at buf _ (by omega) (by omega)]
    simp only [Option.some_bind]
    rw [Decoder.bind_apply, read_fpreal32_at buf _ (by omega) (by omega)]
    rfl

theorem readBoneWeightInfo_short {stride : Nat}
    (hs : stride = 1 ∨ stride = 2 ∨ stride = 4) (buf : List Byte) (cur : Int)
    (hlen : (buf.length : Int) < cur + 1 + skinLength stride (unsignedAt buf cur 1)) :
    readBoneWeightInfo stride buf cur = none := by
  cases h : readBoneWeightInfo stride buf cur with
  | none => rfl
  | some p =>
    exfalso
    obtain ⟨bw, c⟩ := p
    obtain ⟨h0, htag, hc, _⟩ := readBoneWeightInfo_some hs h
    have hcur : cur ≤ buf.length := by
      unfold readBoneWeightInfo at h
      obtain ⟨d, c0, hd, _⟩ := Decoder.bind_eq_some.1 h
      rw [read_uint8_apply] at hd
      cases hb : bytesAt buf cur 1 with
      | none => rw [hb] at hd; exact absurd hd (by simp)
      | some bs =>
        obtain ⟨⟨_, hl⟩, _⟩ := bytesAt_some_iff.1 hb
        omega
    have := (Local.of_readBoneWeightInfo stride).inside _ _ _ _ h hcur
    rw [htag] at hc
    omega

theorem unsignedAt_after (pre rest : List Byte) (t : Byte) (p : Int) (j n : Nat)
    (hp : p = pre.length + 1 + j) :
    unsignedAt (pre ++ t :: rest) p n = leNat ((rest.drop j).take n) := by
  unfold unsignedAt
  have e : p.toNat = pre.length + (j + 1) := by omega
  rw [e, List.drop_append]
  rfl

theorem unsignedAt_tag (pre rest : List Byte) (t : Byte) :
    unsignedAt (pre ++ t :: rest) pre.length 1 = t.val := by
  unfold unsignedAt
  rw [Int.toNat_ofNat, List.drop_left]
  simp [leNat]

/-- C17: for a bone stride of 1, 2 or 4 and every byte sequence `rest` after the tag byte,
the deform types 4 (QDEF) and 2 (BDEF4) decode to the same four bone indices, the
same four weights (the stored patterns, unchanged) and the same end of the record,
`4 * stride + 16` bytes after the tag; the results differ in the tag only.  When
`rest` is shorter than that, both read outside the buffer. -/
theorem readBoneWeightInfo_qdef_bdef4 (stride : Nat)
    (hs : stride = 1 ∨ stride = 2 ∨ stride = 4) (pre rest : List Byte) :
    (4 * stride + 16 ≤ rest.length →
      readBoneWeightInfo stride (pre ++ 2 :: rest) pre.length
        = some (BoneWeightInfo.mk 2
            (some (leNat (rest.take stride), leNat ((rest.drop stride).take stride),
              leNat ((rest.drop (2 * stride)).take stride),
              leNat ((rest.drop (3 * stride)).take stride)))
            (some (leNat ((rest.drop (4 * stride)).take 4),
              leNat ((rest.drop (4 * stride + 4)).take 4),
              leNat ((rest.drop (4 * stride + 8)).take 4),
              leNat ((rest.drop (4 * stride + 12)).take 4)))
            none, (pre.length : Int) + 1 + ((4 * stride + 16 : Nat) : Int))
      ∧ readBoneWeightInfo stride (pre ++ 4 :: rest) pre.length
        = some (BoneWeightInfo.mk 4
            (some (leNat (rest.take stride), leNat ((rest.drop stride).take stride),
              leNat ((rest.drop (2 * stride)).take stride),
              leNat ((rest.drop (3 * stride)).take stride)))
            (some (leNat ((rest.drop (4 * stride)).take 4),
              leNat ((rest.drop (4 * stride + 4)).take 4),
              leNat ((rest.drop (4 * stride + 8)).take 4),
              leNat ((rest.drop (4 * stride + 12)).take 4)))
            none, (pre.length : Int) + 1 + ((4 * stride + 16 : Nat) : Int)))
    ∧ (rest.length < 4 * stride + 16 →
      readBoneWeightInfo stride (pre ++ 2 :: rest) pre.length = none
      ∧ readBoneWeightInfo stride (pre ++ 4 :: rest) pre.length = none) := by
  have hlenb : ∀ t : Byte, (pre ++ t :: rest).length = pre.length + 1 + rest.length := by
    intro t
    simp only [List.length_append, List.length_cons]
    omega
  have main : ∀ (t : Byte), (t.val = 2 ∨ t.val = 4) → 4 * stride + 16 ≤ rest.length →
      readBoneWeightInfo stride (pre ++ t :: rest) pre.length
        = some (BoneWeightInfo.mk t.val
            (some (leNat (rest.take stride), leNat ((rest.drop stride).take stride),
              leNat ((rest.drop (2 * stride)).take stride),
              leNat ((rest.drop (3 * stride)).take stride)))
            (some (leNat ((rest.drop (4 * stride)).take 4),
              leNat ((rest.drop (4 * stride + 4)).take 4),
              leNat ((rest.drop (4 * stride + 8)).take 4),
              leNat ((rest.drop (4 * stride + 12)).take 4)))
            none, (pre.length : Int) + 1 + ((4 * stride + 16 : Nat) : Int)) := by
    intro t ht hlen
    rw [readBoneWeightInfo_four hs ht _ _ (by omega) (unsignedAt_tag pre rest t)
      (by rw [hlenb]; push_cast; omega)]
    rw [unsignedAt_after pre rest t _ 0 _ (by push_cast; omega),
      unsignedAt_after pre rest t _ stride _ (by omega),
      unsignedAt_after pre rest t _ (2 * stride) _ (by push_cast; omega),
      unsignedAt_after pre rest t _ (3 * stride) _ (by push_cast; omega),
      unsignedAt_after pre rest t _ (4 * stride) _ (by push_cast; omega),
      unsignedAt_after pre rest t _ (4 * stride + 4) _ (by push_cast; omega),
      unsignedAt_after pre rest t _ (4 * stride + 8) _ (by push_cast; omega),
      unsignedAt_after pre rest t _ (4 * stride + 12) _ (by push_cast; omega)]
    simp only [List.drop_zero]
    congr 2
    push_cast
    omega
  have short : ∀ (t : Byte), (t.val = 2 ∨ t.val = 4) → rest.length < 4 * stride + 16 →
      readBoneWeightInfo stride (pre ++ t :: rest) pre.length = none := by
    intro t ht hlen
    apply readBoneWeightInfo_short hs
    rw [unsignedAt_tag, hlenb]
    have : skinLength stride t.val = 4 * stride + 16 := by
      rcases ht with h | h <;> rw [h] <;> rfl
    rw [this]
    push_cast
    omega
  exact ⟨fun h => ⟨main 2 (Or.inl rfl) h, main 4 (Or.inr rfl) h⟩,
    fun h => ⟨short 2 (Or.inl rfl) h, short 4 (Or.inr rfl) h⟩⟩

theorem readBoneWeightInfo_qdef_bdef4_witness :
    readBoneWeightInfo 1 ([9] ++ 2 :: [1, 2, 3, 4, 0, 0, 0x80, 0x3F, 0, 0, 0, 0x3F,
        0, 0, 0, 0, 0, 0, 0, 0, 7]) 1
      = some (⟨2, some (1, 2, 3, 4), some (0x3F800000, 0x3F000000, 0, 0), none⟩, 22)
    ∧ readBoneWeightInfo 1 ([9] ++ 4 :: [1, 2, 3, 4, 0, 0, 0x80, 0x3F, 0, 0, 0, 0x3F,
        0, 0, 0, 0, 0, 0, 0, 0, 7]) 1
      = some (⟨4, some (1, 2, 3, 4), some (0x3F800000, 0x3F000000, 0, 0), none⟩, 22) :=
  (readBoneWeightInfo_qdef_bdef4 1 (Or.inl rfl) [9]
    [1, 2, 3, 4, 0, 0, 0x80, 0x3F, 0, 0, 0, 0x3F, 0, 0, 0, 0, 0, 0, 0, 0, 7]).1 (by decide)

/-! ## The material index of each triangle -/

theorem ceilThird_step (c : Int) (h : 0 < c) : ceilThird c = ceilThird (c - 3) + 1 := by
  unfold ceilThird
  rw [if_pos h]
  split <;> omega

theorem ceilThird_nonpos (c : Int) (h : c ≤ 0) : ceilThird c = 0 := by
  unfold ceilThird
  rw [if_neg (by omega)]

theorem matIndexLoop_eq (j c : Int) : ∀ (fuel : Nat) (i : Int), c - i ≤ 3 * fuel →
    matIndexLoop j c fuel i = List.replicate (ceilThird (c - i)) j := by
  intro fuel
  induction fuel with
  | zero =>
    intro i h
    rw [ceilThird_nonpos _ (by omega)]
    rfl
  | succ n ih =>
    intro i h
    unfold matIndexLoop
    split
    · rename_i hlt
      rw [ih (i + 3) (by push_cast at h; omega), ceilThird_step (c - i) (by omega)]
      have e : c - i - 3 = c - (i + 3) := by omega
      rw [e]
      rfl
    · rename_i hge
      rw [ceilThird_nonpos _ (by omega)]
      rfl

theorem matIndexLoop_run (j c : Int) :
    matIndexLoop j c c.toNat 0 = List.replicate (ceilThird c) j := by
  have h := matIndexLoop_eq j c c.toNat 0 (by omega)
  rw [h]
  simp

theorem setMatIndex_cons (j0 c : Int) (rest : List Int) :
    setMatIndex j0 (c :: rest) = List.replicate (ceilThird c) j0 ++ setMatIndex (j0 + 1) rest := by
  rw [setMatIndex, matIndexLoop_run]

theorem setMatIndex_eq : ∀ (cs : List Int) (j0 : Int), setMatIndex j0 cs
    = (List.range cs.length).flatMap
        (fun j => List.replicate (ceilThird (cs.getD j 0)) (j0 + (j : Int))) := by
  intro cs
  induction cs with
  | nil => intro j0; rfl
  | cons c rest ih =>
    intro j0
    rw [setMatIndex_cons, ih]
    rw [List.length_cons, List.range_succ_eq_map, List.flatMap_cons, List.flatMap_map]
    simp only [List.getD_cons_zero, Nat.cast_zero, add_zero, List.getD_cons_succ]
    congr 2
    funext j
    congr 1
    push_cast
    omega

theorem setMatIndex_mem : ∀ (cs : List Int) (j0 v : Int), v ∈ setMatIndex j0 cs →
    j0 ≤ v ∧ v < j0 + cs.length := by
  intro cs
  induction cs with
  | nil => intro j0 v h; simp [setMatIndex] at h
  | cons c rest ih =>
    intro j0 v h
    rw [setMatIndex_cons, List.mem_append] at h
    rw [List.length_cons]
    push_cast
    rcases h with h | h
    · have := (List.mem_replicate.1 h).2
      omega
    · have := ih _ _ h
      omega

theorem setMatIndex_pairwise : ∀ (cs : List Int) (j0 : Int),
    List.Pairwise (fun a b => a ≤ b) (setMatIndex j0 cs) := by
  intro cs
  induction cs with
  | nil => intro j0; simp [setMatIndex]
  | cons c rest ih =>
    intro j0
    rw [setMatIndex_cons, List.pairwise_append]
    refine ⟨?_, ih _, ?_⟩
    · rw [List.pairwise_replicate]
      exact Or.inr (le_refl _)
    · intro a ha b hb
      have := (List.mem_replicate.1 ha).2
      have := setMatIndex_mem _ _ _ hb
      omega

theorem ceilThird_multiple (c : Int) (h : 0 ≤ c ∧ 3 ∣ c) : ((ceilThird c : Nat) : Int) * 3 = c := by
  unfold ceilThird
  split <;> omega

theorem setMatIndex_length : ∀ (cs : List Int) (j0 : Int), (∀ c ∈ cs, 0 ≤ c ∧ 3 ∣ c) →
    ((setMatIndex j0 cs).length : Int) * 3 = cs.sum := by
  intro cs
  induction cs with
  | nil => intro j0 _; simp [setMatIndex]
  | cons c rest ih =>
    intro j0 h
    rw [setMatIndex_cons, List.length_append, List.length_replicate, List.sum_cons]
    have h1 := ceilThird_multiple c (h c (List.mem_cons_self _ _))
    have h2 := ih (j0 + 1) (fun x hx => h x (List.mem_cons_of_mem _ hx))
    push_cast
    omega

theorem sum_take_nonneg : ∀ (cs : List Int) (j : Nat), (∀ c ∈ cs, 0 ≤ c ∧ 3 ∣ c) →
    0 ≤ (cs.take j).sum := by
  intro cs j h
  apply List.sum_nonneg
  intro x hx
  exact (h x (List.mem_of_mem_take hx)).1

theorem setMatIndex_get : ∀ (cs : List Int) (j0 : Int), (∀ c ∈ cs, 0 ≤ c ∧ 3 ∣ c) →
    ∀ (t j : Nat), (setMatIndex j0 cs).get? t = some (j0 + j)
      ↔ (cs.take j).sum ≤ 3 * (t : Int) ∧ 3 * (t : Int) < (cs.take (j + 1)).sum := by
  intro cs
  induction cs with
  | nil =>
    intro j0 _ t j
    simp [setMatIndex]
  | cons c rest ih =>
    intro j0 h t j
    have hc := h c (List.mem_cons_self _ _)
    have hrest : ∀ x ∈ rest, 0 ≤ x ∧ 3 ∣ x := fun x hx => h x (List.mem_cons_of_mem _ hx)
    have hm := ceilThird_multiple c hc
    rw [setMatIndex_cons, List.get?_eq_getElem?]
    by_cases ht : t < ceilThird c
    · rw [List.getElem?_append_left (by rw [List.length_replicate]; exact ht),
        List.getElem?_replicate, if_pos ht]
      cases j with
      | zero =>
        simp only [Nat.cast_zero, add_zero, List.take_zero, List.sum_nil, zero_add,
          List.take_succ_cons, List.sum_cons, true_iff]
        omega
      | succ j =>
        have := sum_take_nonneg rest j hrest
        simp only [List.take_succ_cons, List.sum_cons, Option.some.injEq]
        push_cast
        omega
    · rw [List.getElem?_append_right (by rw [List.length_replicate]; omega),
        List.length_replicate]
      cases j with
      | zero =>
        simp only [Nat.cast_zero, add_zero, List.take_zero, List.sum_nil, zero_add,
          List.take_succ_cons, List.sum_cons]
        constructor
        · intro hget
          have := setMatIndex_mem _ _ _ (List.getElem?_mem hget)
          omega
        · intro hlt
          omega
      | succ j =>
        have e : j0 + ((j + 1 : Nat) : Int) = j0 + 1 + (j : Int) := by push_cast; omega
        rw [e, ← List.get?_eq_getElem?, ih (j0 + 1) hrest (t - ceilThird c) j]
        simp only [List.take_succ_cons, List.sum_cons]
        have : ((t - ceilThird c : Nat) : Int) = (t : Int) - (ceilThird c : Int) := by omega
        rw [this]
        omega

/-- C18: when `cook` runs to its end the attribute `mat_index` holds the values that the
loop `set mat_index` sets at consecutive triangle slots from slot 0 on; these are the
material numbers in file order, material `j` repeated `c_j / 3` rounded up times when
its index count `c_j` is positive and not at all otherwise, so the sequence never
decreases.  When every index count is a non-negative multiple of 3 and the counts add up
to `index_count`, exactly `index_count / 3` slots are set and triangle `t` gets material
`j` exactly when `c_0 + ... + c_(j-1) ≤ 3 t < c_0 + ... + c_j`. -/
theorem setMatIndex_expansion (cs : List Int) :
    (∀ (conv : Conv) (filepath : String) (m : Model),
      (assemble conv filepath m).exit = Exit.done →
      (assemble conv filepath m).detail.mat_index
        = some (setMatIndex 0 m.mat_index_count_array))
    ∧ (∀ c : Int, (0 < c → 3 * (ceilThird c : Int) - 3 < c ∧ c ≤ 3 * (ceilThird c : Int))
        ∧ (c ≤ 0 → ceilThird c = 0))
    ∧ setMatIndex 0 cs
        = (List.range cs.length).flatMap
            (fun j => List.replicate (ceilThird (cs.getD j 0)) (j : Int))
    ∧ List.Pairwise (fun a b => a ≤ b) (setMatIndex 0 cs)
    ∧ ((∀ c ∈ cs, 0 ≤ c ∧ 3 ∣ c) → ∀ index_count : Int, cs.sum = index_count →
        ((setMatIndex 0 cs).length : Int) = index_count / 3
        ∧ ∀ t j : Nat, (setMatIndex 0 cs).get? t = some (j : Int)
            ↔ (cs.take j).sum ≤ 3 * (t : Int) ∧ 3 * (t : Int) < (cs.take (j + 1)).sum) := by
  refine ⟨?_, ?_, ?_, setMatIndex_pairwise cs 0, ?_⟩
  · intro conv filepath m
    unfold assemble
    simp only
    split
    · intro h; exact absurd h (by simp)
    · intro _; rfl
  · intro c
    refine ⟨fun h => ?_, ceilThird_nonpos c⟩
    unfold ceilThird
    rw [if_pos h]
    omega
  · rw [setMatIndex_eq]
    simp only [zero_add]
  · intro h index_count hsum
    have hl := setMatIndex_length cs 0 h
    refine ⟨by omega, ?_⟩
    intro t j
    have := setMatIndex_get cs 0 h t j
    rw [zero_add] at this
    exact this

theorem setMatIndex_expansion_witness :
    ((setMatIndex 0 [3, 0, 6]).length : Int) = 9 / 3
      ∧ (setMatIndex 0 [3, 0, 6]).get? 1 = some 2
      ∧ (setMatIndex 0 [3, 0, 6]).get? 0 = some 0 :=
  have h := (setMatIndex_expansion [3, 0, 6]).2.2.2.2 (by decide) 9 (by decide)
  ⟨h.1, (h.2 1 2).2 (by decide), (h.2 0 0).2 (by decide)⟩

/-! ## The direction of the cursor -/

/-- C19, counterexample: with the length field -8 at offset 8, the first lines of
`readText` (the read of the length and `momory = memoryOffset(momory, byte_size)`) leave
the cursor at offset 4, before the offset 8 where the step began. -/
theorem readTextRange_moves_backward :
    readTextRange fileNegativeLength 8 = some ((-8, 12, 4), 4)
    ∧ ¬ ∀ (buf : List Byte) (cur : Int) (r : Int × Int × Int) (c : Int),
        readTextRange buf cur = some (r, c) → cur ≤ c := by
  have h : readTextRange fileNegativeLength 8 = some ((-8, 12, 4), 4) := by decide
  refine ⟨h, fun hall => ?_⟩
  have := hall _ _ _ _ h
  omega

/-- C19, amended: a fixed-size read leaves the cursor where it was or `size` bytes
further, `readIndex` never moves it backward, and the skip of the configuration block
moves it `info_count` bytes forward from the start of the block.  The first lines of
`readText` leave the cursor `4 + n` bytes from where it was, `n` being the signed 32-bit
length field: at or after the start exactly when `-4 ≤ n`.  A `readText` that returns has
left the cursor there. -/
theorem cursor_direction :
    (∀ (size : Nat) (advance : Bool) (buf : List Byte) (cur c : Int) (bs : List Byte),
      read size advance buf cur = some (bs, c) →
      c = (if advance then cur + size else cur) ∧ cur ≤ c)
    ∧ (∀ (stride : Nat) (buf : List Byte) (cur c v : Int),
      readIndex stride buf cur = some (v, c) → cur ≤ c)
    ∧ (∀ (info_count : Nat) (buf : List Byte) (current cur : Int),
      Decoder.setCursor (memoryOffset current info_count) buf cur
          = some ((), current + info_count)
        ∧ current ≤ current + info_count)
    ∧ (∀ (buf : List Byte) (cur c : Int) (r : Int × Int × Int),
      readTextRange buf cur = some (r, c) →
      r.1 = int32At buf cur ∧ c = cur + 4 + int32At buf cur
        ∧ (cur ≤ c ↔ -4 ≤ int32At buf cur))
    ∧ (∀ (encode : Nat) (buf : List Byte) (cur c : Int) (s : UT_String),
      readText encode buf cur = some (s, c) → c = cur + 4 + int32At buf cur) := by
  refine ⟨?_, ?_, ?_, ?_, ?_⟩
  · intro size advance buf cur c bs h
    unfold read at h
    cases hb : bytesAt buf cur size with
    | none => rw [hb] at h; exact absurd h (by simp)
    | some bs' =>
      rw [hb] at h
      simp only [Option.some.injEq, Prod.mk.injEq] at h
      refine ⟨h.2.symm, ?_⟩
      rw [← h.2]
      split <;> omega
  · intro stride buf cur c v h
    exact (Forward.readIndex stride).mono _ _ _ _ h
  · intro info_count buf current cur
    exact ⟨rfl, by omega⟩
  · intro buf cur c r h
    rw [readTextRange_apply] at h
    cases hb : bytesAt buf cur 4 with
    | none => rw [hb] at h; exact absurd h (by simp)
    | some bs =>
      obtain ⟨_, rfl⟩ := bytesAt_some_iff.1 hb
      rw [hb] at h
      simp only [Option.map_some', Option.some.injEq, Prod.mk.injEq] at h
      obtain ⟨rfl, rfl⟩ := h
      refine ⟨rfl, rfl, ?_⟩
      unfold int32At
      omega
  · intro encode buf cur c s h
    exact (readText_some h).1

theorem cursor_direction_witness :
    (5 : Int) = 0 + 4 + int32At [1, 0, 0, 0, 0x61] 0
      ∧ ((8 : Int) ≤ 4 ↔ -4 ≤ int32At fileNegativeLength 8) :=
  ⟨cursor_direction.2.2.2.2 1 [1, 0, 0, 0, 0x61] 0 5 (UT_String.chars [0x61]) (by decide),
    (cursor_direction.2.2.2.1 fileNegativeLength 8 4 (-8, 12, 4) (by decide)).2.2⟩

/-! ## The scratch array of the UTF-16 branch -/

theorem F32.pack_unpack (x : Nat) (h : x < 2 ^ 32) :
    F32.pack (F32.sign x) (F32.expo x) (F32.frac x) = x := by
  unfold F32.pack F32.sign F32.expo F32.frac
  change @Eq Nat _ _
  by_cases hs : x / 2 ^ 31 % 2 = 1
  · simp only [hs, decide_True, if_true]
    omega
  · simp only [hs, decide_False, Bool.false_eq_true, if_false]
    omega

theorem F32.neg_eq (x : Nat) (h : x < 2 ^ 32) :
    F32.neg x = F32.pack (!F32.sign x) (F32.expo x) (F32.frac x) := by
  unfold F32.neg F32.pack F32.sign F32.expo F32.frac
  change @Eq Nat _ _
  by_cases hs : x / 2 ^ 31 % 2 = 1
  · simp only [hs, decide_True, if_true, Bool.not_true, Bool.false_eq_true, if_false]
    omega
  · simp only [hs, decide_False, Bool.false_eq_true, if_false, Bool.not_false, if_true]
    omega

theorem F32.bitLength_spec : ∀ (fuel n : Nat), n < 2 ^ fuel → 0 < n →
    2 ^ (F32.bitLength fuel n - 1) ≤ n ∧ n < 2 ^ F32.bitLength fuel n
  | 0, n, h, h0 => by
    simp only [pow_zero] at h
    omega
  | fuel + 1, n, h, h0 => by
    unfold F32.bitLength
    rw [if_neg (by omega)]
    by_cases h2 : n / 2 = 0
    · have hz : F32.bitLength fuel (n / 2) = 0 := by
        rw [h2]
        cases fuel <;> simp [F32.bitLength]
      rw [hz]
      simp only [zero_add, Nat.sub_self, pow_zero, pow_one]
      omega
    · have hlt : n / 2 < 2 ^ fuel := by
        rw [pow_succ] at h
        omega
      obtain ⟨l1, l2⟩ := F32.bitLength_spec fuel (n / 2) hlt (by omega)
      have hb : 0 < F32.bitLength fuel (n / 2) := by
        by_contra hb
        have : F32.bitLength fuel (n / 2) = 0 := by omega
        rw [this] at l2
        simp only [pow_zero] at l2
        omega
      have e : 2 ^ F32.bitLength fuel (n / 2)
          = 2 * 2 ^ (F32.bitLength fuel (n / 2) - 1) := by
        rw [← pow_succ']
        congr 1
        omega
      rw [Nat.add_sub_cancel, pow_succ]
      constructor
      · rw [e]
        omega
      · omega

theorem F32.bitLength_le (fuel n L : Nat) (h0 : 0 < n) (h : n < 2 ^ L) (hL : L ≤ fuel) :
    F32.bitLength fuel n ≤ L := by
  have hn : n < 2 ^ fuel := lt_of_lt_of_le h (Nat.pow_le_pow_right (by decide) hL)
  obtain ⟨l1, _⟩ := F32.bitLength_spec fuel n hn h0
  by_contra hc
  have : L ≤ F32.bitLength fuel n - 1 := by omega
  have : 2 ^ L ≤ 2 ^ (F32.bitLength fuel n - 1) := Nat.pow_le_pow_right (by decide) this
  omega

theorem F32.bitLength_ge (fuel n L M : Nat) (h : 2 ^ L ≤ n) (hM : n < 2 ^ M)
    (hf : M ≤ fuel) : L + 1 ≤ F32.bitLength fuel n := by
  have hn : n < 2 ^ fuel := lt_of_lt_of_le hM (Nat.pow_le_pow_right (by decide) hf)
  have h0 : 0 < n := lt_of_lt_of_le (by positivity) h
  obtain ⟨_, l2⟩ := F32.bitLength_spec fuel n hn h0
  by_contra hc
  have : F32.bitLength fuel n ≤ L := by omega
  have : 2 ^ F32.bitLength fuel n ≤ 2 ^ L := Nat.pow_le_pow_right (by decide) this
  omega

theorem F32.roundZ_exact (s : Bool) (m q : Nat) (h0 : 0 < m) (h24 : m < 2 ^ 24)
    (hq : 1 ≤ q) (hq2 : q < 255) (hnorm : 2 ^ 23 ≤ m ∨ q = 1) :
    F32.roundZ s (m * 2 ^ 23) ((q : Int) - 23)
      = if m < 2 ^ 23 then F32.pack s 0 m else F32.pack s q (m - 2 ^ 23) := by
  have hle : F32.bitLength 512 (m * 2 ^ 23) ≤ 47 :=
    F32.bitLength_le 512 _ 47 (by positivity) (by omega) (by decide)
  have hsh : max ((F32.bitLength 512 (m * 2 ^ 23) : Int) - 24) (1 - ((q : Int) - 23)) = 23 := by
    rcases hnorm with h | h
    · have := F32.bitLength_ge 512 (m * 2 ^ 23) 46 47 (by omega) (by omega) (by decide)
      omega
    · omega
  have e1 : m * 2 ^ 23 / 2 ^ 23 = m := Nat.mul_div_cancel _ (by positivity)
  have e2 : m * 2 ^ 23 % 2 ^ 23 = 0 := Nat.mul_mod_left _ _
  have e3 : ((q : Int) - 23 + 23).toNat = q := by omega
  unfold F32.roundZ
  simp only [hsh]
  rw [if_neg (by decide)]
  have e4 : (23 : Int).toNat = 23 := rfl
  simp only [e4, e1, e2, e3]
  have c1 : ¬ (0 > 2 ^ (23 - 1) ∨ 0 = 2 ^ (23 - 1) ∧ m % 2 = 1) := by
    intro h
    rcases h with h | h
    · exact absurd h (by decide)
    · exact absurd h.1 (by decide)
  have c2 : ¬ m = 2 ^ 24 := by omega
  simp only [c1, c2, if_false]
  split
  · rfl
  · rw [if_neg (by omega)]

theorem F32.mul_unit (x : Nat) (u : F32) (hx : F32.isNaN x = false)
    (hu1 : F32.expo u = 127) (hu2 : F32.frac u = 0) :
    F32.mul x u = F32.pack (xor (F32.sign x) (F32.sign u)) (F32.expo x) (F32.frac x) := by
  have hun : F32.isNaN u = false := by simp [F32.isNaN, hu1]
  have hui : F32.isInf u = false := by simp [F32.isInf, hu1]
  have hum : F32.mant u = 2 ^ 23 := by simp [F32.mant, hu1, hu2]
  have hus : F32.scale u = 127 := by simp [F32.scale, hu1]
  have hf : F32.frac x < 2 ^ 23 := Nat.mod_lt _ (by positivity)
  have he : F32.expo x < 256 := Nat.mod_lt _ (by decide)
  unfold F32.mul
  rw [hx, hun, if_neg (by decide), if_neg (by decide), hui, hum, hus]
  by_cases hinf : F32.isInf x = true
  · have h255 : F32.expo x = 255 ∧ F32.frac x = 0 := by
      simpa [F32.isInf] using hinf
    have hm : F32.mant x ≠ 0 := by simp [F32.mant, h255.1]
    rw [if_pos (Or.inl hinf), if_neg (by simp [hm]), h255.1, h255.2]
  · rw [if_neg (by simp [hinf])]
    by_cases hz : F32.mant x = 0
    · have h00 : F32.expo x = 0 ∧ F32.frac x = 0 := by
        unfold F32.mant at hz
        split at hz
        · rename_i h
          exact ⟨h, hz⟩
        · omega
      rw [if_pos (Or.inl hz), h00.1, h00.2]
    · rw [if_neg (by simp [hz])]
      have hq : ((F32.scale x : Int) + (127 : Nat) - 150) = (F32.scale x : Int) - 23 := by
        omega
      rw [hq]
      have h255 : F32.expo x ≠ 255 := by
        intro h
        by_cases hfz : F32.frac x = 0
        · exact hinf (by simp [F32.isInf, h, hfz])
        · have : F32.isNaN x = true := by simp [F32.isNaN, h, hfz]
          rw [hx] at this
          exact absurd this (by decide)
      by_cases h0 : F32.expo x = 0
      · have hmx : F32.mant x = F32.frac x := by simp [F32.mant, h0]
        have hsx : F32.scale x = 1 := by simp [F32.scale, h0]
        rw [hmx, hsx, F32.roundZ_exact _ _ 1 (by rw [hmx] at hz; omega) (by omega)
          (by decide) (by decide) (Or.inr rfl), if_pos hf, h0]
      · have hmx : F32.mant x = 2 ^ 23 + F32.frac x := by simp [F32.mant, h0]
        have hsx : F32.scale x = F32.expo x := by simp [F32.scale, h0]
        rw [hmx, hsx, F32.roundZ_exact _ _ (F32.expo x) (by omega) (by omega)
          (by omega) (by omega) (Or.inl (by omega)), if_neg (by omega)]
        have e : 2 ^ 23 + F32.frac x - 2 ^ 23 = F32.frac x := by omega
        rw [e]

theorem F32.mul_comm_of_not_nan (a b : F32) (ha : F32.isNaN a = false)
    (hb : F32.isNaN b = false) : F32.mul a b = F32.mul b a := by
  unfold F32.mul
  rw [ha, hb]
  simp only [Bool.false_eq_true, if_false]
  rw [Bool.xor_comm (F32.sign b) (F32.sign a), Nat.mul_comm (F32.mant b) (F32.mant a),
    add_comm (F32.scale b : Int) (F32.scale a : Int)]
  have o1 : (F32.isInf b = true ∨ F32.isInf a = true)
      = (F32.isInf a = true ∨ F32.isInf b = true) := propext or_comm
  have o2 : (F32.mant b = 0 ∨ F32.mant a = 0) = (F32.mant a = 0 ∨ F32.mant b = 0) :=
    propext or_comm
  simp only [o1, o2]

/-! ## The sign of a product -/

theorem F32.lt_pow_bitLength (fuel n M : Nat) (hM : n < 2 ^ M) (hf : M ≤ fuel) :
    n < 2 ^ F32.bitLength fuel n := by
  by_cases h0 : n = 0
  · rw [h0]
    positivity
  · have hn : n < 2 ^ fuel := lt_of_lt_of_le hM (Nat.pow_le_pow_right (by decide) hf)
    exact (F32.bitLength_spec fuel n hn (by omega)).2

theorem F32.round_true (n q : Nat) :
    F32.round true n q = 2 ^ 31 + F32.round false n q := by
  unfold F32.round F32.pack
  simp only [if_true, Bool.false_eq_true, if_false]
  split_ifs <;> ring

theorem F32.roundZ_true (n : Nat) (q : Int) :
    F32.roundZ true n q = 2 ^ 31 + F32.roundZ false n q := by
  unfold F32.roundZ
  simp only [F32.round_true]
  unfold F32.pack
  simp only [if_true, Bool.false_eq_true, if_false]
  split_ifs <;> ring

theorem F32.round_lt (n q : Nat) (hn : n < 2 ^ 48) : F32.round false n q < 2 ^ 31 := by
  have hspec := F32.lt_pow_bitLength 512 n 48 hn (by decide)
  have hA : F32.bitLength 512 n ≤ 24 →
      n * 2 ^ min (24 - F32.bitLength 512 n) (q - 1) < 2 ^ 24 := by
    intro hl
    have h1 : 2 ^ min (24 - F32.bitLength 512 n) (q - 1) ≤ 2 ^ (24 - F32.bitLength 512 n) :=
      Nat.pow_le_pow_right (by decide) (Nat.min_le_left _ _)
    have h2 : 2 ^ F32.bitLength 512 n * 2 ^ (24 - F32.bitLength 512 n) = 2 ^ 24 := by
      rw [← pow_add]
      congr 1
      omega
    calc n * 2 ^ min (24 - F32.bitLength 512 n) (q - 1)
        ≤ n * 2 ^ (24 - F32.bitLength 512 n) := Nat.mul_le_mul_left _ h1
      _ < 2 ^ F32.bitLength 512 n * 2 ^ (24 - F32.bitLength 512 n) :=
          Nat.mul_lt_mul_of_pos_right hspec (by positivity)
      _ = 2 ^ 24 := h2
  have hB : ¬ F32.bitLength 512 n ≤ 24 → n / 2 ^ (F32.bitLength 512 n - 24) < 2 ^ 24 := by
    intro hl
    apply Nat.div_lt_of_lt_mul
    rw [← pow_add]
    have e : F32.bitLength 512 n - 24 + 24 = F32.bitLength 512 n := by omega
    rw [e]
    exact hspec
  unfold F32.round F32.pack
  simp only [Bool.false_eq_true, if_false]
  change @LT.lt Nat _ _ _
  split_ifs <;> (try dsimp only at *) <;> omega

theorem F32.roundZ_lt (n : Nat) (q : Int) (hn : n < 2 ^ 48) :
    F32.roundZ false n q < 2 ^ 31 := by
  have hspec := F32.lt_pow_bitLength 512 n 48 hn (by decide)
  have hr := F32.round_lt n q.toNat hn
  have hC : ¬ max ((F32.bitLength 512 n : Int) - 24) (1 - q) ≤ 0 →
      n / 2 ^ (max ((F32.bitLength 512 n : Int) - 24) (1 - q)).toNat < 2 ^ 24 := by
    intro hl
    apply Nat.div_lt_of_lt_mul
    rw [← pow_add]
    have e : F32.bitLength 512 n
        ≤ (max ((F32.bitLength 512 n : Int) - 24) (1 - q)).toNat + 24 := by omega
    exact lt_of_lt_of_le hspec (Nat.pow_le_pow_right (by decide) e)
  unfold F32.roundZ F32.pack
  simp only [Bool.false_eq_true, if_false]
  unfold F32 at *
  split_ifs <;> (try dsimp only at *) <;> omega

theorem F32.neg_fields (s : Nat) (h : s < 2 ^ 32) :
    F32.sign (F32.neg s) = !F32.sign s ∧ F32.expo (F32.neg s) = F32.expo s
      ∧ F32.frac (F32.neg s) = F32.frac s := by
  unfold F32.neg F32.sign F32.expo F32.frac
  unfold F32 at *
  by_cases hs : s / 2 ^ 31 % 2 = 1
  · simp only [hs, decide_True, if_true, Bool.not_true, decide_eq_false_iff_not]
    omega
  · simp only [hs, decide_False, Bool.false_eq_true, if_false, Bool.not_false,
      decide_eq_true_eq]
    omega

theorem F32.neg_add (y : Nat) (hy : y < 2 ^ 31) :
    F32.neg y = 2 ^ 31 + y ∧ F32.neg (2 ^ 31 + y) = y := by
  unfold F32.neg F32.sign
  have h1 : ¬ y / 2 ^ 31 % 2 = 1 := by omega
  have h2 : (2 ^ 31 + y) / 2 ^ 31 % 2 = 1 := by omega
  simp only [h1, h2, decide_False, decide_True, Bool.false_eq_true, if_false, if_true]
  unfold F32 at *
  omega

theorem F32.mul_neg (x s : Nat) (hs : s < 2 ^ 32) (hxn : F32.isNaN x = false)
    (hsn : F32.isNaN s = false) (hp : F32.isNaN (F32.mul x s) = false) :
    F32.mul x (F32.neg s) = F32.neg (F32.mul x s) := by
  obtain ⟨f1, f2, f3⟩ := F32.neg_fields s hs
  have g1 : F32.isNaN (F32.neg s) = F32.isNaN s := by unfold F32.isNaN; rw [f2, f3]
  have g2 : F32.isInf (F32.neg s) = F32.isInf s := by unfold F32.isInf; rw [f2, f3]
  have g3 : F32.mant (F32.neg s) = F32.mant s := by unfold F32.mant; rw [f2, f3]
  have g4 : F32.scale (F32.neg s) = F32.scale s := by unfold F32.scale; rw [f2]
  have hmx : F32.mant x < 2 ^ 24 := by
    have := Nat.mod_lt x (by positivity : 0 < 2 ^ 23)
    unfold F32.mant F32.frac
    split <;> omega
  have hms : F32.mant s < 2 ^ 24 := by
    have := Nat.mod_lt s (by positivity : 0 < 2 ^ 23)
    unfold F32.mant F32.frac
    split <;> omega
  have hprod : F32.mant x * F32.mant s < 2 ^ 48 := by
    calc F32.mant x * F32.mant s < 2 ^ 24 * 2 ^ 24 :=
          Nat.mul_lt_mul'' hmx hms
      _ = 2 ^ 48 := by norm_num
  have key : ∀ (t : Bool) (y : Nat), y < 2 ^ 31 →
      F32.neg (F32.pack t 0 y) = F32.pack (!t) 0 y := by
    intro t y hy
    obtain ⟨n1, n2⟩ := F32.neg_add y hy
    cases t
    · have e1 : F32.pack false 0 y = y := by unfold F32.pack; simp
      have e2 : F32.pack (!false) 0 y = 2 ^ 31 + y := by unfold F32.pack; simp
      rw [e1, e2, n1]
    · have e1 : F32.pack true 0 y = 2 ^ 31 + y := by unfold F32.pack; simp
      have e2 : F32.pack (!true) 0 y = y := by unfold F32.pack; simp
      rw [e1, e2, n2]
  have pk : ∀ (t : Bool) (e f : Nat), F32.pack t e f = F32.pack t 0 (e * 2 ^ 23 + f) := by
    intro t e f
    unfold F32.pack
    change @Eq Nat _ _
    omega
  have rz : ∀ (t : Bool) (n : Nat) (q : Int),
      F32.roundZ t n q = F32.pack t 0 (F32.roundZ false n q) := by
    intro t n q
    cases t
    · unfold F32.pack; simp
    · rw [F32.roundZ_true]
      unfold F32.pack
      simp
  have hx : xor (F32.sign x) (!F32.sign s) = !(xor (F32.sign x) (F32.sign s)) := by
    cases F32.sign x <;> cases F32.sign s <;> rfl
  unfold F32.mul at hp ⊢
  rw [g1, g2, g3, g4, f1, hx]
  rw [hxn, hsn] at hp ⊢
  simp only [Bool.false_eq_true, if_false] at hp ⊢
  split
  · split
    · rename_i h1 h2
      rw [if_pos h1, if_pos h2] at hp
      exact absurd hp (by decide)
    · rw [pk _ 255 0, pk _ 255 0, key _ _ (by decide)]
  · split
    · rw [pk _ 0 0, pk _ 0 0, key _ _ (by decide)]
    · rw [rz (!(xor (F32.sign x) (F32.sign s))), rz (xor (F32.sign x) (F32.sign s)),
        key _ _ (F32.roundZ_lt _ _ hprod)]

/-! ## The conversion of the coordinates -/

theorem F32.mul_one_eq (x : Nat) (h : x < 2 ^ 32) (hx : F32.isNaN x = false) :
    F32.mul x F32.one = x := by
  rw [F32.mul_unit x F32.one hx (by decide) (by decide)]
  have : F32.sign F32.one = false := by decide
  rw [this, Bool.xor_false]
  exact F32.pack_unpack x h

theorem F32.mul_negOne_eq (x : Nat) (h : x < 2 ^ 32) (hx : F32.isNaN x = false) :
    F32.mul x F32.negOne = F32.neg x := by
  rw [F32.mul_unit x F32.negOne hx (by decide) (by decide), F32.neg_eq x h]
  have : F32.sign F32.negOne = true := by decide
  rw [this, Bool.xor_true]

theorem pos_conv_mat_eq (scale : Nat) (hs : scale < 2 ^ 32)
    (hsn : F32.isNaN scale = false) :
    pos_conv_mat scale = ⟨scale, scale, F32.neg scale⟩ := by
  have h1 : F32.mul F32.one F32.one = F32.one := by decide
  have h2 : F32.mul F32.one F32.negOne = F32.negOne := by decide
  have n1 : F32.isNaN F32.one = false := by decide
  have n2 : F32.isNaN F32.negOne = false := by decide
  unfold pos_conv_mat axis_mat UT_Matrix4.scale UT_Matrix4.ofDiagonal
  simp only [h1, h2]
  rw [F32.mul_comm_of_not_nan F32.one scale n1 hsn,
    F32.mul_comm_of_not_nan F32.negOne scale n2 hsn,
    F32.mul_one_eq scale hs hsn, F32.mul_negOne_eq scale hs hsn]

theorem read_UT_Vector3_lt {buf : List Byte} {cur c : Int} {v : UT_Vector3}
    (h : read_UT_Vector3 buf cur = some (v, c)) :
    v.x < 2 ^ 32 ∧ v.y < 2 ^ 32 ∧ v.z < 2 ^ 32 := by
  unfold read_UT_Vector3 at h
  obtain ⟨bs, c1, h1, g⟩ := Decoder.bind_eq_some.1 h
  obtain ⟨_, _, e⟩ := read_some h1
  have hl : bs.length ≤ 12 := by
    rw [e, List.length_take]
    omega
  simp only [Decoder.pure_apply, Option.some.injEq, Prod.mk.injEq] at g
  rw [← g.1]
  have b4 : ∀ l : List Byte, l.length ≤ 4 → leNat l < 2 ^ 32 := by
    intro l hl4
    have h1 := leNat_lt l
    have h2 : 256 ^ l.length ≤ 256 ^ 4 := Nat.pow_le_pow_right (by decide) hl4
    have h3 : (256 : Nat) ^ 4 = 2 ^ 32 := by decide
    omega
  refine ⟨b4 _ ?_, b4 _ ?_, b4 _ ?_⟩
  · rw [List.length_take]; omega
  · rw [List.length_take]; omega
  · rw [List.length_drop]; omega

theorem readVertex_lt {cfg : Config} {buf : List Byte} {cur c : Int} {v : VertexRecord}
    (h : readVertex cfg buf cur = some (v, c)) :
    (v.position.x < 2 ^ 32 ∧ v.position.y < 2 ^ 32 ∧ v.position.z < 2 ^ 32)
    ∧ (v.normal.x < 2 ^ 32 ∧ v.normal.y < 2 ^ 32 ∧ v.normal.z < 2 ^ 32) := by
  unfold readVertex at h
  obtain ⟨position, c1, h1, g1⟩ := Decoder.bind_eq_some.1 h
  obtain ⟨normal, c2, h2, g2⟩ := Decoder.bind_eq_some.1 g1
  obtain ⟨uv, c3, h3, g3⟩ := Decoder.bind_eq_some.1 g2
  obtain ⟨additional, c4, h4, g4⟩ := Decoder.bind_eq_some.1 g3
  obtain ⟨bw, c5, h5, g5⟩ := Decoder.bind_eq_some.1 g4
  obtain ⟨edge_rate, c6, h6, g6⟩ := Decoder.bind_eq_some.1 g5
  simp only [Decoder.pure_apply, Option.some.injEq, Prod.mk.injEq] at g6
  rw [← g6.1]
  exact ⟨read_UT_Vector3_lt h1, read_UT_Vector3_lt h2⟩

theorem times_forall {α : Type} {step : Decoder α} (P : α → Prop)
    (hs : ∀ buf cur a c, step buf cur = some (a, c) → P a) :
    ∀ (n : Nat) {buf : List Byte} {cur c : Int} {as : List α},
      Decoder.times n step buf cur = some (as, c) → ∀ a ∈ as, P a
  | 0, buf, cur, c, as, h => by
    simp only [Decoder.times, Decoder.pure_apply, Option.some.injEq, Prod.mk.injEq] at h
    rw [← h.1]
    intro a ha
    exact absurd ha (List.not_mem_nil a)
  | n + 1, buf, cur, c, as, h => by
    unfold Decoder.times at h
    obtain ⟨a0, c1, h1, g1⟩ := Decoder.bind_eq_some.1 h
    obtain ⟨rest, c2, h2, g2⟩ := Decoder.bind_eq_some.1 g1
    simp only [Decoder.pure_apply, Option.some.injEq, Prod.mk.injEq] at g2
    rw [← g2.1]
    intro a ha
    rcases List.mem_cons.1 ha with rfl | hr
    · exact hs _ _ _ _ h1
    · exact times_forall P hs n h2 a hr

theorem readModel_lt {cfg : Config} {buf : List Byte} {cur c : Int} {m : Model}
    (h : readModel cfg buf cur = some (some m, c)) :
    (∀ p ∈ m.position_array, p.x < 2 ^ 32 ∧ p.y < 2 ^ 32 ∧ p.z < 2 ^ 32)
    ∧ (∀ v ∈ m.normal_array, v.x < 2 ^ 32 ∧ v.y < 2 ^ 32 ∧ v.z < 2 ^ 32) := by
  unfold readModel at h
  obtain ⟨model_name, c1, h1, g1⟩ := Decoder.bind_eq_some.1 h
  obtain ⟨model_name_en, c2, h2, g2⟩ := Decoder.bind_eq_some.1 g1
  obtain ⟨comment, c3, h3, g3⟩ := Decoder.bind_eq_some.1 g2
  obtain ⟨comment_en, c4, h4, g4⟩ := Decoder.bind_eq_some.1 g3
  obtain ⟨num_vertices, c5, h5, g5⟩ := Decoder.bind_eq_some.1 g4
  obtain ⟨vertices, c6, h6, g6⟩ := Decoder.bind_eq_some.1 g5
  obtain ⟨face_index_count, c7, h7, g7⟩ := Decoder.bind_eq_some.1 g6
  have hv := times_forall
    (fun v : VertexRecord =>
      (v.position.x < 2 ^ 32 ∧ v.position.y < 2 ^ 32 ∧ v.position.z < 2 ^ 32)
      ∧ (v.normal.x < 2 ^ 32 ∧ v.normal.y < 2 ^ 32 ∧ v.normal.z < 2 ^ 32))
    (fun _ _ _ _ hstep => readVertex_lt hstep) _ h6
  split at g7
  · simp only [Decoder.pure_apply, Option.some.injEq, Prod.mk.injEq] at g7
    exact absurd g7.1 (by simp)
  · obtain ⟨indices, c8, h8, g8⟩ := Decoder.bind_eq_some.1 g7
    obtain ⟨texture_count, c9, h9, g9⟩ := Decoder.bind_eq_some.1 g8
    obtain ⟨texture_array, c10, h10, g10⟩ := Decoder.bind_eq_some.1 g9
    obtain ⟨material_count, c11, h11, g11⟩ := Decoder.bind_eq_some.1 g10
    obtain ⟨materials, c12, h12, g12⟩ := Decoder.bind_eq_some.1 g11
    simp only [Decoder.pure_apply, Option.some.injEq, Prod.mk.injEq] at g12
    obtain ⟨rfl, _⟩ := g12
    constructor
    · intro p hp
      obtain ⟨v, hvm, rfl⟩ := List.mem_map.1 hp
      exact (hv v hvm).1
    · intro p hp
      obtain ⟨v, hvm, rfl⟩ := List.mem_map.1 hp
      exact (hv v hvm).2

/-- C15: with the two products of `cook` taken for the node parameter `scale` (a number,
as a `float`), the position of every point is the raw position `(x, y, z)` of its
vertex turned into `(scale * x, scale * y, -(scale * z))`, and the normal is the raw
normal `(nx, ny, nz)` turned into `(nx, ny, -nz)`, not scaled.  The products are those
of binary32 and the equalities are equalities of 32-bit patterns, for raw components
that are numbers; the raw components that `cook` reads are 32-bit patterns. -/
theorem assemble_coordinates (scale : Nat) (hs : scale < 2 ^ 32)
    (hsn : F32.isNaN scale = false) :
    (axis_mat = ⟨F32.one, F32.one, F32.negOne⟩
      ∧ pos_conv_mat scale = ⟨scale, scale, F32.neg scale⟩)
    ∧ (∀ (filepath : String) (m : Model),
        (assemble (Conv.ofScale scale) filepath m).detail.points
          = m.position_array.map (fun p =>
              ⟨F32.mul p.x scale, F32.mul p.y scale, F32.mul p.z (F32.neg scale)⟩)
        ∧ (assemble (Conv.ofScale scale) filepath m).detail.N
          = some (m.normal_array.map (fun v =>
              ⟨F32.mul v.x F32.one, F32.mul v.y F32.one, F32.mul v.z F32.negOne⟩)))
    ∧ (∀ (cfg : Config) (buf : List Byte) (cur c : Int) (m : Model),
        readModel cfg buf cur = some (some m, c) →
        (∀ p ∈ m.position_array, p.x < 2 ^ 32 ∧ p.y < 2 ^ 32 ∧ p.z < 2 ^ 32)
        ∧ (∀ v ∈ m.normal_array, v.x < 2 ^ 32 ∧ v.y < 2 ^ 32 ∧ v.z < 2 ^ 32))
    ∧ (∀ p : UT_Vector3, p.x < 2 ^ 32 ∧ p.y < 2 ^ 32 ∧ p.z < 2 ^ 32 →
        F32.isNaN p.x = false ∧ F32.isNaN p.y = false ∧ F32.isNaN p.z = false →
        (Conv.ofScale scale).axis p = ⟨p.x, p.y, F32.neg p.z⟩
        ∧ (Conv.ofScale scale).pos_conv p
            = ⟨F32.mul scale p.x, F32.mul scale p.y, F32.mul (F32.neg scale) p.z⟩
        ∧ (F32.isNaN (F32.mul scale p.z) = false →
            (Conv.ofScale scale).pos_conv p
              = ⟨F32.mul scale p.x, F32.mul scale p.y, F32.neg (F32.mul scale p.z)⟩)) := by
  have hpos := pos_conv_mat_eq scale hs hsn
  refine ⟨⟨by decide, hpos⟩, ?_, ?_, ?_⟩
  · intro filepath m
    have e1 : (Conv.ofScale scale).pos_conv = fun p =>
        ⟨F32.mul p.x scale, F32.mul p.y scale, F32.mul p.z (F32.neg scale)⟩ := by
      funext p
      show p.mulMatrix (pos_conv_mat scale) = _
      rw [hpos]
      rfl
    have e2 : (Conv.ofScale scale).axis = fun v =>
        ⟨F32.mul v.x F32.one, F32.mul v.y F32.one, F32.mul v.z F32.negOne⟩ := by
      funext v
      rfl
    unfold assemble
    simp only
    split
    · exact ⟨by rw [e1], by rw [e2]⟩
    · exact ⟨by rw [e1], by rw [e2]⟩
  · intro cfg buf cur c m h
    exact readModel_lt h
  · intro p hlt hnan
    obtain ⟨l1, l2, l3⟩ := hlt
    obtain ⟨n1, n2, n3⟩ := hnan
    have hnn : F32.isNaN (F32.neg scale) = false := by
      obtain ⟨_, f2, f3⟩ := F32.neg_fields scale hs
      unfold F32.isNaN
      rw [f2, f3]
      exact hsn
    have ea : (Conv.ofScale scale).axis p = ⟨p.x, p.y, F32.neg p.z⟩ := by
      show p.mulMatrix axis_mat = _
      have : axis_mat = ⟨F32.one, F32.one, F32.negOne⟩ := by decide
      rw [this]
      unfold UT_Vector3.mulMatrix
      rw [F32.mul_one_eq p.x l1 n1, F32.mul_one_eq p.y l2 n2, F32.mul_negOne_eq p.z l3 n3]
    have ep : (Conv.ofScale scale).pos_conv p
        = ⟨F32.mul scale p.x, F32.mul scale p.y, F32.mul (F32.neg scale) p.z⟩ := by
      show p.mulMatrix (pos_conv_mat scale) = _
      rw [hpos]
      unfold UT_Vector3.mulMatrix
      rw [F32.mul_comm_of_not_nan p.x scale n1 hsn, F32.mul_comm_of_not_nan p.y scale n2 hsn,
        F32.mul_comm_of_not_nan p.z (F32.neg scale) n3 hnn]
    refine ⟨ea, ep, ?_⟩
    intro hp
    rw [ep, F32.mul_comm_of_not_nan (F32.neg scale) p.z hnn n3]
    rw [F32.mul_comm_of_not_nan scale p.z hsn n3] at hp ⊢
    rw [F32.mul_neg p.z scale hs n3 hsn hp]

theorem assemble_coordinates_witness :
    pos_conv_mat 0x3DCCCCCD = ⟨0x3DCCCCCD, 0x3DCCCCCD, 0xBDCCCCCD⟩
    ∧ (Conv.ofScale 0x3DCCCCCD).pos_conv ⟨0x3F800000, 0x40000000, 0x40400000⟩
        = ⟨0x3DCCCCCD, 0x3E4CCCCD, 0xBE99999A⟩
    ∧ (assemble (Conv.ofScale 0x3DCCCCCD) "a.pmx" modelIndexPastEnd).detail.points
        = [⟨0x3DCCCCCD, 0x3E4CCCCD, 0xBE99999A⟩]
    ∧ (assemble (Conv.ofScale 0x3DCCCCCD) "a.pmx" modelIndexPastEnd).detail.N
        = some [⟨0, 0x3F800000, 0x80000000⟩] :=
  have h := assemble_coordinates 0x3DCCCCCD (by decide) (by decide)
  ⟨h.1.2.trans (by decide),
    ((h.2.2.2 ⟨0x3F800000, 0x40000000, 0x40400000⟩ (by decide) (by decide)).2.2
      (by decide)).trans (by decide),
    (h.2.1 "a.pmx" modelIndexPastEnd).1.trans (by decide),
    (h.2.1 "a.pmx" modelIndexPastEnd).2.trans (by decide)⟩

end PMX
